import Mathlib

/-
Verification of the gladier repository's core subsystems:
the modifier resolution engine (gladier/utils/flow_modifiers.py)
and the registration cache / run orchestrator (gladier/client.py).

Python data is shallowly embedded:
* Python dicts are association lists (`Dict`) with the usual dict
  semantics: assignment replaces the first matching key in place or
  appends at the end, `pop` removes the key, lookups return the first
  match (Python dicts have unique keys, which first-match respects).
* Python values occurring in flow state graphs are the inductive `Value`
  (strings, ints, funcx function objects, lists, dicts).
* `str.startswith` is `py_startswith` (prefix test on the character
  list), `in` on strings is `py_substring` (infix test).
* Raised exceptions are modelled with `Option`/`Except`: `none`/`.error`
  means the Python code raises.
-/

namespace Gladier

/-- A funcx function object.  `name` models `__name__`; `uid` keeps
distinct function objects distinct even when their names collide
(Python compares function objects by identity). -/
structure Func where
  uid : Nat
  name : String
deriving DecidableEq, Repr

/-- A Python value as it occurs in flow state graphs and modifiers. -/
inductive Value where
  | str : String → Value
  | int : Int → Value
  | func : Func → Value
  | list : List Value → Value
  | dict : List (String × Value) → Value

/-- A Python dict with string keys, as an association list. -/
abbrev Dict := List (String × Value)

/-- A config section (configparser): a Python dict with string values. -/
abbrev Cfg := List (String × String)

/-- `k in d` for a Python dict. -/
def hasKey {α : Type} : List (String × α) → String → Bool
  | [], _ => false
  | p :: d, k => if p.1 = k then true else hasKey d k

/-- `d.get(k)` / `d[k]` for a Python dict (first match; Python dicts
have unique keys, which first-match respects). -/
def lookupKey {α : Type} : List (String × α) → String → Option α
  | [], _ => none
  | p :: d, k => if p.1 = k then some p.2 else lookupKey d k

/-- `d.pop(k)` (the resulting dict): removes the entry with key `k`. -/
def popKey {α : Type} : List (String × α) → String → List (String × α)
  | [], _ => []
  | p :: d, k => if p.1 = k then popKey d k else p :: popKey d k

/-- `d[k] = v` for a Python dict: replaces the first entry with key `k`
in place, or appends at the end when the key is absent. -/
def setKey {α : Type} : List (String × α) → String → α → List (String × α)
  | [], k, v => [(k, v)]
  | p :: d, k, v => if p.1 = k then (k, v) :: d else p :: setKey d k v

/-- Python `s.startswith(pre)`. -/
def py_startswith (s pre : String) : Bool :=
  pre.data.isPrefixOf s.data

/-- Auxiliary for `py_substring`: infix test on character lists. -/
def substrAux (p : List Char) : List Char → Bool
  | [] => p.isEmpty
  | c :: t => p.isPrefixOf (c :: t) || substrAux p t

/-- Python `sub in s` on strings. -/
def py_substring (sub s : String) : Bool :=
  substrAux sub.data s.data

/-- `Value.asDict`: the dict payload, when the value is a dict
(a non-dict here corresponds to a Python TypeError/AttributeError at
the use sites). -/
def Value.asDict : Value → Option Dict
  | .dict d => some d
  | _ => none

/-- `Value.asList`: the list payload, when the value is a list. -/
def Value.asList : Value → Option (List Value)
  | .list l => some l
  | _ => none

/-- A Python list comprehension over a fallible element transform:
`none` as soon as one element fails. -/
def mapOption (f : Value → Option Value) : List Value → Option (List Value)
  | [] => some []
  | t :: ts =>
      match f t, mapOption f ts with
      | some t2, some ts2 => some (t2 :: ts2)
      | _, _ => none

/-! ## flow_modifiers.py -/

/-- `funcx_modifiers` (flow_modifiers.py line 6). -/
def funcx_modifiers : List String := ["endpoint", "payload", "tasks"]

/-- `state_modifiers` (flow_modifiers.py line 7). -/
def state_modifiers : List String := ["InputPath", "ResultPath", "WaitTime"]

/-- `FlowModifiers.supported_modifiers` (line 11): the union of the state
and funcx modifier sets. -/
def supported_modifiers : List String := state_modifiers ++ funcx_modifiers

/-- The `FlowModifiers` instance data (lines 15–22): `functions` is the
concatenation of the tools' `funcx_functions`; `modifiers` is the
modifier dict, keyed by a function identifier (a name string or a
function object). -/
structure FlowModifiers where
  functions : List Func
  modifiers : List (Value × Dict)

/-- `self.function_names` (line 19). -/
def function_names (fm : FlowModifiers) : List String :=
  fm.functions.map Func.name

/-- `self.state_names` (line 20).  `sn` is
`gladier.utils.name_generation.get_funcx_flow_state_name`, an external
pure function of the funcx function, kept abstract. -/
def state_names (sn : Func → String) (fm : FlowModifiers) : List String :=
  fm.functions.map sn

/-- `FlowModifiers.get_function` (lines 24–28): a name resolves to the
first configured function with that `__name__`; a function object
resolves to itself when configured; anything else returns `None`. -/
def get_function (fm : FlowModifiers) (function_identifier : Value) : Option Func :=
  match function_identifier with
  | .str s =>
      if s ∈ function_names fm then
        fm.functions[(function_names fm).indexOf s]?
      else none
  | .func f => if f ∈ fm.functions then some f else none
  | _ => none

/-- `FlowModifiers.get_flow_state_name` (lines 30–32); `none` models the
crash of `get_funcx_flow_state_name(None)` on an unknown identifier. -/
def get_flow_state_name (sn : Func → String) (fm : FlowModifiers)
    (function_identifier : Value) : Option String :=
  (get_function fm function_identifier).map sn

/-- `FlowModifiers.get_state_result_path` (lines 34–35). -/
def get_state_result_path (state_name : String) : String :=
  "$." ++ state_name ++ ".details.results"

/-- `FlowModifiers.check_modifiers` (lines 37–53); `true` means no
`FlowModifierException` is raised (the dict-shape check of line 39 is
enforced by the type of `modifiers`). -/
def check_modifiers (fm : FlowModifiers) : Bool :=
  fm.modifiers.all fun nm =>
    (get_function fm nm.1).isSome &&
      nm.2.all fun mv => supported_modifiers.contains mv.1

/-- The value-resolution steps of `generic_set_modifier`
(lines 83–94): non-string values that are configured function objects
become that function's state result path; strings not starting with the
`$.` sentinel become a function result path, a state result path, or an
external-input reference; everything else is unchanged. -/
def resolve_mod_value (sn : Func → String) (fm : FlowModifiers) (mod_value : Value) : Value :=
  match mod_value with
  | .str s =>
      if py_startswith s "$." then .str s
      else if s ∈ function_names fm then
        .str (get_state_result_path
          (((state_names sn fm)[(function_names fm).indexOf s]?).getD ""))
      else if s ∈ state_names sn fm then .str (get_state_result_path s)
      else .str ("$.input." ++ s)
  | .func f =>
      if f ∈ fm.functions then .str (get_state_result_path (sn f)) else .func f
  | v => v

/-- The key actually written by `generic_set_modifier` (lines 101–102):
the reference-suffixed `mod_name.$` when the resolved value is a string
starting with `$.`, the plain `mod_name` otherwise. -/
def ref_key (mod_name : String) (mv : Value) : String :=
  match mv with
  | .str s => if py_startswith s "$." then mod_name ++ ".$" else mod_name
  | _ => mod_name

/-- `FlowModifiers.generic_set_modifier` (lines 82–105): resolve the
value, remove the duplicate keys `mod_name` and `mod_name.$`, then write
under `ref_key`. -/
def generic_set_modifier (sn : Func → String) (fm : FlowModifiers)
    (item : Dict) (mod_name : String) (mod_value : Value) : Dict :=
  let mv := resolve_mod_value sn fm mod_value
  let item2 := popKey (popKey item mod_name) (mod_name ++ ".$")
  setKey item2 (ref_key mod_name mv) mv

/-- One iteration of the loop in `FlowModifiers.apply_modifier`
(lines 63–79), for a single `(modifier_name, value)` pair.  `none`
models the KeyError/TypeError raised by the Python code when the state
lacks the required `Parameters`/`tasks` structure, and the KeyError of
`flow_state.pop('InputPath.$')` when the resolved `InputPath` value was
not stored under the reference-suffixed key. -/
def apply_one_modifier (sn : Func → String) (fm : FlowModifiers)
    (flow_state : Dict) (modifier_name : String) (value : Value) : Option Dict :=
  if modifier_name ∈ funcx_modifiers then
    if modifier_name = "tasks" then
      match lookupKey flow_state "Parameters" with
      | some (.dict params) =>
          some (setKey flow_state "Parameters"
            (.dict (generic_set_modifier sn fm params "tasks" value)))
      | _ => none
    else
      match lookupKey flow_state "Parameters" with
      | some (.dict params) =>
          match lookupKey params "tasks" with
          | some (.list tasks) =>
              match mapOption (fun t =>
                  t.asDict.map fun d =>
                    Value.dict (generic_set_modifier sn fm d modifier_name value)) tasks with
              | some tasks2 =>
                  some (setKey flow_state "Parameters"
                    (.dict (setKey params "tasks" (.list tasks2))))
              | none => none
          | _ => none
      | _ => none
  else if modifier_name ∈ state_modifiers then
    let fs := generic_set_modifier sn fm flow_state modifier_name value
    if modifier_name = "InputPath" ∧ hasKey fs "Parameters" then
      let fs2 := popKey fs "Parameters"
      match lookupKey fs2 "InputPath.$" with
      | some v => some (setKey (popKey fs2 "InputPath.$") "InputPath" v)
      | none => none
    else some fs
  else some flow_state

/-- `FlowModifiers.apply_modifier` (lines 61–80): fold
`apply_one_modifier` over the directive's modifier dict. -/
def apply_modifier (sn : Func → String) (fm : FlowModifiers)
    (flow_state : Dict) (mods : Dict) : Option Dict :=
  mods.foldlM (fun st p => apply_one_modifier sn fm st p.1 p.2) flow_state

/-- `FlowModifiers.apply_modifiers` (lines 55–59): for each directive,
resolve the target's state name and rewrite `flow['States'][state_name]`
in place. -/
def apply_modifiers (sn : Func → String) (fm : FlowModifiers) (flow : Dict) : Option Dict :=
  fm.modifiers.foldlM
    (fun fl nm => do
      let f ← get_function fm nm.1
      let states ← (lookupKey fl "States").bind Value.asDict
      let st ← (lookupKey states (sn f)).bind Value.asDict
      let st2 ← apply_modifier sn fm st nm.2
      pure (setKey fl "States" (.dict (setKey states (sn f) (.dict st2)))))
    flow

/-! ## Dict lemmas -/

theorem lookupKey_popKey_self {α : Type} (d : List (String × α)) (k : String) :
    lookupKey (popKey d k) k = none := by
  induction d with
  | nil => rfl
  | cons p t ih => by_cases h : p.1 = k <;> simp [popKey, lookupKey, h, ih]

theorem hasKey_popKey_self {α : Type} (d : List (String × α)) (k : String) :
    hasKey (popKey d k) k = false := by
  induction d with
  | nil => rfl
  | cons p t ih => by_cases h : p.1 = k <;> simp [popKey, hasKey, h, ih]

theorem lookupKey_popKey_ne {α : Type} (d : List (String × α)) (k k' : String) (h : k' ≠ k) :
    lookupKey (popKey d k) k' = lookupKey d k' := by
  have hk : ¬ k = k' := fun hh => h hh.symm
  induction d with
  | nil => rfl
  | cons p t ih =>
      by_cases hp : p.1 = k
      · have hp' : ¬ p.1 = k' := by rw [hp]; exact hk
        simp [popKey, lookupKey, hp, hp', hk, ih]
      · by_cases hp' : p.1 = k' <;> simp [popKey, lookupKey, hp, hp', h, hk, ih]

theorem hasKey_popKey_ne {α : Type} (d : List (String × α)) (k k' : String) (h : k' ≠ k) :
    hasKey (popKey d k) k' = hasKey d k' := by
  have hk : ¬ k = k' := fun hh => h hh.symm
  induction d with
  | nil => rfl
  | cons p t ih =>
      by_cases hp : p.1 = k
      · have hp' : ¬ p.1 = k' := by rw [hp]; exact hk
        simp [popKey, hasKey, hp, hp', hk, ih]
      · by_cases hp' : p.1 = k' <;> simp [popKey, hasKey, hp, hp', h, hk, ih]

theorem setKey_of_hasKey_false {α : Type} (d : List (String × α)) (k : String) (v : α)
    (h : hasKey d k = false) : setKey d k v = d ++ [(k, v)] := by
  induction d with
  | nil => rfl
  | cons p t ih =>
      by_cases hp : p.1 = k
      · simp [hasKey, hp] at h
      · simp [hasKey, hp] at h
        simp [setKey, hp, ih h]

theorem lookupKey_setKey_self {α : Type} (d : List (String × α)) (k : String) (v : α) :
    lookupKey (setKey d k v) k = some v := by
  induction d with
  | nil => simp [setKey, lookupKey]
  | cons p t ih => by_cases hp : p.1 = k <;> simp [setKey, lookupKey, hp, ih]

theorem lookupKey_setKey_ne {α : Type} (d : List (String × α)) (k k' : String) (v : α) (h : k' ≠ k) :
    lookupKey (setKey d k v) k' = lookupKey d k' := by
  have hk : ¬ k = k' := fun hh => h hh.symm
  induction d with
  | nil => simp [setKey, lookupKey, hk]
  | cons p t ih =>
      by_cases hp : p.1 = k
      · have hp' : ¬ p.1 = k' := by rw [hp]; exact hk
        simp [setKey, lookupKey, hp, hp', hk]
      · by_cases hp' : p.1 = k' <;> simp [setKey, lookupKey, hp, hp', h, hk, ih]

theorem string_append_data (a b : String) : (a ++ b).data = a.data ++ b.data := by
  cases a with
  | mk l =>
      cases b with
      | mk m => rfl

/-- `"$." ++ r` starts with the path sentinel. -/
theorem py_startswith_dollar (r : String) :
    py_startswith ("$." ++ r) "$." = true := by
  have hdata : ("$." ++ r).data = '$' :: '.' :: r.data := by
    rw [string_append_data]; rfl
  simp [py_startswith, hdata, List.isPrefixOf]

theorem input_prefix_eq (s : String) : "$.input." ++ s = "$." ++ ("input." ++ s) := by
  cases s with
  | mk l => rfl

theorem ne_append_dollar_suffix (k : String) : k ≠ k ++ ".$" := by
  intro h
  have h1 := congrArg String.length h
  have h2 : (k ++ ".$").length = k.length + 2 := by
    have : (".$" : String).length = 2 := rfl
    rw [String.length_append, this]
  omega

/-- `ref_key` picks the reference-suffixed key for path strings. -/
theorem ref_key_of_path (k s : String) (h : py_startswith s "$." = true) :
    ref_key k (.str s) = k ++ ".$" := by
  simp [ref_key, h]

/-- `ref_key` picks the plain key for non-path strings. -/
theorem ref_key_of_non_path (k s : String) (h : py_startswith s "$." = false) :
    ref_key k (.str s) = k := by
  simp [ref_key, h]

/-- `ref_key` is always the plain key or its `.$`-suffixed twin. -/
theorem ref_key_cases (k : String) (mv : Value) :
    ref_key k mv = k ∨ ref_key k mv = k ++ ".$" := by
  cases mv with
  | str s =>
      by_cases h : py_startswith s "$." = true
      · exact .inr (by simp [ref_key, h])
      · refine .inl (by simp [ref_key]; intro hh; exact absurd hh h)
  | int n => exact .inl rfl
  | func f => exact .inl rfl
  | list l => exact .inl rfl
  | dict d => exact .inl rfl

theorem function_names_getElem? (fm : FlowModifiers) (i : Nat) :
    (function_names fm)[i]? = (fm.functions[i]?).map Func.name := by
  simp [function_names]

theorem state_names_getElem? (sn : Func → String) (fm : FlowModifiers) (i : Nat) :
    (state_names sn fm)[i]? = (fm.functions[i]?).map sn := by
  simp [state_names]

theorem hasKey_setKey_self {α : Type} (d : List (String × α)) (k : String) (v : α) :
    hasKey (setKey d k v) k = true := by
  induction d with
  | nil => simp [setKey, hasKey]
  | cons p t ih => by_cases hp : p.1 = k <;> simp [setKey, hasKey, hp, ih]

theorem hasKey_setKey_ne {α : Type} (d : List (String × α)) (k k' : String) (v : α) (h : k' ≠ k) :
    hasKey (setKey d k v) k' = hasKey d k' := by
  have hk : ¬ k = k' := fun hh => h hh.symm
  induction d with
  | nil => simp [setKey, hasKey, hk]
  | cons p t ih =>
      by_cases hp : p.1 = k
      · have hp' : ¬ p.1 = k' := by rw [hp]; exact hk
        simp [setKey, hasKey, hp, hp', hk]
      · by_cases hp' : p.1 = k' <;> simp [setKey, hasKey, hp, hp', h, hk, ih]

/-- A state result path starts with the path sentinel. -/
theorem py_startswith_result_path (x : String) :
    py_startswith (get_state_result_path x) "$." = true := by
  have hdata : (get_state_result_path x).data
      = '$' :: '.' :: (x.data ++ ".details.results".data) := by
    unfold get_state_result_path
    rw [string_append_data, string_append_data]
    rfl
  simp [py_startswith, hdata, List.isPrefixOf]

/-- When the resolved value is a path string, `generic_set_modifier`
stores it under the reference-suffixed key and leaves no plain key. -/
theorem generic_set_modifier_path_store (sn : Func → String) (fm : FlowModifiers)
    (item : Dict) (k : String) (v : Value) (s : String)
    (hres : resolve_mod_value sn fm v = .str s)
    (hsw : py_startswith s "$." = true) :
    lookupKey (generic_set_modifier sn fm item k v) (k ++ ".$") = some (.str s) ∧
    lookupKey (generic_set_modifier sn fm item k v) k = none := by
  constructor
  · simp only [generic_set_modifier]
    rw [hres, ref_key_of_path _ _ hsw]
    exact lookupKey_setKey_self _ _ _
  · simp only [generic_set_modifier]
    rw [hres, ref_key_of_path _ _ hsw]
    rw [lookupKey_setKey_ne _ _ _ _ (ne_append_dollar_suffix k)]
    rw [lookupKey_popKey_ne _ _ _ (ne_append_dollar_suffix k), lookupKey_popKey_self]

/-! ## Claim C1 -/

/-- **C1.**  For every modifier value that is a string, does not start
with the path-reference sentinel `$.`, and is neither a configured
function name nor a derived state name, `generic_set_modifier` rewrites
it to exactly `$.input.<value>` and, because the rewritten value starts
with `$.`, stores it under the reference-suffixed key `<key>.$` (and
leaves no plain `<key>` entry). -/
theorem c1_input_reference_rewrite (sn : Func → String) (fm : FlowModifiers)
    (item : Dict) (k s : String)
    (h1 : py_startswith s "$." = false)
    (h2 : s ∉ function_names fm)
    (h3 : s ∉ state_names sn fm) :
    resolve_mod_value sn fm (.str s) = .str ("$.input." ++ s) ∧
    lookupKey (generic_set_modifier sn fm item k (.str s)) (k ++ ".$")
      = some (.str ("$.input." ++ s)) ∧
    lookupKey (generic_set_modifier sn fm item k (.str s)) k = none := by
  have hres : resolve_mod_value sn fm (.str s) = .str ("$.input." ++ s) := by
    simp [resolve_mod_value, h1, h2, h3]
  have hsw : py_startswith ("$.input." ++ s) "$." = true := by
    rw [input_prefix_eq]; exact py_startswith_dollar _
  have hkne : k ≠ k ++ ".$" := ne_append_dollar_suffix k
  refine ⟨hres, ?_, ?_⟩
  · simp only [generic_set_modifier]
    rw [hres, ref_key_of_path _ _ hsw]
    exact lookupKey_setKey_self _ _ _
  · simp only [generic_set_modifier]
    rw [hres, ref_key_of_path _ _ hsw]
    rw [lookupKey_setKey_ne _ _ _ _ hkne]
    rw [lookupKey_popKey_ne _ _ _ hkne, lookupKey_popKey_self]

/-- Witness for C1 at a concrete input. -/
theorem c1_witness :
    (py_startswith "ep-uuid" "$." = false ∧
     "ep-uuid" ∉ function_names ⟨[], []⟩ ∧
     "ep-uuid" ∉ state_names (fun _ => "X") ⟨[], []⟩) ∧
    (resolve_mod_value (fun _ => "X") ⟨[], []⟩ (.str "ep-uuid")
        = .str ("$.input." ++ "ep-uuid") ∧
     lookupKey (generic_set_modifier (fun _ => "X") ⟨[], []⟩ [] "endpoint" (.str "ep-uuid"))
        ("endpoint" ++ ".$") = some (.str ("$.input." ++ "ep-uuid")) ∧
     lookupKey (generic_set_modifier (fun _ => "X") ⟨[], []⟩ [] "endpoint" (.str "ep-uuid"))
        "endpoint" = none) :=
  ⟨⟨by decide, by simp [function_names], by simp [state_names]⟩,
   c1_input_reference_rewrite (fun _ => "X") ⟨[], []⟩ [] "endpoint" "ep-uuid"
     (by decide) (by simp [function_names]) (by simp [state_names])⟩

/-! ## Claim C6 -/

/-- **C6.**  Every modifier value that identifies a configured function —
the function object, the function name, or the derived state name —
resolves to exactly `$.<stateName>.details.results` for that function's
derived state name and is stored by `generic_set_modifier` under the
reference-suffixed key, with no plain key left.  (Function and state
names are Python identifiers, so they never start with `$.`.) -/
theorem c6_function_identifier_result_path (sn : Func → String) (fm : FlowModifiers)
    (item : Dict) (k : String) :
    (∀ f, f ∈ fm.functions →
      resolve_mod_value sn fm (.func f) = .str (get_state_result_path (sn f)) ∧
      lookupKey (generic_set_modifier sn fm item k (.func f)) (k ++ ".$")
        = some (.str (get_state_result_path (sn f))) ∧
      lookupKey (generic_set_modifier sn fm item k (.func f)) k = none) ∧
    (∀ s, py_startswith s "$." = false → s ∈ function_names fm →
      ∃ f, fm.functions[(function_names fm).indexOf s]? = some f ∧
        f ∈ fm.functions ∧ f.name = s ∧
        resolve_mod_value sn fm (.str s) = .str (get_state_result_path (sn f)) ∧
        lookupKey (generic_set_modifier sn fm item k (.str s)) (k ++ ".$")
          = some (.str (get_state_result_path (sn f))) ∧
        lookupKey (generic_set_modifier sn fm item k (.str s)) k = none) ∧
    (∀ s, py_startswith s "$." = false → s ∉ function_names fm →
        s ∈ state_names sn fm →
      resolve_mod_value sn fm (.str s) = .str (get_state_result_path s) ∧
      lookupKey (generic_set_modifier sn fm item k (.str s)) (k ++ ".$")
        = some (.str (get_state_result_path s)) ∧
      lookupKey (generic_set_modifier sn fm item k (.str s)) k = none) := by
  refine ⟨?_, ?_, ?_⟩
  · intro f hf
    have hres : resolve_mod_value sn fm (.func f) = .str (get_state_result_path (sn f)) := by
      simp [resolve_mod_value, hf]
    exact ⟨hres,
      generic_set_modifier_path_store sn fm item k _ _ hres (py_startswith_result_path _)⟩
  · intro s h1 h2
    have hlt2 : (function_names fm).indexOf s < (function_names fm).length :=
      List.indexOf_lt_length.mpr h2
    have hlt : (function_names fm).indexOf s < fm.functions.length := by
      simpa [function_names] using hlt2
    have hget : fm.functions[(function_names fm).indexOf s]?
        = some fm.functions[(function_names fm).indexOf s] :=
      List.getElem?_eq_getElem hlt
    have hmem : fm.functions[(function_names fm).indexOf s] ∈ fm.functions :=
      List.getElem_mem hlt
    have hname : (fm.functions[(function_names fm).indexOf s]).name = s := by
      have hq : (function_names fm)[(function_names fm).indexOf s]? = some s :=
        List.getElem?_indexOf h2
      rw [function_names_getElem?, hget] at hq
      simpa using hq
    have hstate : (state_names sn fm)[(function_names fm).indexOf s]?
        = some (sn fm.functions[(function_names fm).indexOf s]) := by
      rw [state_names_getElem?, hget]
      rfl
    have hnsw : ¬ (py_startswith s "$." = true) := by simp [h1]
    have hres : resolve_mod_value sn fm (.str s)
        = .str (get_state_result_path (sn fm.functions[(function_names fm).indexOf s])) := by
      simp only [resolve_mod_value]
      rw [if_neg hnsw, if_pos h2, hstate]
      rfl
    exact ⟨_, hget, hmem, hname, hres,
      generic_set_modifier_path_store sn fm item k _ _ hres (py_startswith_result_path _)⟩
  · intro s h1 h2 h3
    have hres : resolve_mod_value sn fm (.str s) = .str (get_state_result_path s) := by
      simp [resolve_mod_value, h1, h2, h3]
    exact ⟨hres,
      generic_set_modifier_path_store sn fm item k _ _ hres (py_startswith_result_path _)⟩

/-- The configured function shared by the C6 witness scenario
(`otherFunc` of spec Scenario B). -/
def other_func : Func := ⟨1, "other_func"⟩

/-- A concrete state-name derivation for witness scenarios. -/
def witness_sn : Func → String :=
  fun f => if f.name = "other_func" then "OtherFuncState" else "SomeState"

/-- A `FlowModifiers` table with the single function `other_func`. -/
def c6_fm : FlowModifiers := ⟨[other_func], []⟩

/-- Witness for C6 at a concrete input (spec Scenario B's descriptor). -/
theorem c6_witness :
    other_func ∈ c6_fm.functions ∧
    (resolve_mod_value witness_sn c6_fm (.func other_func)
        = .str (get_state_result_path (witness_sn other_func)) ∧
      lookupKey (generic_set_modifier witness_sn c6_fm [] "payload" (.func other_func))
          ("payload" ++ ".$")
        = some (.str (get_state_result_path (witness_sn other_func))) ∧
      lookupKey (generic_set_modifier witness_sn c6_fm [] "payload" (.func other_func))
          "payload" = none) :=
  ⟨by simp [c6_fm],
   (c6_function_identifier_result_path witness_sn c6_fm [] "payload").1 other_func
     (by simp [c6_fm])⟩

/-! ## Claim C2 -/

/-- The target function of spec Scenario A. -/
def my_func : Func := ⟨0, "my_func"⟩

/-- The `FlowModifiers` of Scenario A: directive
`{myFunc: {endpoint: 'ep-uuid'}}`. -/
def c2_fm : FlowModifiers :=
  ⟨[my_func], [(.func my_func, [("endpoint", .str "ep-uuid")])]⟩

/-- A state whose `Parameters` task list has one call task. -/
def c2_state : Dict :=
  [("Parameters", .dict [("tasks", .list [.dict [("payload.$", .str "$.input.x")]])])]

/-- The task dict produced by applying the Scenario A directive. -/
def c2_task_out : Dict :=
  [("payload.$", .str "$.input.x"), ("endpoint.$", .str "$.input.ep-uuid")]

/-- The state produced by applying the Scenario A directive. -/
def c2_state_out : Dict :=
  [("Parameters", .dict [("tasks", .list [.dict c2_task_out])])]

/-- **C2 counterexample.**  Applying `{endpoint: 'ep-uuid'}` to a state
with one call task does NOT set the task's plain `endpoint` key to the
literal `'ep-uuid'`: the value is rewritten to `$.input.ep-uuid` and
stored under `endpoint.$`, and the resulting task has no plain
`endpoint` key at all. -/
theorem c2_counterexample :
    apply_modifier witness_sn c2_fm c2_state [("endpoint", .str "ep-uuid")]
      = some c2_state_out ∧
    lookupKey c2_task_out "endpoint" = none ∧
    lookupKey c2_task_out "endpoint" ≠ some (.str "ep-uuid") := by
  refine ⟨rfl, rfl, ?_⟩
  show (none : Option Value) ≠ some (.str "ep-uuid")
  simp

/-- **C2 (amended).**  For the directive `{myFunc: {endpoint: 'ep-uuid'}}`
applied to a state whose Parameters task list has one call task, the
apply phase rewrites the value to `$.input.ep-uuid` (an external-input
reference, since `'ep-uuid'` does not start with `$.` and matches no
function or state name) and stores it under the reference-suffixed key
`endpoint.$`, leaving no plain `endpoint` key on the task. -/
theorem c2_endpoint_rewritten_to_input_reference :
    apply_modifier witness_sn c2_fm c2_state [("endpoint", .str "ep-uuid")]
      = some c2_state_out ∧
    lookupKey c2_task_out "endpoint.$" = some (.str "$.input.ep-uuid") ∧
    lookupKey c2_task_out "endpoint" = none :=
  ⟨rfl, rfl, rfl⟩

/-! ## Claim C3 -/

/-- The configured function of the C3 counterexample. -/
def c3_func : Func := ⟨0, "funcA"⟩

/-- A state-name derivation giving `funcA` the state name `funcA_state`. -/
def c3_sn : Func → String := fun f => f.name ++ "_state"

/-- A Reference Table with the single function `funcA`. -/
def c3_fm : FlowModifiers := ⟨[c3_func], []⟩

/-- **C3 counterexample.**  `get_function` does NOT accept a configured
function's derived state name: looking up `funcA_state`, the derived
state name of the configured function `funcA`, returns `None` rather
than the function. -/
theorem c3_counterexample :
    c3_func ∈ c3_fm.functions ∧
    c3_sn c3_func = "funcA_state" ∧
    get_function c3_fm (.str (c3_sn c3_func)) = none := by
  refine ⟨by simp [c3_fm], rfl, rfl⟩

/-- **C3 (amended).**  `get_function` returns the function for the
function's name (first match by index) or for the function object
itself, and returns `None` for every other identifier — including a
derived state name, unless that string happens to equal a configured
function's name. -/
theorem c3_get_function_characterization (fm : FlowModifiers) :
    (∀ f, f ∈ fm.functions → get_function fm (.func f) = some f) ∧
    (∀ f, f ∉ fm.functions → get_function fm (.func f) = none) ∧
    (∀ s, s ∈ function_names fm →
      ∃ f, fm.functions[(function_names fm).indexOf s]? = some f ∧
        get_function fm (.str s) = some f ∧ f ∈ fm.functions ∧ f.name = s) ∧
    (∀ s, s ∉ function_names fm → get_function fm (.str s) = none) ∧
    (∀ n : Int, get_function fm (.int n) = none) ∧
    (∀ l, get_function fm (.list l) = none) ∧
    (∀ d, get_function fm (.dict d) = none) := by
  refine ⟨?_, ?_, ?_, ?_, ?_, ?_, ?_⟩
  · intro f hf; simp [get_function, hf]
  · intro f hf; simp [get_function, hf]
  · intro s hs
    have hlt2 : (function_names fm).indexOf s < (function_names fm).length :=
      List.indexOf_lt_length.mpr hs
    have hlt : (function_names fm).indexOf s < fm.functions.length := by
      simpa [function_names] using hlt2
    have hget : fm.functions[(function_names fm).indexOf s]?
        = some fm.functions[(function_names fm).indexOf s] :=
      List.getElem?_eq_getElem hlt
    have hname : (fm.functions[(function_names fm).indexOf s]).name = s := by
      have hq : (function_names fm)[(function_names fm).indexOf s]? = some s :=
        List.getElem?_indexOf hs
      rw [function_names_getElem?, hget] at hq
      simpa using hq
    refine ⟨fm.functions[(function_names fm).indexOf s], hget, ?_,
      List.getElem_mem hlt, hname⟩
    simp only [get_function]
    rw [if_pos hs]
    exact hget
  · intro s hs; simp [get_function, hs]
  · intro n; rfl
  · intro l; rfl
  · intro d; rfl

/-- Witness for C3's amended characterization at a concrete input. -/
theorem c3_witness :
    ("funcA" ∈ function_names c3_fm) ∧
    (∃ f, c3_fm.functions[(function_names c3_fm).indexOf "funcA"]? = some f ∧
      get_function c3_fm (.str "funcA") = some f ∧ f ∈ c3_fm.functions ∧
      f.name = "funcA") :=
  ⟨by simp [c3_fm, function_names, c3_func],
   (c3_get_function_characterization c3_fm).2.2.1 "funcA"
     (by simp [c3_fm, function_names, c3_func])⟩

/-! ## Claim C5 -/

/-- **C5 counterexample.**  Applying the `InputPath` state modifier with
a non-string value (here the integer `5`, which no resolution rewrites)
to a state that has a `Parameters` key raises a KeyError
(`flow_state.pop('InputPath.$')` at line 79), because the value was
stored under the plain `InputPath` key: the operation does not complete
without error. -/
theorem c5_counterexample :
    apply_one_modifier c3_sn c3_fm [("Parameters", .dict [])] "InputPath" (.int 5)
      = none := rfl

/-- **C5 (amended).**  Applying the `InputPath` state modifier completes
without error, removes the state's `Parameters` key, and leaves exactly
one of `InputPath`/`InputPath.$` present, whenever the modifier value
is a string, or a configured function object, or the state has no
`Parameters` key at all.  (For any other value on a state that has
`Parameters`, the operation raises KeyError — see the counterexample.) -/
theorem c5_input_path_invariant (sn : Func → String) (fm : FlowModifiers)
    (state : Dict) (v : Value)
    (h : (∃ s, v = .str s) ∨ (∃ f, v = .func f ∧ f ∈ fm.functions) ∨
      hasKey state "Parameters" = false) :
    ∃ out, apply_one_modifier sn fm state "InputPath" v = some out ∧
      hasKey out "Parameters" = false ∧
      hasKey out "InputPath" ≠ hasKey out "InputPath.$" := by
  have hip_fx : ("InputPath" ∈ funcx_modifiers) = False := by
    simp [funcx_modifiers]
  have hip_st : "InputPath" ∈ state_modifiers := by simp [state_modifiers]
  -- the resolved value is a path string in the first two cases
  have hpath : (∃ s, resolve_mod_value sn fm v = .str s ∧
      py_startswith s "$." = true) ∨
      (hasKey state "Parameters" = false) := by
    rcases h with ⟨s, rfl⟩ | ⟨f, rfl, hf⟩ | hnp
    · by_cases hsw : py_startswith s "$." = true
      · exact .inl ⟨s, by simp [resolve_mod_value, hsw], hsw⟩
      · have hsw' : py_startswith s "$." = false := by
          cases hb : py_startswith s "$." with
          | false => rfl
          | true => exact absurd hb hsw
        by_cases h2 : s ∈ function_names fm
        · refine .inl ⟨get_state_result_path
            (((state_names sn fm)[(function_names fm).indexOf s]?).getD ""), ?_,
            py_startswith_result_path _⟩
          simp only [resolve_mod_value]
          rw [if_neg hsw, if_pos h2]
        · by_cases h3 : s ∈ state_names sn fm
          · exact .inl ⟨get_state_result_path s,
              by simp [resolve_mod_value, hsw', h2, h3],
              py_startswith_result_path _⟩
          · refine .inl ⟨"$.input." ++ s,
              by simp [resolve_mod_value, hsw', h2, h3], ?_⟩
            rw [input_prefix_eq]; exact py_startswith_dollar _
    · exact .inl ⟨get_state_result_path (sn f),
        by simp [resolve_mod_value, hf], py_startswith_result_path _⟩
    · exact .inr hnp
  have hne1 : ("Parameters" : String) ≠ "InputPath" := by decide
  have hne2 : ("Parameters" : String) ≠ "InputPath.$" := by decide
  have hne2' : ("InputPath.$" : String) ≠ "Parameters" := by decide
  have hne3 : ("InputPath" : String) ≠ "InputPath.$" := by decide
  have hne3' : ("InputPath.$" : String) ≠ "InputPath" := by decide
  have hne1' : ("InputPath" : String) ≠ "Parameters" := by decide
  have happ : "InputPath" ++ ".$" = "InputPath.$" := rfl
  have hred : ∀ (st : Dict) (w : Value), apply_one_modifier sn fm st "InputPath" w =
      (if hasKey (generic_set_modifier sn fm st "InputPath" w) "Parameters" = true then
        match lookupKey (popKey (generic_set_modifier sn fm st "InputPath" w) "Parameters")
            "InputPath.$" with
        | some w2 =>
            some (setKey
              (popKey (popKey (generic_set_modifier sn fm st "InputPath" w) "Parameters")
                "InputPath.$") "InputPath" w2)
        | none => none
      else some (generic_set_modifier sn fm st "InputPath" w)) := by
    intro st w
    simp only [apply_one_modifier]
    rw [if_neg (by decide : ¬ ("InputPath" ∈ funcx_modifiers))]
    rw [if_pos (by decide : ("InputPath" ∈ state_modifiers))]
    by_cases hb : hasKey (generic_set_modifier sn fm st "InputPath" w) "Parameters" = true
    · rw [if_pos ⟨trivial, hb⟩, if_pos hb]
    · rw [if_neg (fun hh => hb hh.2), if_neg hb]
  rcases hpath with ⟨s, hres, hsw⟩ | hnp
  · -- the resolved value is a path string: it is stored under InputPath.$
    have hfs : generic_set_modifier sn fm state "InputPath" v
        = setKey (popKey (popKey state "InputPath") "InputPath.$") "InputPath.$" (.str s) := by
      simp only [generic_set_modifier]
      rw [hres, ref_key_of_path _ _ hsw, happ]
    by_cases hP : hasKey (generic_set_modifier sn fm state "InputPath" v) "Parameters" = true
    · -- Parameters still present after the write: rename InputPath.$ → InputPath
      have hlook : lookupKey (popKey (generic_set_modifier sn fm state "InputPath" v)
          "Parameters") "InputPath.$" = some (.str s) := by
        rw [lookupKey_popKey_ne _ _ _ hne2', hfs, lookupKey_setKey_self]
      refine ⟨setKey (popKey (popKey (generic_set_modifier sn fm state "InputPath" v)
        "Parameters") "InputPath.$") "InputPath" (.str s), ?_, ?_, ?_⟩
      · rw [hred, if_pos hP, hlook]
      · rw [hasKey_setKey_ne _ _ _ _ hne1, hasKey_popKey_ne _ _ _ hne2, hasKey_popKey_self]
      · rw [hasKey_setKey_self, hasKey_setKey_ne _ _ _ _ hne3',
          hasKey_popKey_self]
        simp
    · -- no Parameters after the write: the state keeps InputPath.$
      have hP' : hasKey (generic_set_modifier sn fm state "InputPath" v) "Parameters"
          = false := by
        cases hb : hasKey (generic_set_modifier sn fm state "InputPath" v) "Parameters" with
        | false => rfl
        | true => exact absurd hb hP
      refine ⟨generic_set_modifier sn fm state "InputPath" v, ?_, hP', ?_⟩
      · rw [hred, if_neg (by simp [hP'])]
      · rw [hfs, hasKey_setKey_ne _ _ _ _ hne3, hasKey_setKey_self,
          hasKey_popKey_ne _ _ _ hne3, hasKey_popKey_self]
        simp
  · -- the state has no Parameters key: no rename, no error
    rcases ref_key_cases "InputPath" (resolve_mod_value sn fm v) with hK | hK
    · have hfs : generic_set_modifier sn fm state "InputPath" v
          = setKey (popKey (popKey state "InputPath") "InputPath.$") "InputPath"
              (resolve_mod_value sn fm v) := by
        simp only [generic_set_modifier]
        rw [hK, happ]
      have hP' : hasKey (generic_set_modifier sn fm state "InputPath" v) "Parameters"
          = false := by
        rw [hfs, hasKey_setKey_ne _ _ _ _ hne1, hasKey_popKey_ne _ _ _ hne2,
          hasKey_popKey_ne _ _ _ hne1, hnp]
      refine ⟨generic_set_modifier sn fm state "InputPath" v, ?_, hP', ?_⟩
      · rw [hred, if_neg (by simp [hP'])]
      · rw [hfs, hasKey_setKey_self, hasKey_setKey_ne _ _ _ _ hne3',
          hasKey_popKey_self]
        simp
    · have hfs : generic_set_modifier sn fm state "InputPath" v
          = setKey (popKey (popKey state "InputPath") "InputPath.$") "InputPath.$"
              (resolve_mod_value sn fm v) := by
        simp only [generic_set_modifier]
        rw [hK, happ]
      have hP' : hasKey (generic_set_modifier sn fm state "InputPath" v) "Parameters"
          = false := by
        rw [hfs, hasKey_setKey_ne _ _ _ _ hne2, hasKey_popKey_ne _ _ _ hne2,
          hasKey_popKey_ne _ _ _ hne1, hnp]
      refine ⟨generic_set_modifier sn fm state "InputPath" v, ?_, hP', ?_⟩
      · rw [hred, if_neg (by simp [hP'])]
      · rw [hfs, hasKey_setKey_ne _ _ _ _ hne3, hasKey_setKey_self,
          hasKey_popKey_ne _ _ _ hne3, hasKey_popKey_self]
        simp

/-- Witness for C5's amended invariant at a concrete input. -/
theorem c5_witness :
    ((∃ s, Value.str "$.x" = Value.str s) ∨
      (∃ f, Value.str "$.x" = .func f ∧ f ∈ c3_fm.functions) ∨
      hasKey [("Parameters", Value.dict [])] "Parameters" = false) ∧
    (∃ out, apply_one_modifier c3_sn c3_fm [("Parameters", Value.dict [])]
        "InputPath" (.str "$.x") = some out ∧
      hasKey out "Parameters" = false ∧
      hasKey out "InputPath" ≠ hasKey out "InputPath.$") :=
  ⟨Or.inl ⟨"$.x", rfl⟩,
   c5_input_path_invariant c3_sn c3_fm [("Parameters", Value.dict [])] (.str "$.x")
     (Or.inl ⟨"$.x", rfl⟩)⟩

/-! ## client.py : registration cache, run orchestrator -/

/-- The exceptions raised by `gladier/client.py` (from `gladier.exc` and
`globus_sdk`), identified by kind; `AuthException` carries the missing
scopes it names, `GlobusAPIError` its parsed error detail string, and
`OtherError` tags any non-Globus exception so that propagation can be
checked. -/
inductive GErr where
  | RegistrationException
  | FunctionObsolete
  | NoFlowRegistered
  | FlowObsolete
  | AuthException (missing_scopes : List String)
  | ConfigException
  | GlobusAPIError (detail : String)
  | OtherError (tag : Nat)
deriving DecidableEq, Repr

/-- Python truthiness of `cfg.get(key)`: `None` and the empty string are
falsy (configparser values are strings). -/
def truthy : Option String → Bool
  | none => false
  | some s => !(s == "")

/-- `GladierBaseClient.get_funcx_function_name` (client.py lines
362–371): `f'{funcx_function.__name__}_funcx_id'`. -/
def get_funcx_function_name (f : Func) : String :=
  f.name ++ "_funcx_id"

/-- Modelled from the spec: the checksum key generator
`gladier.utils.name_generation.get_funcx_function_checksum_name` is not
under `src/`.  Per the spec's persisted record shape
`{<artifact>_id, <artifact>_checksum}` (§6), the checksum key is the
function's name with a `_funcx_checksum` suffix, distinct from the id
key. -/
def get_funcx_function_checksum_name (f : Func) : String :=
  f.name ++ "_funcx_checksum"

/-- `GladierBaseClient.register_funcx_function` (lines 432–441): store
the remote id returned by the funcx client, then the recomputed
checksum.  `checksum` abstracts `get_funcx_function_checksum` (an
external serializer); `register_remote` abstracts
`funcx_client.register_function`. -/
def register_funcx_function (checksum register_remote : Func → String)
    (cfg : Cfg) (f : Func) : Cfg :=
  setKey (setKey cfg (get_funcx_function_name f) (register_remote f))
    (get_funcx_function_checksum_name f) (checksum f)

/-- The `try` block of `get_funcx_function_ids` (lines 410–422): raise
`RegistrationException` when the stored id is falsy, raise
`RegistrationException` when the stored checksum is falsy, raise
`FunctionObsolete` when the stored checksum differs from the recomputed
one, and otherwise return the stored id. -/
def funcx_record_check (checksum : Func → String) (cfg : Cfg) (f : Func) :
    Except GErr String :=
  if ¬ truthy (lookupKey cfg (get_funcx_function_name f)) then
    .error .RegistrationException
  else if ¬ truthy (lookupKey cfg (get_funcx_function_checksum_name f)) then
    .error .RegistrationException
  else if ¬ (lookupKey cfg (get_funcx_function_checksum_name f) = some (checksum f)) then
    .error .FunctionObsolete
  else .ok ((lookupKey cfg (get_funcx_function_name f)).getD "")

/-- The running state of `get_funcx_function_ids`: the `funcx_ids`
result dict, the private config section, and the trace of
`register_function` calls made to the remote funcx collaborator. -/
structure FuncxIdsState where
  ids : Cfg
  cfg : Cfg
  reg_calls : List Func
deriving DecidableEq, Repr

/-- One inner-loop iteration of `get_funcx_function_ids` (lines
406–429): on a check failure, auto-registration either registers the
function (recording the remote call and rereading the updated config)
or re-raises. -/
def get_funcx_function_ids_step (auto_registration : Bool)
    (checksum register_remote : Func → String) (st : FuncxIdsState) (f : Func) :
    Except GErr FuncxIdsState :=
  match funcx_record_check checksum st.cfg f with
  | .ok fid => .ok ⟨setKey st.ids (get_funcx_function_name f) fid, st.cfg, st.reg_calls⟩
  | .error e =>
      if auto_registration then
        .ok ⟨setKey st.ids (get_funcx_function_name f)
              ((lookupKey (register_funcx_function checksum register_remote st.cfg f)
                (get_funcx_function_name f)).getD ""),
             register_funcx_function checksum register_remote st.cfg f,
             st.reg_calls ++ [f]⟩
      else .error e

/-- The inner `for func in funcx_funcs` loop of
`get_funcx_function_ids`. -/
def funcx_ids_over_funcs (auto_registration : Bool)
    (checksum register_remote : Func → String) :
    FuncxIdsState → List Func → Except GErr FuncxIdsState
  | st, [] => .ok st
  | st, f :: fs =>
      match get_funcx_function_ids_step auto_registration checksum register_remote st f with
      | .ok st2 => funcx_ids_over_funcs auto_registration checksum register_remote st2 fs
      | .error e => .error e

/-- The outer `for tool in self.tools` loop of
`get_funcx_function_ids`; each tool contributes its `funcx_functions`
list. -/
def funcx_ids_over_tools (auto_registration : Bool)
    (checksum register_remote : Func → String) :
    FuncxIdsState → List (List Func) → Except GErr FuncxIdsState
  | st, [] => .ok st
  | st, t :: ts =>
      match funcx_ids_over_funcs auto_registration checksum register_remote st t with
      | .ok st2 => funcx_ids_over_tools auto_registration checksum register_remote st2 ts
      | .error e => .error e

/-- `GladierBaseClient.get_funcx_function_ids` (lines 383–430). -/
def get_funcx_function_ids (auto_registration : Bool)
    (checksum register_remote : Func → String) (tools : List (List Func))
    (cfg : Cfg) : Except GErr FuncxIdsState :=
  funcx_ids_over_tools auto_registration checksum register_remote ⟨[], cfg, []⟩ tools

/-- A remote call made by `register_flow`. -/
inductive FlowCall where
  | update
  | deploy
deriving DecidableEq, Repr

/-- Outcome of the `flows_client.update_flow` collaborator call:
success, a `Not Found` Globus API error (which falls through to
deployment), or any other error (re-raised). -/
inductive UpdOut where
  | ok
  | notFound
  | fail (e : GErr)
deriving DecidableEq, Repr

/-- `GladierBaseClient.register_flow` (lines 465–511): update the flow
when a flow id is stored (falling back to deployment when the remote
reports `Not Found`), otherwise deploy a new flow and store id, scope
and checksum.  `flow_checksum` abstracts `get_flow_checksum()`;
`deploy_id`/`deploy_scope` abstract the deploy response.  The returned
trace lists the remote calls made.  (Deploy failures propagate from the
collaborator and are outside the cache logic.) -/
def register_flow (flow_checksum : String) (upd : UpdOut)
    (deploy_id deploy_scope : String) (cfg : Cfg) :
    (Except GErr String) × Cfg × List FlowCall :=
  if truthy (lookupKey cfg "flow_id") then
    match upd with
    | .ok =>
        (.ok ((lookupKey cfg "flow_id").getD ""),
         setKey cfg "flow_checksum" flow_checksum, [.update])
    | .notFound =>
        let cfg2 := setKey (setKey (setKey cfg "flow_id" deploy_id)
          "flow_scope" deploy_scope) "flow_checksum" flow_checksum
        (.ok ((lookupKey cfg2 "flow_id").getD ""), cfg2, [.update, .deploy])
    | .fail e => (.error e, cfg, [.update])
  else
    let cfg2 := setKey (setKey (setKey cfg "flow_id" deploy_id)
      "flow_scope" deploy_scope) "flow_checksum" flow_checksum
    (.ok ((lookupKey cfg2 "flow_id").getD ""), cfg2, [.deploy])

/-- `GladierBaseClient.get_flow_id` (lines 443–463): when id or scope is
missing, raise `NoFlowRegistered` or register; when the stored checksum
differs from the recomputed one (a missing stored checksum also
differs), raise `FlowObsolete` or re-register; otherwise return the
stored id with no remote call.  The trace lists the remote calls
made. -/
def get_flow_id (auto_registration : Bool) (flow_checksum : String)
    (upd : UpdOut) (deploy_id deploy_scope : String) (cfg : Cfg) :
    (Except GErr String) × Cfg × List FlowCall :=
  if ¬ truthy (lookupKey cfg "flow_id") ∨ ¬ truthy (lookupKey cfg "flow_scope") then
    if auto_registration = false then (.error .NoFlowRegistered, cfg, [])
    else
      match register_flow flow_checksum upd deploy_id deploy_scope cfg with
      | (.ok _, cfg2, calls) => (.ok ((lookupKey cfg2 "flow_id").getD ""), cfg2, calls)
      | (.error e, cfg2, calls) => (.error e, cfg2, calls)
  else if ¬ (lookupKey cfg "flow_checksum" = some flow_checksum) then
    if auto_registration = false then (.error .FlowObsolete, cfg, [])
    else
      match register_flow flow_checksum upd deploy_id deploy_scope cfg with
      | (.ok _, cfg2, calls) => (.ok ((lookupKey cfg2 "flow_id").getD ""), cfg2, calls)
      | (.error e, cfg2, calls) => (.error e, cfg2, calls)
  else (.ok ((lookupKey cfg "flow_id").getD ""), cfg, [])

/-- Outcome of one `flows_client.run_flow` collaborator call. -/
inductive RunOutcome where
  | success (status : String)
  | failure (e : GErr)
deriving DecidableEq, Repr

/-- The run-start `try`/`except` region of
`GladierBaseClient.run_flow` (lines 621–638): a `GlobusAPIError` whose
detail contains `'unable to get tokens for scopes'` triggers, when
`auto_login` is set, a single forced scoped login and a single retried
call whose outcome (`o2`) is returned unguarded; without `auto_login`
it raises `AuthException` naming the flow scope.  Any other error
propagates unchanged.  Returns (result, number of `run_flow` calls,
login calls as (requested_scopes, force) pairs). -/
def run_flow_start (auto_login : Bool) (flow_scope : String)
    (o1 o2 : RunOutcome) :
    (Except GErr String) × Nat × List (List String × Bool) :=
  match o1 with
  | .success st => (.ok st, 1, [])
  | .failure e =>
      match e with
      | .GlobusAPIError detail =>
          if py_substring "unable to get tokens for scopes" detail then
            if auto_login then
              match o2 with
              | .success st => (.ok st, 2, [([flow_scope], true)])
              | .failure e2 => (.error e2, 2, [([flow_scope], true)])
            else (.error (.AuthException [flow_scope]), 1, [])
          else (.error (.GlobusAPIError detail), 1, [])
      | e2 => (.error e2, 1, [])

/-- `GladierBaseClient._default_progress_callback` (lines 669–672):
whether the default callback prints a status. -/
def default_progress_callback_prints (status : String) : Bool :=
  status == "ACTIVE"

/-- The `while` loop of `progress` (lines 687–689) over the stream of
statuses the successive `get_status()` calls return: each iteration
fetches a status, delivers it to the callback, then re-tests the
condition.  Returns (number of fetches, statuses delivered to the
callback); `none` when the stream is exhausted before a terminal
status. -/
def progress_loop : List String → Option (Nat × List String)
  | [] => none
  | s :: rest =>
      if s = "SUCCEEDED" ∨ s = "FAILED" then some (1, [s])
      else
        match progress_loop rest with
        | some (n, cbs) => some (n + 1, s :: cbs)
        | none => none

/-- `GladierBaseClient.progress` (lines 674–689): fetch an initial
status (line 686, delivered to no callback), then run the polling
loop.  Returns (number of `get_status` fetches, statuses delivered to
the callback, in order). -/
def progress (statuses : List String) : Option (Nat × List String) :=
  match statuses with
  | [] => none
  | s :: rest =>
      if s = "SUCCEEDED" ∨ s = "FAILED" then some (1, [])
      else
        match progress_loop rest with
        | some (n, cbs) => some (n + 1, cbs)
        | none => none

/-! ## Registration-cache lemmas -/

theorem funcx_names_ne (f : Func) :
    get_funcx_function_name f ≠ get_funcx_function_checksum_name f := by
  intro h
  have h1 := congrArg String.length h
  rw [get_funcx_function_name, get_funcx_function_checksum_name,
    String.length_append, String.length_append] at h1
  have h9 : ("_funcx_id" : String).length = 9 := rfl
  have h15 : ("_funcx_checksum" : String).length = 15 := rfl
  rw [h9, h15] at h1
  omega

/-- After registration the stored id is the remote id. -/
theorem register_lookup_id (c r : Func → String) (cfg : Cfg) (f : Func) :
    lookupKey (register_funcx_function c r cfg f) (get_funcx_function_name f)
      = some (r f) := by
  unfold register_funcx_function
  rw [lookupKey_setKey_ne _ _ _ _ (funcx_names_ne f), lookupKey_setKey_self]

/-- After registration the stored checksum is the recomputed one. -/
theorem register_lookup_checksum (c r : Func → String) (cfg : Cfg) (f : Func) :
    lookupKey (register_funcx_function c r cfg f) (get_funcx_function_checksum_name f)
      = some (c f) := by
  unfold register_funcx_function
  rw [lookupKey_setKey_self]

/-- A single-tool, single-function client reduces to one step. -/
theorem get_funcx_function_ids_single (auto : Bool) (c r : Func → String)
    (f : Func) (cfg : Cfg) :
    get_funcx_function_ids auto c r [[f]] cfg
      = get_funcx_function_ids_step auto c r ⟨[], cfg, []⟩ f := by
  cases h : get_funcx_function_ids_step auto c r ⟨[], cfg, []⟩ f with
  | error e =>
      simp [get_funcx_function_ids, funcx_ids_over_tools, funcx_ids_over_funcs, h]
  | ok st =>
      simp [get_funcx_function_ids, funcx_ids_over_tools, funcx_ids_over_funcs, h]

theorem funcx_record_check_valid (c : Func → String) (cfg : Cfg) (f : Func)
    (h1 : truthy (lookupKey cfg (get_funcx_function_name f)) = true)
    (h2 : truthy (lookupKey cfg (get_funcx_function_checksum_name f)) = true)
    (h3 : lookupKey cfg (get_funcx_function_checksum_name f) = some (c f)) :
    funcx_record_check c cfg f
      = .ok ((lookupKey cfg (get_funcx_function_name f)).getD "") := by
  unfold funcx_record_check
  rw [if_neg (by simp [h1]), if_neg (by simp [h2]), if_neg (by simp [h3])]

theorem funcx_record_check_error (c : Func → String) (cfg : Cfg) (f : Func)
    (h : ¬ (truthy (lookupKey cfg (get_funcx_function_name f)) = true ∧
        truthy (lookupKey cfg (get_funcx_function_checksum_name f)) = true ∧
        lookupKey cfg (get_funcx_function_checksum_name f) = some (c f))) :
    funcx_record_check c cfg f = .error .RegistrationException ∨
    funcx_record_check c cfg f = .error .FunctionObsolete := by
  unfold funcx_record_check
  by_cases h1 : truthy (lookupKey cfg (get_funcx_function_name f)) = true
  · by_cases h2 : truthy (lookupKey cfg (get_funcx_function_checksum_name f)) = true
    · by_cases h3 : lookupKey cfg (get_funcx_function_checksum_name f) = some (c f)
      · exact absurd ⟨h1, h2, h3⟩ h
      · refine .inr ?_
        rw [if_neg (by simp [h1]), if_neg (by simp [h2]), if_pos h3]
    · refine .inl ?_
      rw [if_neg (by simp [h1]), if_pos h2]
  · refine .inl ?_
    rw [if_pos h1]

theorem register_flow_calls_ne_nil (ck : String) (upd : UpdOut)
    (did dsc : String) (cfg : Cfg) :
    (register_flow ck upd did dsc cfg).2.2 ≠ [] := by
  unfold register_flow
  by_cases h : truthy (lookupKey cfg "flow_id") = true
  · rw [if_pos h]; cases upd <;> simp
  · rw [if_neg h]; simp

/-! ## Claim C7 -/

/-- **C7.**  For each artifact (funcx function, checked here through a
single-function client, and the flow), a remote registration call
happens if and only if the stored record is absent or incomplete
(falsy id / falsy or missing checksum / missing scope) or the stored
checksum differs from the recomputed one; a matching record returns the
stored id with no remote call; and when auto-registration is off,
absent or stale records raise `RegistrationException`/`FunctionObsolete`
(functions) or `NoFlowRegistered`/`FlowObsolete` (flows) with no remote
call. -/
theorem c7_registration_iff_checksum (auto : Bool)
    (checksum register_remote : Func → String) (f : Func) (cfg : Cfg)
    (flow_checksum deploy_id deploy_scope : String) (upd : UpdOut) (fcfg : Cfg) :
    (truthy (lookupKey cfg (get_funcx_function_name f)) = true →
      truthy (lookupKey cfg (get_funcx_function_checksum_name f)) = true →
      lookupKey cfg (get_funcx_function_checksum_name f) = some (checksum f) →
      get_funcx_function_ids auto checksum register_remote [[f]] cfg
        = .ok ⟨[(get_funcx_function_name f,
                (lookupKey cfg (get_funcx_function_name f)).getD "")], cfg, []⟩) ∧
    (¬ (truthy (lookupKey cfg (get_funcx_function_name f)) = true ∧
        truthy (lookupKey cfg (get_funcx_function_checksum_name f)) = true ∧
        lookupKey cfg (get_funcx_function_checksum_name f) = some (checksum f)) →
      (auto = true →
        get_funcx_function_ids auto checksum register_remote [[f]] cfg
          = .ok ⟨[(get_funcx_function_name f, register_remote f)],
                register_funcx_function checksum register_remote cfg f, [f]⟩) ∧
      (auto = false →
        get_funcx_function_ids auto checksum register_remote [[f]] cfg
            = .error .RegistrationException ∨
        get_funcx_function_ids auto checksum register_remote [[f]] cfg
            = .error .FunctionObsolete)) ∧
    (truthy (lookupKey fcfg "flow_id") = true →
      truthy (lookupKey fcfg "flow_scope") = true →
      lookupKey fcfg "flow_checksum" = some flow_checksum →
      get_flow_id auto flow_checksum upd deploy_id deploy_scope fcfg
        = (.ok ((lookupKey fcfg "flow_id").getD ""), fcfg, [])) ∧
    (¬ (truthy (lookupKey fcfg "flow_id") = true ∧
        truthy (lookupKey fcfg "flow_scope") = true ∧
        lookupKey fcfg "flow_checksum" = some flow_checksum) →
      (auto = false →
        get_flow_id auto flow_checksum upd deploy_id deploy_scope fcfg
            = (.error .NoFlowRegistered, fcfg, []) ∨
        get_flow_id auto flow_checksum upd deploy_id deploy_scope fcfg
            = (.error .FlowObsolete, fcfg, [])) ∧
      (auto = true →
        (get_flow_id auto flow_checksum upd deploy_id deploy_scope fcfg).2.2 ≠ [])) := by
  refine ⟨?_, ?_, ?_, ?_⟩
  · intro h1 h2 h3
    rw [get_funcx_function_ids_single]
    simp [get_funcx_function_ids_step, funcx_record_check_valid checksum cfg f h1 h2 h3,
      setKey]
  · intro h
    constructor
    · intro hauto
      subst hauto
      rw [get_funcx_function_ids_single]
      rcases funcx_record_check_error checksum cfg f h with he | he <;>
        simp [get_funcx_function_ids_step, he, setKey, register_lookup_id]
    · intro hauto
      subst hauto
      rw [get_funcx_function_ids_single]
      rcases funcx_record_check_error checksum cfg f h with he | he
      · exact .inl (by simp [get_funcx_function_ids_step, he])
      · exact .inr (by simp [get_funcx_function_ids_step, he])
  · intro h1 h2 h3
    unfold get_flow_id
    rw [if_neg (by simp [h1, h2]), if_neg (by simp [h3])]
  · intro h
    constructor
    · intro hauto
      subst hauto
      unfold get_flow_id
      by_cases h12 : truthy (lookupKey fcfg "flow_id") = true ∧
          truthy (lookupKey fcfg "flow_scope") = true
      · refine .inr ?_
        have h3 : ¬ (lookupKey fcfg "flow_checksum" = some flow_checksum) :=
          fun hc => h ⟨h12.1, h12.2, hc⟩
        rw [if_neg (by simp [h12.1, h12.2]), if_pos h3, if_pos rfl]
      · refine .inl ?_
        have hcond : ¬ truthy (lookupKey fcfg "flow_id") = true ∨
            ¬ truthy (lookupKey fcfg "flow_scope") = true := by
          by_cases ha : truthy (lookupKey fcfg "flow_id") = true
          · exact .inr fun hb => h12 ⟨ha, hb⟩
          · exact .inl ha
        rw [if_pos hcond, if_pos rfl]
    · intro hauto
      subst hauto
      unfold get_flow_id
      by_cases h12 : truthy (lookupKey fcfg "flow_id") = true ∧
          truthy (lookupKey fcfg "flow_scope") = true
      · have h3 : ¬ (lookupKey fcfg "flow_checksum" = some flow_checksum) :=
          fun hc => h ⟨h12.1, h12.2, hc⟩
        rw [if_neg (by simp [h12.1, h12.2]), if_pos h3,
          if_neg (by simp : ¬ (true = false))]
        rcases hreg : register_flow flow_checksum upd deploy_id deploy_scope fcfg
          with ⟨res, cfg2, calls⟩
        have := register_flow_calls_ne_nil flow_checksum upd deploy_id deploy_scope fcfg
        rw [hreg] at this
        cases res <;> simpa using this
      · have hcond : ¬ truthy (lookupKey fcfg "flow_id") = true ∨
            ¬ truthy (lookupKey fcfg "flow_scope") = true := by
          by_cases ha : truthy (lookupKey fcfg "flow_id") = true
          · exact .inr fun hb => h12 ⟨ha, hb⟩
          · exact .inl ha
        rw [if_pos hcond, if_neg (by simp : ¬ (true = false))]
        rcases hreg : register_flow flow_checksum upd deploy_id deploy_scope fcfg
          with ⟨res, cfg2, calls⟩
        have := register_flow_calls_ne_nil flow_checksum upd deploy_id deploy_scope fcfg
        rw [hreg] at this
        cases res <;> simpa using this

/-- Witness for C7 at concrete inputs: a matching function record and a
matching flow record are both reused without any remote call. -/
theorem c7_witness :
    (truthy (lookupKey [("f_funcx_id", "id0"), ("f_funcx_checksum", "ck")]
        (get_funcx_function_name ⟨0, "f"⟩)) = true ∧
     truthy (lookupKey [("f_funcx_id", "id0"), ("f_funcx_checksum", "ck")]
        (get_funcx_function_checksum_name ⟨0, "f"⟩)) = true ∧
     lookupKey [("f_funcx_id", "id0"), ("f_funcx_checksum", "ck")]
        (get_funcx_function_checksum_name ⟨0, "f"⟩) = some "ck") ∧
    get_funcx_function_ids true (fun _ => "ck") (fun _ => "rid") [[⟨0, "f"⟩]]
        [("f_funcx_id", "id0"), ("f_funcx_checksum", "ck")]
      = .ok ⟨[(get_funcx_function_name ⟨0, "f"⟩,
              (lookupKey [("f_funcx_id", "id0"), ("f_funcx_checksum", "ck")]
                (get_funcx_function_name ⟨0, "f"⟩)).getD "")],
             [("f_funcx_id", "id0"), ("f_funcx_checksum", "ck")], []⟩ :=
  ⟨⟨by decide, by decide, by decide⟩,
   (c7_registration_iff_checksum true (fun _ => "ck") (fun _ => "rid") ⟨0, "f"⟩
      [("f_funcx_id", "id0"), ("f_funcx_checksum", "ck")]
      "fck" "did" "dsc" .ok []).1 (by decide) (by decide) (by decide)⟩

/-! ## Claim C10 -/

/-- **C10.**  A persisted function record with a stored (truthy) id but
a falsy/missing stored checksum is treated like an absent record: the
check raises `RegistrationException`, so with auto-registration the
function is re-registered (overwriting both id and checksum), and
without auto-registration the `RegistrationException` propagates. -/
theorem c10_missing_checksum_treated_as_absent
    (checksum register_remote : Func → String) (f : Func) (cfg : Cfg)
    (h1 : truthy (lookupKey cfg (get_funcx_function_name f)) = true)
    (h2 : truthy (lookupKey cfg (get_funcx_function_checksum_name f)) = false) :
    funcx_record_check checksum cfg f = .error .RegistrationException ∧
    get_funcx_function_ids true checksum register_remote [[f]] cfg
      = .ok ⟨[(get_funcx_function_name f, register_remote f)],
            register_funcx_function checksum register_remote cfg f, [f]⟩ ∧
    get_funcx_function_ids false checksum register_remote [[f]] cfg
      = .error .RegistrationException ∧
    lookupKey (register_funcx_function checksum register_remote cfg f)
      (get_funcx_function_name f) = some (register_remote f) ∧
    lookupKey (register_funcx_function checksum register_remote cfg f)
      (get_funcx_function_checksum_name f) = some (checksum f) := by
  have hchk : funcx_record_check checksum cfg f = .error .RegistrationException := by
    unfold funcx_record_check
    rw [if_neg (by simp [h1]), if_pos (by simp [h2])]
  refine ⟨hchk, ?_, ?_, register_lookup_id _ _ _ _, register_lookup_checksum _ _ _ _⟩
  · rw [get_funcx_function_ids_single]
    simp [get_funcx_function_ids_step, hchk, setKey, register_lookup_id]
  · rw [get_funcx_function_ids_single]
    simp [get_funcx_function_ids_step, hchk]

/-- Witness for C10 at a concrete input: id stored, checksum missing. -/
theorem c10_witness :
    (truthy (lookupKey [("f_funcx_id", "id0")]
        (get_funcx_function_name ⟨0, "f"⟩)) = true ∧
     truthy (lookupKey [("f_funcx_id", "id0")]
        (get_funcx_function_checksum_name ⟨0, "f"⟩)) = false) ∧
    (funcx_record_check (fun _ => "ck") [("f_funcx_id", "id0")] ⟨0, "f"⟩
        = .error .RegistrationException ∧
     get_funcx_function_ids true (fun _ => "ck") (fun _ => "rid") [[⟨0, "f"⟩]]
        [("f_funcx_id", "id0")]
        = .ok ⟨[(get_funcx_function_name ⟨0, "f"⟩, "rid")],
              register_funcx_function (fun _ => "ck") (fun _ => "rid")
                [("f_funcx_id", "id0")] ⟨0, "f"⟩, [⟨0, "f"⟩]⟩ ∧
     get_funcx_function_ids false (fun _ => "ck") (fun _ => "rid") [[⟨0, "f"⟩]]
        [("f_funcx_id", "id0")] = .error .RegistrationException ∧
     lookupKey (register_funcx_function (fun _ => "ck") (fun _ => "rid")
        [("f_funcx_id", "id0")] ⟨0, "f"⟩) (get_funcx_function_name ⟨0, "f"⟩)
        = some "rid" ∧
     lookupKey (register_funcx_function (fun _ => "ck") (fun _ => "rid")
        [("f_funcx_id", "id0")] ⟨0, "f"⟩) (get_funcx_function_checksum_name ⟨0, "f"⟩)
        = some "ck") :=
  ⟨⟨by decide, by decide⟩,
   c10_missing_checksum_treated_as_absent (fun _ => "ck") (fun _ => "rid") ⟨0, "f"⟩
     [("f_funcx_id", "id0")] (by decide) (by decide)⟩

/-! ## Claim C8 -/

/-- **C8.**  When the run-start call fails with a `GlobusAPIError` whose
detail indicates a token/scope mismatch: with `auto_login`, exactly one
forced scoped login and exactly one retried call occur, the retry's
success is returned and its failure propagates unchanged; without
`auto_login`, an `AuthException` naming the flow scope is raised with no
second call; any other error propagates unchanged with no login. -/
theorem c8_scope_mismatch_single_retry (flow_scope detail st2 : String)
    (e2 : GErr) (auto_login : Bool) (o2 : RunOutcome) :
    (py_substring "unable to get tokens for scopes" detail = true →
      run_flow_start true flow_scope (.failure (.GlobusAPIError detail)) (.success st2)
        = (.ok st2, 2, [([flow_scope], true)]) ∧
      run_flow_start true flow_scope (.failure (.GlobusAPIError detail)) (.failure e2)
        = (.error e2, 2, [([flow_scope], true)]) ∧
      run_flow_start false flow_scope (.failure (.GlobusAPIError detail)) o2
        = (.error (.AuthException [flow_scope]), 1, [])) ∧
    (py_substring "unable to get tokens for scopes" detail = false →
      run_flow_start auto_login flow_scope (.failure (.GlobusAPIError detail)) o2
        = (.error (.GlobusAPIError detail), 1, [])) ∧
    (∀ e : GErr, (∀ d, e ≠ .GlobusAPIError d) →
      run_flow_start auto_login flow_scope (.failure e) o2 = (.error e, 1, [])) := by
  refine ⟨?_, ?_, ?_⟩
  · intro hdet
    refine ⟨?_, ?_, ?_⟩ <;> simp [run_flow_start, hdet]
  · intro hdet
    simp [run_flow_start, hdet]
  · intro e he
    cases e with
    | GlobusAPIError d => exact absurd rfl (he d)
    | _ => rfl

/-- Witness for C8 at a concrete input: the detail string contains the
sentinel, the retry fails again and that second failure propagates. -/
theorem c8_witness :
    (py_substring "unable to get tokens for scopes"
        "unable to get tokens for scopes" = true) ∧
    (run_flow_start true "urn:flow:scope"
        (.failure (.GlobusAPIError "unable to get tokens for scopes"))
        (.success "ACTIVE")
      = (.ok "ACTIVE", 2, [(["urn:flow:scope"], true)]) ∧
     run_flow_start true "urn:flow:scope"
        (.failure (.GlobusAPIError "unable to get tokens for scopes"))
        (.failure (.GlobusAPIError "again"))
      = (.error (.GlobusAPIError "again"), 2, [(["urn:flow:scope"], true)]) ∧
     run_flow_start false "urn:flow:scope"
        (.failure (.GlobusAPIError "unable to get tokens for scopes"))
        (.success "ACTIVE")
      = (.error (.AuthException ["urn:flow:scope"]), 1, [])) :=
  ⟨by decide,
   (c8_scope_mismatch_single_retry "urn:flow:scope"
      "unable to get tokens for scopes" "ACTIVE" (.GlobusAPIError "again") true
      (.success "ACTIVE")).1 (by decide)⟩

/-! ## Claim C9 -/

/-- **C9 (code bug).**  The polling loop does terminate exactly on
`SUCCEEDED`/`FAILED`, but the FIRST status fetched by `progress`
(line 686) is never passed to the callback, contradicting the claim
(and the method's own docstring) that each status obtained from
`get_status` is delivered: a run whose first polled status is
`SUCCEEDED` performs one fetch and zero callback deliveries, and a run
polling `ACTIVE` then `SUCCEEDED` performs two fetches but delivers only
the second status. -/
theorem c9_progress_first_status_skipped :
    progress ["SUCCEEDED"] = some (1, []) ∧
    progress ["ACTIVE", "SUCCEEDED"] = some (2, ["SUCCEEDED"]) ∧
    default_progress_callback_prints "ACTIVE" = true ∧
    default_progress_callback_prints "SUCCEEDED" = false :=
  ⟨rfl, rfl, rfl, rfl⟩

/-! ## Flat rewrite theory

`generic_set_modifier` always acts as an atomic rewrite: pop the keys
`k` and `k.$`, then append the resolved entry.  This section proves that
sequences of such atomic rewrites are idempotent, which is the engine
behind the (amended) claim C4. -/

/-- Remove every entry whose key is in `S`. -/
def eraseKeys {α : Type} (S : List String) : List (String × α) → List (String × α)
  | [] => []
  | p :: d => if p.1 ∈ S then eraseKeys S d else p :: eraseKeys S d

/-- An atomic rewrite: pop the keys `k` and `k.$`, then append `(K, v)`
with `K` one of the two popped keys. -/
structure AOp (α : Type) where
  k : String
  K : String
  v : α

/-- The footprint of an atomic rewrite. -/
def AOp.keys {α : Type} (o : AOp α) : List String := [o.k, o.k ++ ".$"]

/-- Apply an atomic rewrite. -/
def AOp.apply {α : Type} (o : AOp α) (x : List (String × α)) : List (String × α) :=
  eraseKeys o.keys x ++ [(o.K, o.v)]

/-- Run a word of atomic rewrites left to right. -/
def arun {α : Type} : List (AOp α) → List (String × α) → List (String × α)
  | [], x => x
  | o :: w, x => arun w (o.apply x)

/-- All keys popped by a word. -/
def keysW {α : Type} (w : List (AOp α)) : List String :=
  w.foldr (fun o acc => o.keys ++ acc) []

/-- Well-formed rewrite: the written key is one of the popped keys. -/
def AOp.WF {α : Type} (o : AOp α) : Prop := o.K = o.k ∨ o.K = o.k ++ ".$"

/-- Two rewrites are compatible when they rewrite the same key or have
disjoint footprints. -/
def AOp.compat {α : Type} (o o' : AOp α) : Prop :=
  o.k = o'.k ∨ ∀ s, s ∈ o.keys → s ∉ o'.keys

theorem eraseKeys_nil_keys {α : Type} (x : List (String × α)) :
    eraseKeys [] x = x := by
  induction x with
  | nil => rfl
  | cons p d ih => simp [eraseKeys, ih]

theorem eraseKeys_append_right {α : Type} (S : List String)
    (x y : List (String × α)) :
    eraseKeys S (x ++ y) = eraseKeys S x ++ eraseKeys S y := by
  induction x with
  | nil => rfl
  | cons p d ih =>
      by_cases h : p.1 ∈ S <;> simp [eraseKeys, h, ih]

theorem eraseKeys_eraseKeys {α : Type} (S T : List String)
    (x : List (String × α)) :
    eraseKeys S (eraseKeys T x) = eraseKeys (S ++ T) x := by
  induction x with
  | nil => rfl
  | cons p d ih =>
      by_cases hT : p.1 ∈ T
      · simp [eraseKeys, hT, List.mem_append, ih]
      · by_cases hS : p.1 ∈ S <;>
          simp [eraseKeys, hT, hS, List.mem_append, ih]

theorem eraseKeys_congr {α : Type} (S T : List String)
    (h : ∀ s, s ∈ S ↔ s ∈ T) (x : List (String × α)) :
    eraseKeys S x = eraseKeys T x := by
  induction x with
  | nil => rfl
  | cons p d ih =>
      by_cases hS : p.1 ∈ S
      · simp [eraseKeys, hS, (h p.1).mp hS, ih]
      · have hT : p.1 ∉ T := fun ht => hS ((h p.1).mpr ht)
        simp [eraseKeys, hS, hT, ih]

theorem eraseKeys_singleton {α : Type} (S : List String) (K : String) (v : α) :
    eraseKeys S [(K, v)] = if K ∈ S then [] else [(K, v)] := by
  by_cases h : K ∈ S <;> simp [eraseKeys, h]

theorem popKey_eq_eraseKeys {α : Type} (x : List (String × α)) (k : String) :
    popKey x k = eraseKeys [k] x := by
  induction x with
  | nil => rfl
  | cons p d ih => by_cases h : p.1 = k <;> simp [popKey, eraseKeys, h, ih]

theorem hasKey_eraseKeys_of_mem {α : Type} (S : List String) (k : String)
    (h : k ∈ S) (x : List (String × α)) :
    hasKey (eraseKeys S x) k = false := by
  induction x with
  | nil => rfl
  | cons p d ih =>
      by_cases hp : p.1 ∈ S
      · simp [eraseKeys, hp, ih]
      · have : ¬ p.1 = k := fun he => hp (he ▸ h)
        simp [eraseKeys, hasKey, hp, this, ih]

theorem keysW_cons {α : Type} (o : AOp α) (w : List (AOp α)) :
    keysW (o :: w) = o.keys ++ keysW w := rfl

theorem mem_keysW {α : Type} (w : List (AOp α)) (s : String) :
    s ∈ keysW w ↔ ∃ o, o ∈ w ∧ s ∈ o.keys := by
  induction w with
  | nil => simp [keysW]
  | cons o w ih =>
      rw [keysW_cons, List.mem_append, ih]
      constructor
      · rintro (h | ⟨o', ho', hs⟩)
        · exact ⟨o, List.mem_cons_self o w, h⟩
        · exact ⟨o', List.mem_cons_of_mem o ho', hs⟩
      · rintro ⟨o', ho', hs⟩
        rcases List.mem_cons.mp ho' with rfl | ho'
        · exact .inl hs
        · exact .inr ⟨o', ho', hs⟩

theorem AOp.K_mem_keys {α : Type} (o : AOp α) (h : o.WF) : o.K ∈ o.keys := by
  rcases h with h | h <;> simp [AOp.keys, h]

theorem AOp.keys_eq_of_k_eq {α : Type} (o o' : AOp α) (h : o.k = o'.k) :
    o.keys = o'.keys := by
  simp [AOp.keys, h]

/-- Congruence: a word of rewrites maps inputs that agree outside the
word's footprint to equal outputs. -/
theorem arun_congr {α : Type} (w : List (AOp α)) (x y : List (String × α))
    (h : eraseKeys (keysW w) x = eraseKeys (keysW w) y) :
    arun w x = arun w y := by
  induction w generalizing x y with
  | nil =>
      simpa [arun, keysW, eraseKeys_nil_keys] using h
  | cons o w ih =>
      apply ih
      show eraseKeys (keysW w) (o.apply x) = eraseKeys (keysW w) (o.apply y)
      unfold AOp.apply
      rw [eraseKeys_append_right, eraseKeys_append_right,
        eraseKeys_eraseKeys, eraseKeys_eraseKeys]
      have hx : eraseKeys (keysW w ++ o.keys) x = eraseKeys (keysW w ++ o.keys) y := by
        have hswap : ∀ s, s ∈ keysW w ++ o.keys ↔ s ∈ keysW (o :: w) := by
          intro s
          rw [keysW_cons]
          simp [List.mem_append]
          tauto
        rw [eraseKeys_congr _ _ hswap, eraseKeys_congr _ _ hswap]
        exact h
      rw [hx]

/-- The done invariant: `x` already carries `o`'s write at the end of
its erased view. -/
def DoneInv {α : Type} (S : List String) (o : AOp α) (x : List (String × α)) : Prop :=
  eraseKeys S x = eraseKeys (S ++ o.keys) x ++ [(o.K, o.v)]

/-- The erased view of an atomic rewrite's output. -/
theorem eraseKeys_aop_apply {α : Type} (S : List String) (o : AOp α)
    (y : List (String × α)) :
    eraseKeys S (o.apply y)
      = eraseKeys (S ++ o.keys) y ++ (if o.K ∈ S then [] else [(o.K, o.v)]) := by
  unfold AOp.apply
  rw [eraseKeys_append_right, eraseKeys_eraseKeys, eraseKeys_singleton]

theorem done_init {α : Type} (S : List String) (o : AOp α) (hwf : o.WF)
    (hdisj : ∀ s, s ∈ o.keys → s ∉ S) (x : List (String × α)) :
    DoneInv S o (o.apply x) := by
  unfold DoneInv
  rw [eraseKeys_aop_apply, eraseKeys_aop_apply]
  have hK : o.K ∈ o.keys := o.K_mem_keys hwf
  have hKS : o.K ∉ S := hdisj _ hK
  have hKSF : o.K ∈ S ++ o.keys := List.mem_append.mpr (.inr hK)
  rw [if_neg hKS, if_pos hKSF]
  have e1 : eraseKeys (S ++ o.keys ++ o.keys) x = eraseKeys (S ++ o.keys) x := by
    apply eraseKeys_congr
    intro s
    simp [List.mem_append]
    try tauto
  rw [List.append_nil, e1]

theorem done_preserve {α : Type} (S : List String) (o b : AOp α)
    (hbS : ∀ s, s ∈ b.keys → s ∈ S) (hbwf : b.WF) (x : List (String × α))
    (h : DoneInv S o x) : DoneInv S o (b.apply x) := by
  unfold DoneInv at h ⊢
  rw [eraseKeys_aop_apply, eraseKeys_aop_apply]
  have hKb : b.K ∈ b.keys := b.K_mem_keys hbwf
  have h1 : b.K ∈ S := hbS _ hKb
  have h2 : b.K ∈ S ++ o.keys := List.mem_append.mpr (.inl h1)
  rw [if_pos h1, if_pos h2]
  have e1 : eraseKeys (S ++ b.keys) x = eraseKeys S x := by
    apply eraseKeys_congr
    intro s
    simp [List.mem_append]
    intro hs
    exact hbS s hs
  have e2 : eraseKeys (S ++ o.keys ++ b.keys) x = eraseKeys (S ++ o.keys) x := by
    apply eraseKeys_congr
    intro s
    have := hbS s
    simp [List.mem_append]
    try tauto
  rw [e1, e2]
  simpa using h

theorem done_arun {α : Type} (S : List String) (o : AOp α) (w : List (AOp α))
    (hw : ∀ b, b ∈ w → (∀ s, s ∈ b.keys → s ∈ S) ∧ b.WF) (x : List (String × α))
    (h : DoneInv S o x) : DoneInv S o (arun w x) := by
  induction w generalizing x with
  | nil => exact h
  | cons b w ih =>
      have hb := hw b (List.mem_cons_self b w)
      exact ih (fun b' hb' => hw b' (List.mem_cons_of_mem b hb'))
        _ (done_preserve S o b hb.1 hb.2 x h)

/-- Fixpoint: a word of pairwise-compatible well-formed rewrites is
idempotent. -/
theorem arun_fix {α : Type} (w : List (AOp α))
    (hwf : ∀ o, o ∈ w → AOp.WF o)
    (hcompat : ∀ o, o ∈ w → ∀ o', o' ∈ w → AOp.compat o o')
    (x : List (String × α)) :
    arun w (arun w x) = arun w x := by
  induction w generalizing x with
  | nil => rfl
  | cons o w ih =>
      show arun w (o.apply (arun w (o.apply x))) = arun w (o.apply x)
      have hwf' : ∀ o', o' ∈ w → AOp.WF o' :=
        fun o' h => hwf o' (List.mem_cons_of_mem o h)
      have hcompat' : ∀ a, a ∈ w → ∀ b, b ∈ w → AOp.compat a b :=
        fun a ha b hb =>
          hcompat a (List.mem_cons_of_mem o ha) b (List.mem_cons_of_mem o hb)
      have hD : arun w (arun w (o.apply x)) = arun w (o.apply x) := ih hwf' hcompat' _
      have key : eraseKeys (keysW w) (o.apply (arun w (o.apply x)))
          = eraseKeys (keysW w) (arun w (o.apply x)) := by
        by_cases hsub : ∃ o', o' ∈ w ∧ o.k = o'.k
        · -- the footprint is inside the tail's footprint: the write is erased
          rcases hsub with ⟨o', ho', hk⟩
          have hFsub : ∀ s, s ∈ o.keys → s ∈ keysW w := by
            intro s hs
            rw [o.keys_eq_of_k_eq o' hk] at hs
            exact (mem_keysW w s).mpr ⟨o', ho', hs⟩
          rw [eraseKeys_aop_apply]
          have hK : o.K ∈ keysW w := hFsub _ (o.K_mem_keys (hwf o (List.mem_cons_self o w)))
          rw [if_pos hK]
          have e1 : eraseKeys (keysW w ++ o.keys) (arun w (o.apply x))
              = eraseKeys (keysW w) (arun w (o.apply x)) := by
            apply eraseKeys_congr
            intro s
            simp [List.mem_append]
            intro hs
            exact hFsub s hs
          rw [e1]
          simp
        · -- disjoint footprint: the tail carries o's write untouched
          have hdisj : ∀ s, s ∈ o.keys → s ∉ keysW w := by
            intro s hs hmem
            rcases (mem_keysW w s).mp hmem with ⟨o', ho', hs'⟩
            rcases hcompat o (List.mem_cons_self o w) o'
                (List.mem_cons_of_mem o ho') with hk | hdis
            · exact hsub ⟨o', ho', hk⟩
            · exact hdis s hs hs'
          have hdone : DoneInv (keysW w) o (arun w (o.apply x)) := by
            apply done_arun
            · intro b hb
              refine ⟨fun s hs => (mem_keysW w s).mpr ⟨b, hb, hs⟩, hwf' b hb⟩
            · exact done_init (keysW w) o (hwf o (List.mem_cons_self o w)) hdisj x
          unfold DoneInv at hdone
          rw [eraseKeys_aop_apply]
          have hK : o.K ∉ keysW w := hdisj _ (o.K_mem_keys (hwf o (List.mem_cons_self o w)))
          rw [if_neg hK, hdone]
      calc arun w (o.apply (arun w (o.apply x)))
          = arun w (arun w (o.apply x)) := arun_congr w _ _ key
        _ = arun w (o.apply x) := hD

/-! ## Auxiliary dict lemmas for the C4 development -/

theorem lookupKey_of_hasKey_false {α : Type} (d : List (String × α)) (k : String)
    (h : hasKey d k = false) : lookupKey d k = none := by
  induction d with
  | nil => rfl
  | cons p t ih =>
      by_cases hp : p.1 = k
      · simp [hasKey, hp] at h
      · simp [hasKey, hp] at h
        simp [lookupKey, hp, ih h]

theorem lookupKey_append_of_none {α : Type} (d e : List (String × α)) (k : String)
    (h : lookupKey d k = none) : lookupKey (d ++ e) k = lookupKey e k := by
  induction d with
  | nil => rfl
  | cons p t ih =>
      by_cases hp : p.1 = k
      · simp [lookupKey, hp] at h
      · simp [lookupKey, hp] at h ⊢
        exact ih h

theorem lookupKey_eraseKeys_of_mem {α : Type} (S : List String) (k : String)
    (h : k ∈ S) (x : List (String × α)) :
    lookupKey (eraseKeys S x) k = none :=
  lookupKey_of_hasKey_false _ _ (hasKey_eraseKeys_of_mem S k h x)

theorem lookupKey_eraseKeys_not_mem {α : Type} (S : List String) (k : String)
    (h : k ∉ S) (x : List (String × α)) :
    lookupKey (eraseKeys S x) k = lookupKey x k := by
  induction x with
  | nil => rfl
  | cons p t ih =>
      by_cases hp : p.1 ∈ S
      · have : ¬ p.1 = k := fun he => h (he ▸ hp)
        simp [eraseKeys, hp, lookupKey, this, ih]
      · by_cases hk : p.1 = k <;> simp [eraseKeys, hp, lookupKey, hk, h, ih]

theorem hasKey_eraseKeys_not_mem {α : Type} (S : List String) (k : String)
    (h : k ∉ S) (x : List (String × α)) :
    hasKey (eraseKeys S x) k = hasKey x k := by
  induction x with
  | nil => rfl
  | cons p t ih =>
      by_cases hp : p.1 ∈ S
      · have : ¬ p.1 = k := fun he => h (he ▸ hp)
        simp [eraseKeys, hp, hasKey, this, ih]
      · by_cases hk : p.1 = k <;> simp [eraseKeys, hp, hasKey, hk, h, ih]

theorem eraseKeys_setKey_mem {α : Type} (S : List String) (k : String) (v : α)
    (h : k ∈ S) (x : List (String × α)) :
    eraseKeys S (setKey x k v) = eraseKeys S x := by
  induction x with
  | nil => simp [setKey, eraseKeys, h]
  | cons p t ih =>
      by_cases hp : p.1 = k
      · simp [setKey, eraseKeys, hp, h, hp ▸ h]
      · by_cases hS : p.1 ∈ S <;> simp [setKey, eraseKeys, hp, hS, ih]

theorem eraseKeys_setKey_not_mem {α : Type} (S : List String) (k : String) (v : α)
    (h : k ∉ S) (x : List (String × α)) :
    eraseKeys S (setKey x k v) = setKey (eraseKeys S x) k v := by
  induction x with
  | nil => simp [setKey, eraseKeys, h]
  | cons p t ih =>
      by_cases hp : p.1 = k
      · simp [setKey, eraseKeys, hp, h, hp ▸ h]
      · by_cases hS : p.1 ∈ S <;> simp [setKey, eraseKeys, hp, hS, ih]

theorem setKey_append_left {α : Type} (a b : List (String × α)) (k : String) (v : α)
    (h : hasKey a k = true) : setKey (a ++ b) k v = setKey a k v ++ b := by
  induction a with
  | nil => simp [hasKey] at h
  | cons p t ih =>
      by_cases hp : p.1 = k
      · simp [setKey, hp]
      · simp [hasKey, hp] at h
        simp [setKey, hp, ih h]

theorem setKey_setKey_same {α : Type} (d : List (String × α)) (k : String) (v v' : α) :
    setKey (setKey d k v) k v' = setKey d k v' := by
  induction d with
  | nil => simp [setKey]
  | cons p t ih => by_cases hp : p.1 = k <;> simp [setKey, hp, ih]

theorem setKey_lookup_self {α : Type} (d : List (String × α)) (k : String) (v : α)
    (h : lookupKey d k = some v) : setKey d k v = d := by
  induction d with
  | nil => simp [lookupKey] at h
  | cons p t ih =>
      obtain ⟨a, b⟩ := p
      by_cases hp : a = k
      · subst hp
        simp [lookupKey] at h
        simp [setKey, h]
      · simp [lookupKey, hp] at h
        simp [setKey, hp, ih h]

theorem arun_append {α : Type} (w1 w2 : List (AOp α)) (x : List (String × α)) :
    arun (w1 ++ w2) x = arun w2 (arun w1 x) := by
  induction w1 generalizing x with
  | nil => rfl
  | cons o w ih => simp [arun, ih]

/-- The written entry of an atomic rewrite is at its key. -/
theorem lookupKey_aop_self {α : Type} (o : AOp α) (hwf : o.WF)
    (x : List (String × α)) : lookupKey (o.apply x) o.K = some o.v := by
  unfold AOp.apply
  rw [lookupKey_append_of_none _ _ _
    (lookupKey_eraseKeys_of_mem _ _ (o.K_mem_keys hwf) x)]
  simp [lookupKey]

/-- Keys outside an atomic rewrite's footprint are untouched. -/
theorem lookupKey_aop_other {α : Type} (o : AOp α) (p : String)
    (h : p ∉ o.keys) (hK : p ≠ o.K) (x : List (String × α)) :
    lookupKey (o.apply x) p = lookupKey x p := by
  unfold AOp.apply
  by_cases hx : lookupKey (eraseKeys o.keys x) p = none
  · rw [lookupKey_append_of_none _ _ _ hx]
    rw [lookupKey_eraseKeys_not_mem _ _ h] at hx
    have hK2 : ¬ o.K = p := fun he => hK he.symm
    simp [lookupKey, hK2, hx]
  · rw [← lookupKey_eraseKeys_not_mem o.keys p h x]
    rcases Option.ne_none_iff_exists'.mp hx with ⟨v, hv⟩
    rw [hv]
    clear hx
    generalize eraseKeys o.keys x = y at hv
    induction y with
    | nil => simp [lookupKey] at hv
    | cons q t ih =>
        by_cases hq : q.1 = p
        · simp [lookupKey, hq] at hv ⊢
          exact hv
        · simp [lookupKey, hq] at hv ⊢
          exact ih hv

/-- `generic_set_modifier` is an atomic rewrite. -/
theorem generic_set_modifier_eq_aop (sn : Func → String) (fm : FlowModifiers)
    (item : Dict) (k : String) (v : Value) :
    generic_set_modifier sn fm item k v
      = AOp.apply ⟨k, ref_key k (resolve_mod_value sn fm v), resolve_mod_value sn fm v⟩
          item := by
  unfold generic_set_modifier AOp.apply
  have hpp : popKey (popKey item k) (k ++ ".$")
      = eraseKeys (AOp.keys ⟨k, ref_key k (resolve_mod_value sn fm v),
          resolve_mod_value sn fm v⟩) item := by
    rw [popKey_eq_eraseKeys, popKey_eq_eraseKeys, eraseKeys_eraseKeys]
    apply eraseKeys_congr
    intro s
    simp [AOp.keys]
    try tauto
  rw [hpp]
  apply setKey_of_hasKey_false
  rcases ref_key_cases k (resolve_mod_value sn fm v) with h | h <;>
    rw [h] <;> exact hasKey_eraseKeys_of_mem _ _ (by simp [AOp.keys]) _

/-! ## The funcx word acting on a state's Parameters dict -/

/-- A funcx modifier as it acts on a state's `Parameters` dict:
`rep` is the `tasks` modifier (an atomic rewrite of the `tasks` keys),
`upd` an `endpoint`/`payload` modifier (an element-level atomic rewrite
broadcast over the task list). -/
inductive FxOp where
  | rep (a : AOp Value)
  | upd (a : AOp Value)

/-- The broadcast of one element rewrite over a state's task list (the
body of the `endpoint`/`payload` branch of `apply_one_modifier`, at the
`Parameters` level). -/
def fx_upd_core (a : AOp Value) (p : Dict) : Option Dict :=
  match lookupKey p "tasks" with
  | some (.list ts) =>
      match mapOption (fun t => t.asDict.map fun e => Value.dict (a.apply e)) ts with
      | some ts2 => some (setKey p "tasks" (.list ts2))
      | none => none
  | _ => none

/-- One funcx modifier applied to a `Parameters` dict (the inner part of
`apply_one_modifier`'s funcx branches). -/
def fx_op_apply (p : Dict) : FxOp → Option Dict
  | .rep a => some (a.apply p)
  | .upd a => fx_upd_core a p

/-- Run a funcx word over a `Parameters` dict. -/
def pRun : List FxOp → Dict → Option Dict
  | [], p => some p
  | o :: w, p =>
      match fx_op_apply p o with
      | some p2 => pRun w p2
      | none => none

/-- A well-formed task list value: a list of dicts. -/
def ListOfDicts (v : Value) : Prop :=
  ∃ ts, v = .list ts ∧ ∀ t ∈ ts, ∃ e, t = .dict e

/-- A `Parameters` dict holding a well-formed task list. -/
def TasksOK (p : Dict) : Prop :=
  ∃ v, lookupKey p "tasks" = some v ∧ ListOfDicts v

/-- Well-formed funcx ops: `rep` rewrites the `tasks` keys, writing a
well-formed task list under the plain key; `upd` is a well-formed
element rewrite. -/
def FxOpOK : FxOp → Prop
  | .rep a => a.k = "tasks" ∧ a.K = "tasks" ∧ ListOfDicts a.v
  | .upd a => a.WF

/-- The element transform of a broadcast modifier. -/
def eStep (a : AOp Value) (t : Value) : Value :=
  match t with
  | .dict e => .dict (a.apply e)
  | x => x

theorem mapOption_eStep (a : AOp Value) (ts : List Value)
    (h : ∀ t ∈ ts, ∃ e, t = .dict e) :
    mapOption (fun t => t.asDict.map fun e => Value.dict (a.apply e)) ts
      = some (ts.map (eStep a)) := by
  induction ts with
  | nil => rfl
  | cons t ts ih =>
      obtain ⟨e, rfl⟩ := h t (List.mem_cons_self t ts)
      unfold mapOption
      rw [ih fun t ht => h t (List.mem_cons_of_mem _ ht)]
      rfl

theorem mapOption_eStep_inv (a : AOp Value) (ts ts2 : List Value)
    (h : mapOption (fun t => t.asDict.map fun e => Value.dict (a.apply e)) ts
      = some ts2) :
    (∀ t ∈ ts, ∃ e, t = .dict e) ∧ ts2 = ts.map (eStep a) := by
  induction ts generalizing ts2 with
  | nil =>
      have h2 : (some [] : Option (List Value)) = some ts2 := h
      have h3 : ts2 = [] := by simpa using h2.symm
      subst h3
      simp
  | cons t ts ih =>
      unfold mapOption at h
      cases t with
      | dict e =>
          cases hm : mapOption (fun t => t.asDict.map fun e =>
              Value.dict (a.apply e)) ts with
          | none =>
              rw [hm] at h
              have h2 : (none : Option (List Value)) = some ts2 := h
              simp at h2
          | some l2 =>
              rw [hm] at h
              have h2 : some (Value.dict (a.apply e) :: l2) = some ts2 := h
              have h3 : ts2 = Value.dict (a.apply e) :: l2 := by
                simpa using h2.symm
              rcases ih l2 hm with ⟨hd, hmap⟩
              refine ⟨?_, ?_⟩
              · intro t ht
                rcases List.mem_cons.mp ht with rfl | ht
                · exact ⟨e, rfl⟩
                · exact hd t ht
              · rw [h3, hmap]
                simp [eStep]
      | str s =>
          have h2 : (none : Option (List Value)) = some ts2 := h
          simp at h2
      | int n =>
          have h2 : (none : Option (List Value)) = some ts2 := h
          simp at h2
      | func f =>
          have h2 : (none : Option (List Value)) = some ts2 := h
          simp at h2
      | list l =>
          have h2 : (none : Option (List Value)) = some ts2 := h
          simp at h2

/-- Inversion of a successful broadcast step. -/
theorem fx_upd_apply_inv (a : AOp Value) (p p2 : Dict)
    (h : fx_op_apply p (.upd a) = some p2) :
    ∃ ts, lookupKey p "tasks" = some (.list ts) ∧ (∀ t ∈ ts, ∃ e, t = .dict e) ∧
      p2 = setKey p "tasks" (.list (ts.map (eStep a))) := by
  have h2 : fx_upd_core a p = some p2 := h
  unfold fx_upd_core at h2
  cases hlp : lookupKey p "tasks" with
  | none =>
      rw [hlp] at h2
      have h3 : (none : Option Dict) = some p2 := h2
      simp at h3
  | some v =>
      rw [hlp] at h2
      cases v with
      | list ts =>
          have h3 : (match mapOption (fun t => t.asDict.map fun e =>
                Value.dict (a.apply e)) ts with
              | some ts2 => some (setKey p "tasks" (Value.list ts2))
              | none => none) = some p2 := h2
          cases hm : mapOption (fun t => t.asDict.map fun e =>
              Value.dict (a.apply e)) ts with
          | none =>
              rw [hm] at h3
              have h4 : (none : Option Dict) = some p2 := h3
              simp at h4
          | some ts2 =>
              rw [hm] at h3
              have h4 : some (setKey p "tasks" (Value.list ts2)) = some p2 := h3
              have h5 : p2 = setKey p "tasks" (Value.list ts2) := by
                simpa using h4.symm
              rcases mapOption_eStep_inv a ts ts2 hm with ⟨hd, rfl⟩
              exact ⟨ts, rfl, hd, h5⟩
      | str s =>
          have h3 : (none : Option Dict) = some p2 := h2
          simp at h3
      | int n =>
          have h3 : (none : Option Dict) = some p2 := h2
          simp at h3
      | func f =>
          have h3 : (none : Option Dict) = some p2 := h2
          simp at h3
      | dict dd =>
          have h3 : (none : Option Dict) = some p2 := h2
          simp at h3

/-- A successful broadcast step, computed. -/
theorem fx_upd_apply_eq (a : AOp Value) (p : Dict) (ts : List Value)
    (hlp : lookupKey p "tasks" = some (.list ts))
    (hd : ∀ t ∈ ts, ∃ e, t = .dict e) :
    fx_op_apply p (.upd a) = some (setKey p "tasks" (.list (ts.map (eStep a)))) := by
  show fx_upd_core a p = _
  unfold fx_upd_core
  rw [hlp]
  show (match mapOption (fun t => t.asDict.map fun e => Value.dict (a.apply e)) ts with
      | some ts2 => some (setKey p "tasks" (Value.list ts2))
      | none => none) = _
  rw [mapOption_eStep a ts hd]

theorem pRun_cons_some (o : FxOp) (w : List FxOp) (p p2 : Dict)
    (h : fx_op_apply p o = some p2) : pRun (o :: w) p = pRun w p2 := by
  simp [pRun, h]

theorem pRun_cons_inv (o : FxOp) (w : List FxOp) (p q : Dict)
    (h : pRun (o :: w) p = some q) :
    ∃ p2, fx_op_apply p o = some p2 ∧ pRun w p2 = some q := by
  unfold pRun at h
  cases hfx : fx_op_apply p o with
  | none =>
      rw [hfx] at h
      have h2 : (none : Option Dict) = some q := h
      simp at h2
  | some p2 =>
      rw [hfx] at h
      exact ⟨p2, rfl, h⟩

/-- `eStep` preserves dict-shaped elements. -/
theorem eStep_dicts (a : AOp Value) (ts : List Value)
    (hd : ∀ t ∈ ts, ∃ e, t = .dict e) :
    ∀ t ∈ ts.map (eStep a), ∃ e, t = .dict e := by
  intro t ht
  rcases List.mem_map.mp ht with ⟨t0, ht0, rfl⟩
  rcases hd t0 ht0 with ⟨e, rfl⟩
  exact ⟨a.apply e, rfl⟩

/-- A `tasks` rewrite only changes the `tasks` keys. -/
theorem rep_aop_erase (a : AOp Value) (hk : a.k = "tasks") (hK : a.K = "tasks")
    (x : Dict) :
    eraseKeys ["tasks", "tasks" ++ ".$"] (a.apply x)
      = eraseKeys ["tasks", "tasks" ++ ".$"] x := by
  rw [eraseKeys_aop_apply]
  rw [if_pos (by rw [hK]; simp), List.append_nil]
  apply eraseKeys_congr
  intro s
  have hkeys : a.keys = ["tasks", "tasks" ++ ".$"] := by
    simp [AOp.keys, hk]
  rw [hkeys]
  simp [List.mem_append]
  try tauto

/-- The non-`tasks` keys of the output of a funcx word equal those of
the input: the word only touches the `tasks` entry. -/
theorem pRun_erase_tasks (w : List FxOp) (hok : ∀ o ∈ w, FxOpOK o)
    (p q : Dict) (h : pRun w p = some q) :
    eraseKeys ["tasks", "tasks" ++ ".$"] q
      = eraseKeys ["tasks", "tasks" ++ ".$"] p := by
  induction w generalizing p with
  | nil =>
      simp [pRun] at h
      rw [h]
  | cons o w ih =>
      have hok' : ∀ o2, o2 ∈ w → FxOpOK o2 :=
        fun o2 h2 => hok o2 (List.mem_cons_of_mem o h2)
      rcases pRun_cons_inv o w p q h with ⟨p2, hfx, hrest⟩
      cases o with
      | rep a =>
          have ha := hok (.rep a) (List.mem_cons_self _ w)
          have hp2 : p2 = a.apply p := by
            simpa [fx_op_apply] using hfx.symm
          rw [ih hok' _ (hp2 ▸ hrest), rep_aop_erase a ha.1 ha.2.1]
      | upd a =>
          rcases fx_upd_apply_inv a p p2 hfx with ⟨ts, hlp, hd, rfl⟩
          have e1 : eraseKeys ["tasks", "tasks" ++ ".$"]
              (setKey p "tasks" (.list (ts.map (eStep a))))
              = eraseKeys ["tasks", "tasks" ++ ".$"] p :=
            eraseKeys_setKey_mem _ _ _ (by simp) p
          rw [ih hok' _ hrest, e1]

/-- A funcx word succeeds on a dict with a well-formed task list and
preserves that shape. -/
theorem pRun_shape (w : List FxOp) (hok : ∀ o ∈ w, FxOpOK o) (p : Dict)
    (hp : TasksOK p) : ∃ q, pRun w p = some q ∧ TasksOK q := by
  induction w generalizing p with
  | nil => exact ⟨p, rfl, hp⟩
  | cons o w ih =>
      have hok' : ∀ o2, o2 ∈ w → FxOpOK o2 :=
        fun o2 h2 => hok o2 (List.mem_cons_of_mem o h2)
      cases o with
      | rep a =>
          have ha := hok (.rep a) (List.mem_cons_self _ w)
          have hshape : TasksOK (a.apply p) := by
            refine ⟨a.v, ?_, ha.2.2⟩
            have hwf : a.WF := .inl (ha.2.1.trans ha.1.symm)
            have := lookupKey_aop_self a hwf p
            rw [ha.2.1] at this
            exact this
          rcases ih hok' _ hshape with ⟨q, hq, hsq⟩
          exact ⟨q, by rw [pRun_cons_some _ _ _ _ (rfl : fx_op_apply p (.rep a) = _)]; exact hq, hsq⟩
      | upd a =>
          rcases hp with ⟨v, hlp, ts, rfl, hd⟩
          have hstep := fx_upd_apply_eq a p ts hlp hd
          have hshape : TasksOK (setKey p "tasks" (.list (ts.map (eStep a)))) :=
            ⟨.list (ts.map (eStep a)), lookupKey_setKey_self _ _ _,
              ts.map (eStep a), rfl, eStep_dicts a ts hd⟩
          rcases ih hok' _ hshape with ⟨q, hq, hsq⟩
          exact ⟨q, by rw [pRun_cons_some _ _ _ _ hstep]; exact hq, hsq⟩

/-- When the word contains a `tasks` modifier, any two inputs differing
only in the `tasks` value are mapped to the same result. -/
theorem pRun_absorb (w : List FxOp) (hok : ∀ o ∈ w, FxOpOK o)
    (hT : ∃ a, FxOp.rep a ∈ w) (p : Dict) (v1 v2 : Value)
    (h1 : ListOfDicts v1) (h2 : ListOfDicts v2) :
    pRun w (setKey p "tasks" v1) = pRun w (setKey p "tasks" v2) := by
  induction w generalizing p v1 v2 with
  | nil =>
      rcases hT with ⟨a, ha⟩
      simp at ha
  | cons o w ih =>
      have hok' : ∀ o2, o2 ∈ w → FxOpOK o2 :=
        fun o2 h2 => hok o2 (List.mem_cons_of_mem o h2)
      cases o with
      | rep a =>
          have ha := hok (.rep a) (List.mem_cons_self _ w)
          have key : a.apply (setKey p "tasks" v1) = a.apply (setKey p "tasks" v2) := by
            unfold AOp.apply
            have hkeys : ("tasks" : String) ∈ a.keys := by simp [AOp.keys, ha.1]
            rw [eraseKeys_setKey_mem _ _ _ hkeys, eraseKeys_setKey_mem _ _ _ hkeys]
          rw [pRun_cons_some _ _ _ _ (rfl : fx_op_apply (setKey p "tasks" v1) (.rep a) = _),
            pRun_cons_some _ _ _ _ (rfl : fx_op_apply (setKey p "tasks" v2) (.rep a) = _),
            key]
      | upd a =>
          have hT' : ∃ b, FxOp.rep b ∈ w := by
            rcases hT with ⟨b, hb⟩
            rcases List.mem_cons.mp hb with hb | hb
            · exact absurd hb (by simp)
            · exact ⟨b, hb⟩
          rcases h1 with ⟨ts1, rfl, hd1⟩
          rcases h2 with ⟨ts2, rfl, hd2⟩
          have hstep1 := fx_upd_apply_eq a (setKey p "tasks" (.list ts1)) ts1
            (lookupKey_setKey_self _ _ _) hd1
          have hstep2 := fx_upd_apply_eq a (setKey p "tasks" (.list ts2)) ts2
            (lookupKey_setKey_self _ _ _) hd2
          rw [pRun_cons_some _ _ _ _ hstep1, pRun_cons_some _ _ _ _ hstep2,
            setKey_setKey_same, setKey_setKey_same]
          exact ih hok' hT' p _ _
            ⟨ts1.map (eStep a), rfl, eStep_dicts a ts1 hd1⟩
            ⟨ts2.map (eStep a), rfl, eStep_dicts a ts2 hd2⟩

/-- The element rewrites of a funcx word (its `upd` members in order). -/
def elemOps : List FxOp → List (AOp Value)
  | [] => []
  | .upd a :: w => a :: elemOps w
  | .rep _ :: w => elemOps w

/-- Broadcast a word of element rewrites over a task list. -/
def eMap (os : List (AOp Value)) (ts : List Value) : List Value :=
  ts.map fun t =>
    match t with
    | .dict e => .dict (arun os e)
    | x => x

theorem eMap_nil (ts : List Value) : eMap [] ts = ts := by
  induction ts with
  | nil => rfl
  | cons t ts ih =>
      have h : eMap [] ts = ts := ih
      cases t with
      | dict e => simpa [eMap, arun] using h
      | str s => simpa [eMap] using h
      | int n => simpa [eMap] using h
      | func f => simpa [eMap] using h
      | list l => simpa [eMap] using h

theorem eMap_append (os1 os2 : List (AOp Value)) (ts : List Value) :
    eMap (os1 ++ os2) ts = eMap os2 (eMap os1 ts) := by
  induction ts with
  | nil => rfl
  | cons t ts ih =>
      have h : eMap (os1 ++ os2) ts = eMap os2 (eMap os1 ts) := ih
      cases t with
      | dict e => simpa [eMap, arun_append] using h
      | str s => simpa [eMap] using h
      | int n => simpa [eMap] using h
      | func f => simpa [eMap] using h
      | list l => simpa [eMap] using h

/-- A single broadcast step is the one-element `eMap`. -/
theorem eMap_singleton_eq (a : AOp Value) (ts : List Value) :
    ts.map (eStep a) = eMap [a] ts := by
  induction ts with
  | nil => rfl
  | cons t ts ih =>
      have h : ts.map (eStep a) = eMap [a] ts := ih
      cases t with
      | dict e => simp [eMap, eStep, arun]
      | str s => simpa [eMap, eStep] using h
      | int n => simpa [eMap, eStep] using h
      | func f => simpa [eMap, eStep] using h
      | list l => simpa [eMap, eStep] using h

theorem elemOps_mem (w : List FxOp) (b : AOp Value) (h : b ∈ elemOps w) :
    FxOp.upd b ∈ w := by
  induction w with
  | nil => simp [elemOps] at h
  | cons o w ih =>
      cases o with
      | rep a =>
          exact List.mem_cons_of_mem _ (ih (by simpa [elemOps] using h))
      | upd a =>
          rcases List.mem_cons.mp (by simpa [elemOps] using h) with rfl | h2
          · exact List.mem_cons_self _ _
          · exact List.mem_cons_of_mem _ (ih h2)

/-- Idempotence of a broadcast of pairwise-compatible well-formed
element rewrites. -/
theorem eMap_fix (E : List (AOp Value)) (hwf : ∀ o ∈ E, AOp.WF o)
    (hcompat : ∀ o ∈ E, ∀ o2 ∈ E, AOp.compat o o2) (ts : List Value) :
    eMap E (eMap E ts) = eMap E ts := by
  induction ts with
  | nil => rfl
  | cons t ts ih =>
      have h : eMap E (eMap E ts) = eMap E ts := ih
      cases t with
      | dict e =>
          have hfix := arun_fix E hwf hcompat e
          simp [eMap] at h ⊢
          exact ⟨hfix, h⟩
      | str s => simpa [eMap] using h
      | int n => simpa [eMap] using h
      | func f => simpa [eMap] using h
      | list l => simpa [eMap] using h

/-- Normal form of an all-broadcast funcx word: it rewrites the `tasks`
value by the broadcast of its element rewrites. -/
theorem pRun_upds_nf (w : List FxOp) (hupds : ∀ o ∈ w, ∃ a, o = FxOp.upd a)
    (p : Dict) (ts : List Value)
    (hts : lookupKey p "tasks" = some (.list ts))
    (hd : ∀ t ∈ ts, ∃ e, t = .dict e) :
    pRun w p = some (setKey p "tasks" (.list (eMap (elemOps w) ts))) := by
  induction w generalizing p ts with
  | nil =>
      show some p = _
      rw [show elemOps [] = [] from rfl, eMap_nil,
        setKey_lookup_self p "tasks" _ hts]
  | cons o w ih =>
      obtain ⟨a, rfl⟩ := hupds o (List.mem_cons_self o w)
      have hstep := fx_upd_apply_eq a p ts hts hd
      rw [pRun_cons_some _ _ _ _ hstep]
      have hts1 : lookupKey (setKey p "tasks" (.list (ts.map (eStep a)))) "tasks"
          = some (.list (ts.map (eStep a))) := lookupKey_setKey_self _ _ _
      rw [ih (fun o2 ho => hupds o2 (List.mem_cons_of_mem _ ho)) _ _ hts1
        (eStep_dicts a ts hd)]
      rw [setKey_setKey_same, eMap_singleton_eq, ← eMap_append,
        show elemOps (FxOp.upd a :: w) = a :: elemOps w from rfl,
        show ([a] ++ elemOps w : List (AOp Value)) = a :: elemOps w from rfl]

/-- Fixpoint of a funcx word: the image of a successful run is a fixed
point, provided the `tasks` modifiers are well formed and the broadcast
modifiers are pairwise compatible. -/
theorem pRun_fix (w : List FxOp) (hok : ∀ o ∈ w, FxOpOK o)
    (hcompat : ∀ a, FxOp.upd a ∈ w → ∀ b, FxOp.upd b ∈ w → AOp.compat a b)
    (p q : Dict) (h : pRun w p = some q) : pRun w q = some q := by
  induction w generalizing p q with
  | nil =>
      have h2 : (some p : Option Dict) = some q := h
      have h3 : q = p := by simpa using h2.symm
      subst h3
      rfl
  | cons o w ih =>
      have hok' : ∀ o2, o2 ∈ w → FxOpOK o2 :=
        fun o2 h2 => hok o2 (List.mem_cons_of_mem o h2)
      have hcompat' : ∀ a, FxOp.upd a ∈ w → ∀ b, FxOp.upd b ∈ w → AOp.compat a b :=
        fun a ha b hb =>
          hcompat a (List.mem_cons_of_mem o ha) b (List.mem_cons_of_mem o hb)
      rcases pRun_cons_inv o w p q h with ⟨p1, hfx, hrest⟩
      cases o with
      | rep a =>
          have ha := hok (.rep a) (List.mem_cons_self _ w)
          have hp1 : p1 = a.apply p := by
            simpa [fx_op_apply] using hfx.symm
          subst hp1
          have herase := pRun_erase_tasks w hok' _ q hrest
          have happly : a.apply q = a.apply p := by
            unfold AOp.apply
            have hkeys : a.keys = ["tasks", "tasks" ++ ".$"] := by
              simp [AOp.keys, ha.1]
            rw [hkeys, herase, rep_aop_erase a ha.1 ha.2.1 p]
          rw [pRun_cons_some _ _ _ _ (rfl : fx_op_apply q (.rep a) = some (a.apply q)),
            happly]
          exact hrest
      | upd a =>
          rcases fx_upd_apply_inv a p p1 hfx with ⟨ts, hlp, hd, rfl⟩
          have hshape1 : TasksOK (setKey p "tasks" (.list (ts.map (eStep a)))) :=
            ⟨.list (ts.map (eStep a)), lookupKey_setKey_self _ _ _,
              ts.map (eStep a), rfl, eStep_dicts a ts hd⟩
          have hq_shape : TasksOK q := by
            rcases pRun_shape w hok' _ hshape1 with ⟨q2, hq2, hs⟩
            rw [hrest] at hq2
            have hqq : q2 = q := by simpa using hq2.symm
            rw [hqq] at hs
            exact hs
          rcases hq_shape with ⟨v, hlq, tq, rfl, hdq⟩
          have hstepq := fx_upd_apply_eq a q tq hlq hdq
          rw [pRun_cons_some _ _ _ _ hstepq]
          by_cases hrep : ∃ b, FxOp.rep b ∈ w
          · have habs := pRun_absorb w hok' hrep q (.list (tq.map (eStep a))) (.list tq)
              ⟨tq.map (eStep a), rfl, eStep_dicts a tq hdq⟩ ⟨tq, rfl, hdq⟩
            rw [habs, setKey_lookup_self q "tasks" _ hlq]
            exact ih hok' hcompat' _ _ hrest
          · have hupds : ∀ o2 ∈ w, ∃ b, o2 = FxOp.upd b := by
              intro o2 ho
              cases o2 with
              | upd b => exact ⟨b, rfl⟩
              | rep b => exact absurd ⟨b, ho⟩ hrep
            have hwfE : ∀ o2 ∈ (a :: elemOps w), AOp.WF o2 := by
              intro o2 ho
              rcases List.mem_cons.mp ho with rfl | ho
              · exact hok (.upd o2) (List.mem_cons_self _ w)
              · exact hok' (.upd o2) (elemOps_mem w o2 ho)
            have hmemE : ∀ o2 ∈ (a :: elemOps w), FxOp.upd o2 ∈ FxOp.upd a :: w := by
              intro o2 ho
              rcases List.mem_cons.mp ho with rfl | ho
              · exact List.mem_cons_self _ _
              · exact List.mem_cons_of_mem _ (elemOps_mem w o2 ho)
            have hcompatE : ∀ o2 ∈ (a :: elemOps w), ∀ o3 ∈ (a :: elemOps w),
                AOp.compat o2 o3 :=
              fun o2 h2 o3 h3 => hcompat o2 (hmemE o2 h2) o3 (hmemE o3 h3)
            have hnf_p := pRun_upds_nf w hupds
              (setKey p "tasks" (.list (ts.map (eStep a)))) (ts.map (eStep a))
              (lookupKey_setKey_self _ _ _) (eStep_dicts a ts hd)
            rw [hrest] at hnf_p
            have hq_eq : q = setKey p "tasks"
                (.list (eMap (elemOps w) (ts.map (eStep a)))) := by
              have h5 := hnf_p
              rw [setKey_setKey_same] at h5
              simpa using h5
            have htq : tq = eMap (a :: elemOps w) ts := by
              have h6 : lookupKey q "tasks"
                  = some (.list (eMap (elemOps w) (ts.map (eStep a)))) := by
                rw [hq_eq]
                exact lookupKey_setKey_self _ _ _
              rw [hlq] at h6
              have h7 : Value.list tq = .list (eMap (elemOps w) (ts.map (eStep a))) := by
                simpa using h6
              have h8 : tq = eMap (elemOps w) (ts.map (eStep a)) := by
                injection h7
              rw [h8, eMap_singleton_eq, ← eMap_append]
              rfl
            have hnf_q := pRun_upds_nf w hupds
              (setKey q "tasks" (.list (tq.map (eStep a)))) (tq.map (eStep a))
              (lookupKey_setKey_self _ _ _) (eStep_dicts a tq hdq)
            rw [hnf_q, setKey_setKey_same]
            have hval : eMap (elemOps w) (tq.map (eStep a)) = tq := by
              rw [eMap_singleton_eq, ← eMap_append,
                show ([a] ++ elemOps w) = a :: elemOps w from rfl, htq,
                eMap_fix _ hwfE hcompatE]
            rw [hval, setKey_lookup_self q "tasks" _ hlq]

/-! ## The modifier word acting on a whole state dict -/

theorem hasKey_of_lookupKey_some {α : Type} (d : List (String × α)) (k : String)
    (v : α) (h : lookupKey d k = some v) : hasKey d k = true := by
  cases hk : hasKey d k with
  | true => rfl
  | false =>
      rw [lookupKey_of_hasKey_false d k hk] at h
      exact absurd h (by simp)

/-- A modifier entry as it acts on a whole state dict: `fx` transforms
the `Parameters` dict in place, `st` is a top-level atomic rewrite, and
`idop` is the no-op of an unsupported modifier name. -/
inductive TOp where
  | fx (o : FxOp)
  | st (a : AOp Value)
  | idop

/-- The state-level operation of one `(modifier_name, value)` pair of
`apply_modifier`'s loop, for names other than `InputPath`. -/
def top_op (sn : Func → String) (fm : FlowModifiers)
    (modifier_name : String) (value : Value) : TOp :=
  let mv := resolve_mod_value sn fm value
  if modifier_name ∈ funcx_modifiers then
    if modifier_name = "tasks" then
      .fx (.rep ⟨"tasks", ref_key "tasks" mv, mv⟩)
    else .fx (.upd ⟨modifier_name, ref_key modifier_name mv, mv⟩)
  else if modifier_name ∈ state_modifiers then
    .st ⟨modifier_name, ref_key modifier_name mv, mv⟩
  else .idop

/-- One state-level step. -/
def tstep (s : Dict) : TOp → Option Dict
  | .fx o =>
      match lookupKey s "Parameters" with
      | some (.dict p) =>
          (fx_op_apply p o).map fun p2 => setKey s "Parameters" (.dict p2)
      | _ => none
  | .st a => some (a.apply s)
  | .idop => some s

/-- Run a state-level word. -/
def tRun : List TOp → Dict → Option Dict
  | [], s => some s
  | o :: w, s =>
      match tstep s o with
      | some s2 => tRun w s2
      | none => none

/-- The element broadcast of `apply_one_modifier` coincides with the
broadcast of the corresponding atomic rewrite. -/
theorem mapOption_gsm (sn : Func → String) (fm : FlowModifiers)
    (mn : String) (v : Value) (ts : List Value) :
    mapOption (fun t => t.asDict.map fun d =>
        Value.dict (generic_set_modifier sn fm d mn v)) ts
      = mapOption (fun t => t.asDict.map fun e =>
        Value.dict (AOp.apply ⟨mn, ref_key mn (resolve_mod_value sn fm v),
          resolve_mod_value sn fm v⟩ e)) ts := by
  have hfun : (fun t => Value.asDict t |>.map fun d =>
      Value.dict (generic_set_modifier sn fm d mn v))
      = fun t => Value.asDict t |>.map fun e =>
        Value.dict (AOp.apply ⟨mn, ref_key mn (resolve_mod_value sn fm v),
          resolve_mod_value sn fm v⟩ e) := by
    funext t
    cases t <;> simp [Value.asDict, generic_set_modifier_eq_aop]
  rw [hfun]

theorem tstep_fx (s : Dict) (o : FxOp) :
    tstep s (.fx o) = match lookupKey s "Parameters" with
      | some (.dict p) =>
          (fx_op_apply p o).map fun p2 => setKey s "Parameters" (.dict p2)
      | _ => none := rfl

/-- For modifier names other than `InputPath`, one iteration of
`apply_modifier`'s loop is the state-level step of `top_op`. -/
theorem apply_one_modifier_eq_tstep (sn : Func → String) (fm : FlowModifiers)
    (s : Dict) (mn : String) (v : Value) (hip : mn ≠ "InputPath") :
    apply_one_modifier sn fm s mn v = tstep s (top_op sn fm mn v) := by
  by_cases hf : mn ∈ funcx_modifiers
  · by_cases ht : mn = "tasks"
    · subst ht
      have hl : apply_one_modifier sn fm s "tasks" v
          = match lookupKey s "Parameters" with
            | some (.dict params) =>
                some (setKey s "Parameters"
                  (.dict (generic_set_modifier sn fm params "tasks" v)))
            | _ => none := rfl
      have hr : top_op sn fm "tasks" v
          = .fx (.rep ⟨"tasks", ref_key "tasks" (resolve_mod_value sn fm v),
              resolve_mod_value sn fm v⟩) := rfl
      rw [hl, hr, tstep_fx]
      cases hlp : lookupKey s "Parameters" with
      | none => rfl
      | some v0 =>
          cases v0 with
          | dict params =>
              show some (setKey s "Parameters"
                  (.dict (generic_set_modifier sn fm params "tasks" v))) = _
              rw [generic_set_modifier_eq_aop]
              rfl
          | str s0 => rfl
          | int n0 => rfl
          | func f0 => rfl
          | list l0 => rfl
    · have hl : apply_one_modifier sn fm s mn v
          = match lookupKey s "Parameters" with
            | some (.dict params) =>
                match lookupKey params "tasks" with
                | some (.list tasks) =>
                    match mapOption (fun t => t.asDict.map fun d =>
                        Value.dict (generic_set_modifier sn fm d mn v)) tasks with
                    | some tasks2 =>
                        some (setKey s "Parameters"
                          (.dict (setKey params "tasks" (.list tasks2))))
                    | none => none
                | _ => none
            | _ => none := by
        simp only [apply_one_modifier]
        rw [if_pos hf, if_neg ht]
      have hr : top_op sn fm mn v
          = .fx (.upd ⟨mn, ref_key mn (resolve_mod_value sn fm v),
              resolve_mod_value sn fm v⟩) := by
        simp only [top_op]
        rw [if_pos hf, if_neg ht]
      rw [hl, hr, tstep_fx]
      cases hlp : lookupKey s "Parameters" with
      | none => rfl
      | some v0 =>
          cases v0 with
          | dict params =>
              show (match lookupKey params "tasks" with
                  | some (.list tasks) =>
                      match mapOption (fun t => t.asDict.map fun d =>
                          Value.dict (generic_set_modifier sn fm d mn v)) tasks with
                      | some tasks2 =>
                          some (setKey s "Parameters"
                            (.dict (setKey params "tasks" (.list tasks2))))
                      | none => none
                  | _ => none)
                = (fx_op_apply params (FxOp.upd
                    ⟨mn, ref_key mn (resolve_mod_value sn fm v),
                      resolve_mod_value sn fm v⟩)).map
                    fun p2 => setKey s "Parameters" (.dict p2)
              rw [show fx_op_apply params (FxOp.upd
                  ⟨mn, ref_key mn (resolve_mod_value sn fm v),
                    resolve_mod_value sn fm v⟩)
                = fx_upd_core ⟨mn, ref_key mn (resolve_mod_value sn fm v),
                    resolve_mod_value sn fm v⟩ params from rfl]
              rw [show fx_upd_core ⟨mn, ref_key mn (resolve_mod_value sn fm v),
                    resolve_mod_value sn fm v⟩ params
                = match lookupKey params "tasks" with
                  | some (.list ts) =>
                      match mapOption (fun t => t.asDict.map fun e =>
                          Value.dict (AOp.apply ⟨mn,
                            ref_key mn (resolve_mod_value sn fm v),
                            resolve_mod_value sn fm v⟩ e)) ts with
                      | some ts2 => some (setKey params "tasks" (.list ts2))
                      | none => none
                  | _ => none from rfl]
              cases hlt : lookupKey params "tasks" with
              | none => rfl
              | some v1 =>
                  cases v1 with
                  | list tasks =>
                      show (match mapOption (fun t => t.asDict.map fun d =>
                            Value.dict (generic_set_modifier sn fm d mn v)) tasks with
                          | some tasks2 =>
                              some (setKey s "Parameters"
                                (.dict (setKey params "tasks" (.list tasks2))))
                          | none => none)
                        = (match mapOption (fun t => t.asDict.map fun e =>
                            Value.dict (AOp.apply ⟨mn,
                              ref_key mn (resolve_mod_value sn fm v),
                              resolve_mod_value sn fm v⟩ e)) tasks with
                          | some ts2 => some (setKey params "tasks" (.list ts2))
                          | none => none).map
                            fun p2 => setKey s "Parameters" (.dict p2)
                      rw [mapOption_gsm]
                      cases hm : mapOption (fun t => t.asDict.map fun e =>
                          Value.dict (AOp.apply ⟨mn,
                            ref_key mn (resolve_mod_value sn fm v),
                            resolve_mod_value sn fm v⟩ e)) tasks with
                      | none => rfl
                      | some tasks2 => rfl
                  | str s1 => rfl
                  | int n1 => rfl
                  | func f1 => rfl
                  | dict d1 => rfl
          | str s0 => rfl
          | int n0 => rfl
          | func f0 => rfl
          | list l0 => rfl
  · by_cases hs : mn ∈ state_modifiers
    · have hl : apply_one_modifier sn fm s mn v
          = some (generic_set_modifier sn fm s mn v) := by
        simp only [apply_one_modifier]
        rw [if_neg hf, if_pos hs, if_neg (fun hco => hip hco.1)]
      have hr : top_op sn fm mn v
          = .st ⟨mn, ref_key mn (resolve_mod_value sn fm v),
              resolve_mod_value sn fm v⟩ := by
        simp only [top_op]
        rw [if_neg hf, if_pos hs]
      rw [hl, hr, generic_set_modifier_eq_aop]
      rfl
    · have hl : apply_one_modifier sn fm s mn v = some s := by
        simp only [apply_one_modifier]
        rw [if_neg hf, if_neg hs]
      have hr : top_op sn fm mn v = .idop := by
        simp only [top_op]
        rw [if_neg hf, if_neg hs]
      rw [hl, hr]
      rfl

theorem tRun_cons (o : TOp) (w : List TOp) (s : Dict) :
    tRun (o :: w) s
      = match tstep s o with | some s2 => tRun w s2 | none => none := rfl

/-- `apply_modifier` is the state-level word run, when no modifier is
`InputPath`. -/
theorem apply_modifier_eq_tRun (sn : Func → String) (fm : FlowModifiers)
    (mods : Dict) (hip : ∀ p ∈ mods, p.1 ≠ "InputPath") (s : Dict) :
    apply_modifier sn fm s mods
      = tRun (mods.map fun p => top_op sn fm p.1 p.2) s := by
  induction mods generalizing s with
  | nil => rfl
  | cons p mods ih =>
      have hstep := apply_one_modifier_eq_tstep sn fm s p.1 p.2
        (hip p (List.mem_cons_self p mods))
      have hl : apply_modifier sn fm s (p :: mods)
          = Option.bind (apply_one_modifier sn fm s p.1 p.2)
              (fun s2 => apply_modifier sn fm s2 mods) := rfl
      rw [hl, hstep,
        show ((p :: mods).map fun q => top_op sn fm q.1 q.2)
          = top_op sn fm p.1 p.2 :: (mods.map fun q => top_op sn fm q.1 q.2)
          from rfl,
        tRun_cons]
      cases hts : tstep s (top_op sn fm p.1 p.2) with
      | none => rfl
      | some s2 =>
          show apply_modifier sn fm s2 mods = _
          exact ih (fun q hq => hip q (List.mem_cons_of_mem p hq)) s2

/-- The funcx members of a state-level word. -/
def fxOps : List TOp → List FxOp
  | [] => []
  | .fx o :: w => o :: fxOps w
  | .st _ :: w => fxOps w
  | .idop :: w => fxOps w

/-- The top-level atomic members of a state-level word. -/
def stOps : List TOp → List (AOp Value)
  | [] => []
  | .st a :: w => a :: stOps w
  | .fx _ :: w => stOps w
  | .idop :: w => stOps w

theorem fxOps_mem (W : List TOp) (o : FxOp) (h : o ∈ fxOps W) :
    TOp.fx o ∈ W := by
  induction W with
  | nil => simp [fxOps] at h
  | cons t W ih =>
      cases t with
      | fx o0 =>
          rcases List.mem_cons.mp (by simpa [fxOps] using h) with rfl | h2
          · exact List.mem_cons_self _ _
          · exact List.mem_cons_of_mem _ (ih h2)
      | st a => exact List.mem_cons_of_mem _ (ih (by simpa [fxOps] using h))
      | idop => exact List.mem_cons_of_mem _ (ih (by simpa [fxOps] using h))

theorem stOps_mem (W : List TOp) (a : AOp Value) (h : a ∈ stOps W) :
    TOp.st a ∈ W := by
  induction W with
  | nil => simp [stOps] at h
  | cons t W ih =>
      cases t with
      | st a0 =>
          rcases List.mem_cons.mp (by simpa [stOps] using h) with rfl | h2
          · exact List.mem_cons_self _ _
          · exact List.mem_cons_of_mem _ (ih h2)
      | fx o => exact List.mem_cons_of_mem _ (ih (by simpa [stOps] using h))
      | idop => exact List.mem_cons_of_mem _ (ih (by simpa [stOps] using h))

/-- An atomic rewrite that avoids the `Parameters` key commutes with an
in-place update of the `Parameters` value. -/
theorem setKey_aop_comm (a : AOp Value) (hP : "Parameters" ∉ a.keys)
    (s : Dict) (u : Value) (hs : hasKey s "Parameters" = true) :
    setKey (a.apply s) "Parameters" u = a.apply (setKey s "Parameters" u) := by
  unfold AOp.apply
  rw [eraseKeys_setKey_not_mem _ _ _ hP]
  rw [setKey_append_left _ _ _ _ (by rw [hasKey_eraseKeys_not_mem _ _ hP]; exact hs)]

/-- A funcx step commutes with a top-level atomic rewrite that avoids
the `Parameters` key. -/
theorem tstep_fx_aop_comm (a : AOp Value) (hP : "Parameters" ∉ a.keys)
    (hK : a.K ≠ "Parameters") (o : FxOp) (s : Dict) :
    tstep (a.apply s) (.fx o) = (tstep s (.fx o)).map a.apply := by
  rw [tstep_fx (a.apply s) o, tstep_fx s o]
  rw [lookupKey_aop_other a "Parameters" hP (fun h => hK h.symm) s]
  cases hlp : lookupKey s "Parameters" with
  | none => rfl
  | some v0 =>
      cases v0 with
      | dict p =>
          show (fx_op_apply p o).map (fun p2 => setKey (a.apply s) "Parameters" (.dict p2))
            = ((fx_op_apply p o).map fun p2 => setKey s "Parameters" (.dict p2)).map a.apply
          cases hfo : fx_op_apply p o with
          | none => rfl
          | some p2 =>
              show some (setKey (a.apply s) "Parameters" (.dict p2))
                = some (a.apply (setKey s "Parameters" (.dict p2)))
              rw [setKey_aop_comm a hP s (.dict p2)
                (hasKey_of_lookupKey_some s "Parameters" _ hlp)]
      | str s0 => rfl
      | int n0 => rfl
      | func f0 => rfl
      | list l0 => rfl

/-- A funcx word commutes with a top-level atomic rewrite that avoids
the `Parameters` key. -/
theorem tRun_fxword_aop (F : List FxOp) (a : AOp Value)
    (hP : "Parameters" ∉ a.keys) (hK : a.K ≠ "Parameters") (s : Dict) :
    tRun (F.map TOp.fx) (a.apply s) = (tRun (F.map TOp.fx) s).map a.apply := by
  induction F generalizing s with
  | nil => rfl
  | cons o F ih =>
      rw [show ((o :: F).map TOp.fx) = TOp.fx o :: F.map TOp.fx from rfl,
        tRun_cons (TOp.fx o) (F.map TOp.fx) (a.apply s),
        tRun_cons (TOp.fx o) (F.map TOp.fx) s,
        tstep_fx_aop_comm a hP hK o s]
      cases hts : tstep s (.fx o) with
      | none => rfl
      | some s2 =>
          show tRun (F.map TOp.fx) (a.apply s2) = _
          rw [ih s2]

/-- A funcx word commutes with a word of top-level atomic rewrites that
avoid the `Parameters` key. -/
theorem tRun_fxword_arun (F : List FxOp) (A : List (AOp Value))
    (hA : ∀ a ∈ A, "Parameters" ∉ a.keys ∧ a.K ≠ "Parameters") (s : Dict) :
    tRun (F.map TOp.fx) (arun A s) = (tRun (F.map TOp.fx) s).map (arun A) := by
  induction A generalizing s with
  | nil =>
      show tRun (F.map TOp.fx) s = _
      cases h : tRun (F.map TOp.fx) s with
      | none => rfl
      | some x => rfl
  | cons a A ih =>
      have ha := hA a (List.mem_cons_self a A)
      show tRun (F.map TOp.fx) (arun A (a.apply s)) = _
      rw [ih (fun b hb => hA b (List.mem_cons_of_mem a hb)) (a.apply s),
        tRun_fxword_aop F a ha.1 ha.2 s]
      cases tRun (F.map TOp.fx) s with
      | none => rfl
      | some x => rfl

/-- Decomposition: a state-level word is its funcx subword followed by
its top-level atomic subword. -/
theorem tRun_decomp (W : List TOp)
    (hA : ∀ a ∈ stOps W, "Parameters" ∉ a.keys ∧ a.K ≠ "Parameters")
    (s : Dict) :
    tRun W s = (tRun ((fxOps W).map TOp.fx) s).map (arun (stOps W)) := by
  induction W generalizing s with
  | nil => rfl
  | cons o W ih =>
      cases o with
      | fx o0 =>
          rw [show ((fxOps (TOp.fx o0 :: W)).map TOp.fx)
              = TOp.fx o0 :: (fxOps W).map TOp.fx from rfl,
            show stOps (TOp.fx o0 :: W) = stOps W from rfl,
            tRun_cons (TOp.fx o0) W s,
            tRun_cons (TOp.fx o0) ((fxOps W).map TOp.fx) s]
          cases hts : tstep s (.fx o0) with
          | none => rfl
          | some s2 =>
              show tRun W s2 = _
              exact ih hA s2
      | st a =>
          have ha := hA a (List.mem_cons_self a (stOps W))
          show tRun W (a.apply s) = _
          rw [ih (fun b hb => hA b (List.mem_cons_of_mem a hb)) (a.apply s),
            show stOps (TOp.st a :: W) = a :: stOps W from rfl,
            show fxOps (TOp.st a :: W) = fxOps W from rfl,
            tRun_fxword_aop (fxOps W) a ha.1 ha.2 s]
          cases tRun ((fxOps W).map TOp.fx) s with
          | none => rfl
          | some x => rfl
      | idop =>
          show tRun W s = _
          exact ih hA s

/-- A funcx word at state level is `pRun` on the `Parameters` value. -/
theorem tRun_fxword_lift (F : List FxOp) (s p : Dict)
    (hlp : lookupKey s "Parameters" = some (.dict p)) :
    tRun (F.map TOp.fx) s
      = (pRun F p).map fun p2 => setKey s "Parameters" (.dict p2) := by
  induction F generalizing s p with
  | nil =>
      show some s = some (setKey s "Parameters" (.dict p))
      rw [setKey_lookup_self s "Parameters" _ hlp]
  | cons o F ih =>
      rw [show ((o :: F).map TOp.fx) = TOp.fx o :: F.map TOp.fx from rfl,
        tRun_cons (TOp.fx o) (F.map TOp.fx) s]
      have hts : tstep s (.fx o)
          = (fx_op_apply p o).map fun p2 => setKey s "Parameters" (.dict p2) := by
        rw [tstep_fx s o, hlp]
      rw [hts]
      cases hfo : fx_op_apply p o with
      | none =>
          have hpr : pRun (o :: F) p = none := by
            show (match fx_op_apply p o with
                | some p2 => pRun F p2
                | none => none) = none
            rw [hfo]
          rw [hpr]
          rfl
      | some p2 =>
          show tRun (F.map TOp.fx) (setKey s "Parameters" (.dict p2)) = _
          rw [ih (setKey s "Parameters" (.dict p2)) p2
            (lookupKey_setKey_self s "Parameters" (.dict p2)),
            pRun_cons_some o F p p2 hfo]
          cases pRun F p2 with
          | none => rfl
          | some q =>
              show some (setKey (setKey s "Parameters" (.dict p2)) "Parameters" (.dict q))
                = some (setKey s "Parameters" (.dict q))
              rw [setKey_setKey_same]

/-- Fixpoint of a funcx word at state level. -/
theorem tRun_fxword_fix (F : List FxOp) (hok : ∀ o ∈ F, FxOpOK o)
    (hc : ∀ a, FxOp.upd a ∈ F → ∀ b, FxOp.upd b ∈ F → AOp.compat a b)
    (s s1 : Dict) (h : tRun (F.map TOp.fx) s = some s1) :
    tRun (F.map TOp.fx) s1 = some s1 := by
  cases F with
  | nil =>
      have h2 : (some s : Option Dict) = some s1 := h
      have h3 : s1 = s := by simpa using h2.symm
      subst h3
      rfl
  | cons o F =>
      cases hlp : lookupKey s "Parameters" with
      | none =>
          exfalso
          have hts : tstep s (.fx o) = none := by rw [tstep_fx s o, hlp]
          have h2 : tRun ((o :: F).map TOp.fx) s = none := by
            rw [show ((o :: F).map TOp.fx) = TOp.fx o :: F.map TOp.fx from rfl,
              tRun_cons (TOp.fx o) (F.map TOp.fx) s, hts]
          rw [h2] at h
          exact absurd h (by simp)
      | some v0 =>
          cases v0 with
          | dict p =>
              rw [tRun_fxword_lift (o :: F) s p hlp] at h
              cases hr : pRun (o :: F) p with
              | none =>
                  rw [hr] at h
                  exact absurd h (by simp)
              | some p1 =>
                  rw [hr] at h
                  have hs1 : s1 = setKey s "Parameters" (.dict p1) := by
                    simpa using h.symm
                  have hfix := pRun_fix (o :: F) hok hc p p1 hr
                  have hlp1 : lookupKey s1 "Parameters" = some (.dict p1) := by
                    rw [hs1]
                    exact lookupKey_setKey_self s "Parameters" (.dict p1)
                  rw [tRun_fxword_lift (o :: F) s1 p1 hlp1, hfix]
                  show some (setKey s1 "Parameters" (.dict p1)) = some s1
                  rw [setKey_lookup_self s1 "Parameters" _ hlp1]
          | str s0 =>
              exfalso
              have hts : tstep s (.fx o) = none := by rw [tstep_fx s o, hlp]
              have h2 : tRun ((o :: F).map TOp.fx) s = none := by
                rw [show ((o :: F).map TOp.fx) = TOp.fx o :: F.map TOp.fx from rfl,
                  tRun_cons (TOp.fx o) (F.map TOp.fx) s, hts]
              rw [h2] at h
              exact absurd h (by simp)
          | int n0 =>
              exfalso
              have hts : tstep s (.fx o) = none := by rw [tstep_fx s o, hlp]
              have h2 : tRun ((o :: F).map TOp.fx) s = none := by
                rw [show ((o :: F).map TOp.fx) = TOp.fx o :: F.map TOp.fx from rfl,
                  tRun_cons (TOp.fx o) (F.map TOp.fx) s, hts]
              rw [h2] at h
              exact absurd h (by simp)
          | func f0 =>
              exfalso
              have hts : tstep s (.fx o) = none := by rw [tstep_fx s o, hlp]
              have h2 : tRun ((o :: F).map TOp.fx) s = none := by
                rw [show ((o :: F).map TOp.fx) = TOp.fx o :: F.map TOp.fx from rfl,
                  tRun_cons (TOp.fx o) (F.map TOp.fx) s, hts]
              rw [h2] at h
              exact absurd h (by simp)
          | list l0 =>
              exfalso
              have hts : tstep s (.fx o) = none := by rw [tstep_fx s o, hlp]
              have h2 : tRun ((o :: F).map TOp.fx) s = none := by
                rw [show ((o :: F).map TOp.fx) = TOp.fx o :: F.map TOp.fx from rfl,
                  tRun_cons (TOp.fx o) (F.map TOp.fx) s, hts]
              rw [h2] at h
              exact absurd h (by simp)

/-- Fixpoint of a state-level word. -/
theorem tRun_fix (W : List TOp)
    (hok : ∀ o ∈ fxOps W, FxOpOK o)
    (hc : ∀ a, FxOp.upd a ∈ fxOps W → ∀ b, FxOp.upd b ∈ fxOps W → AOp.compat a b)
    (hA : ∀ a ∈ stOps W, AOp.WF a ∧ "Parameters" ∉ a.keys ∧ a.K ≠ "Parameters")
    (hAc : ∀ a ∈ stOps W, ∀ b ∈ stOps W, AOp.compat a b)
    (s q : Dict) (h : tRun W s = some q) : tRun W q = some q := by
  have hA' : ∀ a ∈ stOps W, "Parameters" ∉ a.keys ∧ a.K ≠ "Parameters" :=
    fun a ha => ⟨(hA a ha).2.1, (hA a ha).2.2⟩
  rw [tRun_decomp W hA' s] at h
  rw [tRun_decomp W hA' q]
  cases hr : tRun ((fxOps W).map TOp.fx) s with
  | none =>
      rw [hr] at h
      exact absurd h (by simp)
  | some s1 =>
      rw [hr] at h
      have hq : q = arun (stOps W) s1 := by simpa using h.symm
      have hfix1 := tRun_fxword_fix (fxOps W) hok hc s s1 hr
      rw [hq, tRun_fxword_arun (fxOps W) (stOps W) hA' s1, hfix1]
      show some (arun (stOps W) (arun (stOps W) s1)) = some (arun (stOps W) s1)
      rw [arun_fix (stOps W) (fun a ha => (hA a ha).1) hAc s1]

theorem top_op_fx_inv (sn : Func → String) (fm : FlowModifiers)
    (mn : String) (v : Value) (o : FxOp) (h : top_op sn fm mn v = .fx o) :
    (mn = "tasks" ∧ o = .rep ⟨"tasks", ref_key "tasks" (resolve_mod_value sn fm v),
        resolve_mod_value sn fm v⟩)
    ∨ (mn ∈ funcx_modifiers ∧ mn ≠ "tasks"
        ∧ o = .upd ⟨mn, ref_key mn (resolve_mod_value sn fm v),
            resolve_mod_value sn fm v⟩) := by
  by_cases hf : mn ∈ funcx_modifiers
  · by_cases ht : mn = "tasks"
    · subst ht
      left
      refine ⟨rfl, ?_⟩
      have h2 : TOp.fx (FxOp.rep ⟨"tasks",
          ref_key "tasks" (resolve_mod_value sn fm v),
          resolve_mod_value sn fm v⟩) = TOp.fx o := h
      injection h2 with h3
      exact h3.symm
    · right
      refine ⟨hf, ht, ?_⟩
      have h2 : top_op sn fm mn v
          = .fx (.upd ⟨mn, ref_key mn (resolve_mod_value sn fm v),
              resolve_mod_value sn fm v⟩) := by
        simp only [top_op]
        rw [if_pos hf, if_neg ht]
      rw [h2] at h
      injection h with h3
      exact h3.symm
  · by_cases hs : mn ∈ state_modifiers
    · exfalso
      have h2 : top_op sn fm mn v
          = .st ⟨mn, ref_key mn (resolve_mod_value sn fm v),
              resolve_mod_value sn fm v⟩ := by
        simp only [top_op]
        rw [if_neg hf, if_pos hs]
      rw [h2] at h
      exact TOp.noConfusion h
    · exfalso
      have h2 : top_op sn fm mn v = .idop := by
        simp only [top_op]
        rw [if_neg hf, if_neg hs]
      rw [h2] at h
      exact TOp.noConfusion h

theorem top_op_st_inv (sn : Func → String) (fm : FlowModifiers)
    (mn : String) (v : Value) (a : AOp Value) (h : top_op sn fm mn v = .st a) :
    mn ∈ state_modifiers
      ∧ a = ⟨mn, ref_key mn (resolve_mod_value sn fm v),
          resolve_mod_value sn fm v⟩ := by
  by_cases hf : mn ∈ funcx_modifiers
  · exfalso
    by_cases ht : mn = "tasks"
    · subst ht
      have h2 : TOp.fx (FxOp.rep ⟨"tasks",
          ref_key "tasks" (resolve_mod_value sn fm v),
          resolve_mod_value sn fm v⟩) = TOp.st a := h
      exact TOp.noConfusion h2
    · have h2 : top_op sn fm mn v
          = .fx (.upd ⟨mn, ref_key mn (resolve_mod_value sn fm v),
              resolve_mod_value sn fm v⟩) := by
        simp only [top_op]
        rw [if_pos hf, if_neg ht]
      rw [h2] at h
      exact TOp.noConfusion h
  · by_cases hs : mn ∈ state_modifiers
    · refine ⟨hs, ?_⟩
      have h2 : top_op sn fm mn v
          = .st ⟨mn, ref_key mn (resolve_mod_value sn fm v),
              resolve_mod_value sn fm v⟩ := by
        simp only [top_op]
        rw [if_neg hf, if_pos hs]
      rw [h2] at h
      injection h with h3
      exact h3.symm
    · exfalso
      have h2 : top_op sn fm mn v = .idop := by
        simp only [top_op]
        rw [if_neg hf, if_neg hs]
      rw [h2] at h
      exact TOp.noConfusion h

theorem funcx_mem_cases (mn : String) (h : mn ∈ funcx_modifiers) :
    mn = "endpoint" ∨ mn = "payload" ∨ mn = "tasks" := by
  simpa [funcx_modifiers] using h

theorem state_mem_cases (mn : String) (h : mn ∈ state_modifiers) :
    mn = "InputPath" ∨ mn = "ResultPath" ∨ mn = "WaitTime" := by
  simpa [state_modifiers] using h

theorem append_dollar_inj (k1 k2 : String) (h : k1 ++ ".$" = k2 ++ ".$") :
    k1 = k2 := by
  cases k1 with
  | mk l1 =>
      cases k2 with
      | mk l2 =>
          have hd := congrArg String.data h
          rw [string_append_data, string_append_data] at hd
          have h2 : l1 = l2 := List.append_cancel_right hd
          rw [h2]

/-- Two atomic rewrites at different base keys with disjoint footprints
are compatible. -/
theorem aop_compat_cases (a b : AOp Value) (k1 k2 : String)
    (ha : a.k = k1) (hb : b.k = k2)
    (h1 : k1 ≠ k2) (h2 : k1 ≠ k2 ++ ".$") (h3 : k1 ++ ".$" ≠ k2) :
    AOp.compat a b := by
  right
  intro s hs
  simp only [AOp.keys, ha, hb] at hs ⊢
  simp at hs ⊢
  rcases hs with rfl | rfl
  · exact ⟨h1, h2⟩
  · exact ⟨h3, fun hx => h1 (append_dollar_inj k1 k2 hx)⟩

/-- Fixpoint of a state-level word all of whose operations come from
`InputPath`-free modifier pairs whose `tasks` values are task lists.
The operations may come from several directives targeting the same
state: only membership in this pool matters. -/
theorem tRun_word_fix (sn : Func → String) (fm : FlowModifiers) (W : List TOp)
    (hW : ∀ o ∈ W, ∃ mn v, o = top_op sn fm mn v ∧ mn ≠ "InputPath"
      ∧ (mn = "tasks" → ListOfDicts v))
    (s q : Dict) (h : tRun W s = some q) : tRun W q = some q := by
  have hupdk : ∀ c, FxOp.upd c ∈ fxOps W →
      c.k = "endpoint" ∨ c.k = "payload" := by
    intro c hc2
    rcases hW _ (fxOps_mem _ _ hc2) with ⟨mn, v, heq, hipv, htv⟩
    rcases top_op_fx_inv sn fm mn v _ heq.symm with ⟨ht, heq2⟩ | ⟨hfm, htn, heq2⟩
    · exact absurd heq2 (by simp)
    · have hck : c = ⟨mn, ref_key mn (resolve_mod_value sn fm v),
          resolve_mod_value sn fm v⟩ := by
        injection heq2
      rcases funcx_mem_cases mn hfm with h1 | h1 | h1
      · left; rw [hck]; exact h1
      · right; rw [hck]; exact h1
      · exact absurd h1 htn
  have hstk : ∀ c ∈ stOps W,
      (c.k = "ResultPath" ∨ c.k = "WaitTime") ∧ AOp.WF c := by
    intro c hc2
    rcases hW _ (stOps_mem _ _ hc2) with ⟨mn, v, heq, hipv, htv⟩
    rcases top_op_st_inv sn fm mn v c heq.symm with ⟨hs2, hck⟩
    subst hck
    have hki : mn = "ResultPath" ∨ mn = "WaitTime" := by
      rcases state_mem_cases mn hs2 with h1 | h1 | h1
      · exact absurd h1 hipv
      · exact .inl h1
      · exact .inr h1
    exact ⟨hki, ref_key_cases mn (resolve_mod_value sn fm v)⟩
  refine tRun_fix W ?_ ?_ ?_ ?_ s q h
  · intro o ho
    rcases hW _ (fxOps_mem _ o ho) with ⟨mn, v, heq, hipv, htv⟩
    rcases top_op_fx_inv sn fm mn v o heq.symm with ⟨ht, rfl⟩ | ⟨hfm, htn, rfl⟩
    · rcases htv ht with ⟨ts, hts, hd⟩
      have hres : resolve_mod_value sn fm v = .list ts := by
        rw [hts]
        rfl
      refine ⟨rfl, ?_, ?_⟩
      · show ref_key "tasks" (resolve_mod_value sn fm v) = "tasks"
        rw [hres]
        rfl
      · show ListOfDicts (resolve_mod_value sn fm v)
        rw [hres]
        exact ⟨ts, rfl, hd⟩
    · exact ref_key_cases mn (resolve_mod_value sn fm v)
  · intro a ha b hb
    rcases hupdk a ha with h1 | h1 <;> rcases hupdk b hb with h2 | h2
    · exact .inl (h1.trans h2.symm)
    · exact aop_compat_cases a b "endpoint" "payload" h1 h2
        (by decide) (by decide) (by decide)
    · exact aop_compat_cases a b "payload" "endpoint" h1 h2
        (by decide) (by decide) (by decide)
    · exact .inl (h1.trans h2.symm)
  · intro a ha
    rcases hstk a ha with ⟨hki, hwf⟩
    refine ⟨hwf, ?_, ?_⟩
    · show "Parameters" ∉ [a.k, a.k ++ ".$"]
      rcases hki with h1 | h1 <;> rw [h1] <;> decide
    · rcases hwf with h2 | h2 <;>
        rw [h2] <;> rcases hki with h1 | h1 <;> rw [h1] <;> decide
  · intro a ha b hb
    rcases (hstk a ha).1 with h1 | h1 <;> rcases (hstk b hb).1 with h2 | h2
    · exact .inl (h1.trans h2.symm)
    · exact aop_compat_cases a b "ResultPath" "WaitTime" h1 h2
        (by decide) (by decide) (by decide)
    · exact aop_compat_cases a b "WaitTime" "ResultPath" h1 h2
        (by decide) (by decide) (by decide)
    · exact .inl (h1.trans h2.symm)

/-- Fixpoint of `apply_modifier`: the image of a successful run over a
modifier dict without `InputPath`, whose `tasks` values are task lists,
is a fixed point. -/
theorem apply_modifier_fix (sn : Func → String) (fm : FlowModifiers) (mods : Dict)
    (hip : ∀ p ∈ mods, p.1 ≠ "InputPath")
    (htasks : ∀ p ∈ mods, p.1 = "tasks" → ListOfDicts p.2)
    (s q : Dict) (h : apply_modifier sn fm s mods = some q) :
    apply_modifier sn fm q mods = some q := by
  rw [apply_modifier_eq_tRun sn fm mods hip] at h
  rw [apply_modifier_eq_tRun sn fm mods hip]
  refine tRun_word_fix sn fm _ ?_ s q h
  intro o ho
  rcases List.mem_map.mp ho with ⟨p, hp, heq⟩
  exact ⟨p.1, p.2, heq.symm, hip p hp, htasks p hp⟩

/-! ## The flow-level fold of apply_modifiers -/

/-- One directive of `apply_modifiers` (the loop body of lines 56–58),
as an explicit case analysis. -/
def dstep (sn : Func → String) (fm : FlowModifiers) (fl : Dict)
    (nm : Value × Dict) : Option Dict :=
  match get_function fm nm.1 with
  | some f =>
      match lookupKey fl "States" with
      | some (.dict states) =>
          match lookupKey states (sn f) with
          | some (.dict st) =>
              match apply_modifier sn fm st nm.2 with
              | some st2 =>
                  some (setKey fl "States"
                    (.dict (setKey states (sn f) (.dict st2))))
              | none => none
          | _ => none
      | _ => none
  | none => none

theorem dstep_eq_do (sn : Func → String) (fm : FlowModifiers) (fl : Dict)
    (nm : Value × Dict) :
    (do
      let f ← get_function fm nm.1
      let states ← (lookupKey fl "States").bind Value.asDict
      let st ← (lookupKey states (sn f)).bind Value.asDict
      let st2 ← apply_modifier sn fm st nm.2
      pure (setKey fl "States" (.dict (setKey states (sn f) (.dict st2)))))
      = dstep sn fm fl nm := by
  show (get_function fm nm.1).bind (fun f =>
      ((lookupKey fl "States").bind Value.asDict).bind (fun states =>
        ((lookupKey states (sn f)).bind Value.asDict).bind (fun st =>
          (apply_modifier sn fm st nm.2).bind (fun st2 =>
            some (setKey fl "States" (.dict (setKey states (sn f) (.dict st2))))))))
      = dstep sn fm fl nm
  unfold dstep
  cases hf : get_function fm nm.1 with
  | none => rfl
  | some f =>
      show ((lookupKey fl "States").bind Value.asDict).bind (fun states =>
          ((lookupKey states (sn f)).bind Value.asDict).bind (fun st =>
            (apply_modifier sn fm st nm.2).bind (fun st2 =>
              some (setKey fl "States" (.dict (setKey states (sn f) (.dict st2)))))))
        = match lookupKey fl "States" with
          | some (.dict states) =>
              match lookupKey states (sn f) with
              | some (.dict st) =>
                  match apply_modifier sn fm st nm.2 with
                  | some st2 =>
                      some (setKey fl "States"
                        (.dict (setKey states (sn f) (.dict st2))))
                  | none => none
              | _ => none
          | _ => none
      cases hS : lookupKey fl "States" with
      | none => rfl
      | some v =>
          cases v with
          | dict states =>
              show ((lookupKey states (sn f)).bind Value.asDict).bind (fun st =>
                  (apply_modifier sn fm st nm.2).bind (fun st2 =>
                    some (setKey fl "States"
                      (.dict (setKey states (sn f) (.dict st2))))))
                = match lookupKey states (sn f) with
                  | some (.dict st) =>
                      match apply_modifier sn fm st nm.2 with
                      | some st2 =>
                          some (setKey fl "States"
                            (.dict (setKey states (sn f) (.dict st2))))
                      | none => none
                  | _ => none
              cases hsn : lookupKey states (sn f) with
              | none => rfl
              | some v2 =>
                  cases v2 with
                  | dict st =>
                      show (apply_modifier sn fm st nm.2).bind (fun st2 =>
                          some (setKey fl "States"
                            (.dict (setKey states (sn f) (.dict st2)))))
                        = match apply_modifier sn fm st nm.2 with
                          | some st2 =>
                              some (setKey fl "States"
                                (.dict (setKey states (sn f) (.dict st2))))
                          | none => none
                      cases ham : apply_modifier sn fm st nm.2 with
                      | none => rfl
                      | some st2 => rfl
                  | str s2 => rfl
                  | int n2 => rfl
                  | func f2 => rfl
                  | list l2 => rfl
          | str s1 => rfl
          | int n1 => rfl
          | func f1 => rfl
          | list l1 => rfl

theorem apply_modifiers_eq_foldlM (sn : Func → String) (fm : FlowModifiers)
    (flow : Dict) :
    apply_modifiers sn fm flow = List.foldlM (dstep sn fm) flow fm.modifiers := by
  unfold apply_modifiers
  have hfun : (fun fl (nm : Value × Dict) => do
      let f ← get_function fm nm.1
      let states ← (lookupKey fl "States").bind Value.asDict
      let st ← (lookupKey states (sn f)).bind Value.asDict
      let st2 ← apply_modifier sn fm st nm.2
      pure (setKey fl "States" (.dict (setKey states (sn f) (.dict st2)))))
      = dstep sn fm := by
    funext fl nm
    exact dstep_eq_do sn fm fl nm
  rw [hfun]

theorem dstep_eq (sn : Func → String) (fm : FlowModifiers) (fl : Dict)
    (nm : Value × Dict) (f : Func) (states st st2 : Dict)
    (hf : get_function fm nm.1 = some f)
    (hS : lookupKey fl "States" = some (.dict states))
    (hst : lookupKey states (sn f) = some (.dict st))
    (ham : apply_modifier sn fm st nm.2 = some st2) :
    dstep sn fm fl nm
      = some (setKey fl "States" (.dict (setKey states (sn f) (.dict st2)))) := by
  unfold dstep
  rw [hf, hS]
  show (match lookupKey states (sn f) with
      | some (.dict st) =>
          match apply_modifier sn fm st nm.2 with
          | some st2 =>
              some (setKey fl "States" (.dict (setKey states (sn f) (.dict st2))))
          | none => none
      | _ => none) = _
  rw [hst]
  show (match apply_modifier sn fm st nm.2 with
      | some st2 =>
          some (setKey fl "States" (.dict (setKey states (sn f) (.dict st2))))
      | none => none) = _
  rw [ham]

theorem dstep_inv (sn : Func → String) (fm : FlowModifiers) (fl fl2 : Dict)
    (nm : Value × Dict) (h : dstep sn fm fl nm = some fl2) :
    ∃ f states st st2, get_function fm nm.1 = some f ∧
      lookupKey fl "States" = some (.dict states) ∧
      lookupKey states (sn f) = some (.dict st) ∧
      apply_modifier sn fm st nm.2 = some st2 ∧
      fl2 = setKey fl "States" (.dict (setKey states (sn f) (.dict st2))) := by
  unfold dstep at h
  cases hf : get_function fm nm.1 with
  | none =>
      rw [hf] at h
      have h2 : (none : Option Dict) = some fl2 := h
      simp at h2
  | some f =>
      rw [hf] at h
      have h1 : (match lookupKey fl "States" with
          | some (.dict states) =>
              match lookupKey states (sn f) with
              | some (.dict st) =>
                  match apply_modifier sn fm st nm.2 with
                  | some st2 =>
                      some (setKey fl "States"
                        (.dict (setKey states (sn f) (.dict st2))))
                  | none => none
              | _ => none
          | _ => none) = some fl2 := h
      cases hS : lookupKey fl "States" with
      | none =>
          rw [hS] at h1
          have h2 : (none : Option Dict) = some fl2 := h1
          simp at h2
      | some v =>
          rw [hS] at h1
          cases v with
          | dict states =>
              have h2 : (match lookupKey states (sn f) with
                  | some (.dict st) =>
                      match apply_modifier sn fm st nm.2 with
                      | some st2 =>
                          some (setKey fl "States"
                            (.dict (setKey states (sn f) (.dict st2))))
                      | none => none
                  | _ => none) = some fl2 := h1
              cases hst : lookupKey states (sn f) with
              | none =>
                  rw [hst] at h2
                  have h3 : (none : Option Dict) = some fl2 := h2
                  simp at h3
              | some v2 =>
                  rw [hst] at h2
                  cases v2 with
                  | dict st =>
                      have h3 : (match apply_modifier sn fm st nm.2 with
                          | some st2 =>
                              some (setKey fl "States"
                                (.dict (setKey states (sn f) (.dict st2))))
                          | none => none) = some fl2 := h2
                      cases ham : apply_modifier sn fm st nm.2 with
                      | none =>
                          rw [ham] at h3
                          have h4 : (none : Option Dict) = some fl2 := h3
                          simp at h4
                      | some st2 =>
                          rw [ham] at h3
                          have h4 : some (setKey fl "States"
                              (.dict (setKey states (sn f) (.dict st2)))) = some fl2 := h3
                          exact ⟨f, states, st, st2, rfl, rfl, hst, ham,
                            by simpa using h4.symm⟩
                  | str s2 =>
                      have h3 : (none : Option Dict) = some fl2 := h2
                      simp at h3
                  | int n2 =>
                      have h3 : (none : Option Dict) = some fl2 := h2
                      simp at h3
                  | func f2 =>
                      have h3 : (none : Option Dict) = some fl2 := h2
                      simp at h3
                  | list l2 =>
                      have h3 : (none : Option Dict) = some fl2 := h2
                      simp at h3
          | str s1 =>
              have h2 : (none : Option Dict) = some fl2 := h1
              simp at h2
          | int n1 =>
              have h2 : (none : Option Dict) = some fl2 := h1
              simp at h2
          | func f1 =>
              have h2 : (none : Option Dict) = some fl2 := h1
              simp at h2
          | list l1 =>
              have h2 : (none : Option Dict) = some fl2 := h1
              simp at h2

/-- The `States` dict of a flow (`flow['States']`). -/
def statesOf (fl : Dict) : Option Dict :=
  (lookupKey fl "States").bind Value.asDict

/-- The entry of one state in a flow (`flow['States'][n]`). -/
def stateAt (fl : Dict) (n : String) : Option Value :=
  match statesOf fl with
  | some sts => lookupKey sts n
  | none => none

theorem statesOf_of_lookup (fl : Dict) (states : Dict)
    (h : lookupKey fl "States" = some (.dict states)) :
    statesOf fl = some states := by
  unfold statesOf
  rw [h]
  rfl

theorem stateAt_of_states (fl : Dict) (states : Dict) (n : String)
    (h : lookupKey fl "States" = some (.dict states)) :
    stateAt fl n = lookupKey states n := by
  unfold stateAt
  rw [statesOf_of_lookup fl states h]

theorem stateAt_some_inv (fl : Dict) (n : String) (v : Value)
    (h : stateAt fl n = some v) :
    ∃ states, lookupKey fl "States" = some (.dict states)
      ∧ lookupKey states n = some v := by
  unfold stateAt statesOf at h
  cases hS : lookupKey fl "States" with
  | none =>
      rw [hS] at h
      have h2 : (none : Option Value) = some v := h
      simp at h2
  | some v0 =>
      rw [hS] at h
      cases v0 with
      | dict states => exact ⟨states, rfl, h⟩
      | str s0 =>
          have h2 : (none : Option Value) = some v := h
          simp at h2
      | int n0 =>
          have h2 : (none : Option Value) = some v := h
          simp at h2
      | func f0 =>
          have h2 : (none : Option Value) = some v := h
          simp at h2
      | list l0 =>
          have h2 : (none : Option Value) = some v := h
          simp at h2

/-- Directives that resolve to other state names do not change a
state's entry. -/
theorem foldlM_dstep_frame (sn : Func → String) (fm : FlowModifiers)
    (ds : List (Value × Dict)) (fl fl2 : Dict)
    (h : List.foldlM (dstep sn fm) fl ds = some fl2) (n : String)
    (hn : ∀ nm ∈ ds, ∀ f, get_function fm nm.1 = some f → sn f ≠ n) :
    stateAt fl2 n = stateAt fl n := by
  induction ds generalizing fl with
  | nil =>
      have h2 : (some fl : Option Dict) = some fl2 := h
      have h3 : fl2 = fl := by simpa using h2.symm
      rw [h3]
  | cons nm ds ih =>
      have hcons : List.foldlM (dstep sn fm) fl (nm :: ds)
          = Option.bind (dstep sn fm fl nm)
              (fun fl1 => List.foldlM (dstep sn fm) fl1 ds) := rfl
      rw [hcons] at h
      cases hd : dstep sn fm fl nm with
      | none =>
          rw [hd] at h
          have h2 : (none : Option Dict) = some fl2 := h
          simp at h2
      | some fl1 =>
          rw [hd] at h
          have h2 : List.foldlM (dstep sn fm) fl1 ds = some fl2 := h
          rcases dstep_inv sn fm fl fl1 nm hd with
            ⟨f, states, st, st2, hf, hS, hst, ham, hfl1⟩
          rw [ih fl1 h2 (fun nm2 hm f2 hf2 => hn nm2 (List.mem_cons_of_mem nm hm) f2 hf2)]
          have hS1 : lookupKey fl1 "States"
              = some (.dict (setKey states (sn f) (.dict st2))) := by
            rw [hfl1]
            exact lookupKey_setKey_self _ _ _
          rw [stateAt_of_states fl1 _ n hS1, stateAt_of_states fl states n hS,
            lookupKey_setKey_ne states (sn f) n (.dict st2)
              (Ne.symm (hn nm (List.mem_cons_self nm ds) f hf))]

/-- After a successful run over pairwise-distinct directives, each
targeted state is a fixed point of its directive. -/
theorem foldlM_dstep_final (sn : Func → String) (fm : FlowModifiers)
    (ds : List (Value × Dict)) (flow flow2 : Dict)
    (h : List.foldlM (dstep sn fm) flow ds = some flow2)
    (hdist : ds.Pairwise fun nm1 nm2 => ∀ f1 f2, get_function fm nm1.1 = some f1 →
      get_function fm nm2.1 = some f2 → sn f1 ≠ sn f2)
    (hmods : ∀ nm ∈ ds, (∀ p ∈ nm.2, p.1 ≠ "InputPath")
      ∧ (∀ p ∈ nm.2, p.1 = "tasks" → ListOfDicts p.2)) :
    ∀ nm ∈ ds, ∃ f q2, get_function fm nm.1 = some f ∧
      stateAt flow2 (sn f) = some (.dict q2) ∧
      apply_modifier sn fm q2 nm.2 = some q2 := by
  induction ds generalizing flow with
  | nil =>
      intro nm hnm
      exact absurd hnm (by simp)
  | cons nm0 ds ih =>
      have hcons : List.foldlM (dstep sn fm) flow (nm0 :: ds)
          = Option.bind (dstep sn fm flow nm0)
              (fun fl1 => List.foldlM (dstep sn fm) fl1 ds) := rfl
      rw [hcons] at h
      cases hd : dstep sn fm flow nm0 with
      | none =>
          rw [hd] at h
          have h2 : (none : Option Dict) = some flow2 := h
          simp at h2
      | some fl1 =>
          rw [hd] at h
          have h2 : List.foldlM (dstep sn fm) fl1 ds = some flow2 := h
          intro nm hnm
          rcases List.mem_cons.mp hnm with heq | hnm2
          · subst heq
            rcases dstep_inv sn fm flow fl1 nm hd with
              ⟨f, states, st, st2, hf, hS, hst, ham, hfl1⟩
            refine ⟨f, st2, hf, ?_, ?_⟩
            · have hS1 : lookupKey fl1 "States"
                  = some (.dict (setKey states (sn f) (.dict st2))) := by
                rw [hfl1]
                exact lookupKey_setKey_self _ _ _
              have hframe := foldlM_dstep_frame sn fm ds fl1 flow2 h2 (sn f)
                (fun nm2 hm f2 hf2 =>
                  Ne.symm ((List.pairwise_cons.mp hdist).1 nm2 hm f f2 hf hf2))
              rw [hframe, stateAt_of_states fl1 _ (sn f) hS1]
              exact lookupKey_setKey_self states (sn f) (.dict st2)
            · exact apply_modifier_fix sn fm nm.2
                (hmods nm (List.mem_cons_self nm ds)).1
                (hmods nm (List.mem_cons_self nm ds)).2 st st2 ham
          · exact ih fl1 h2 (List.pairwise_cons.mp hdist).2
              (fun nm2 hm => hmods nm2 (List.mem_cons_of_mem nm0 hm)) nm hnm2

/-- A flow whose targeted states are all fixed points is itself a fixed
point of the directive fold. -/
theorem foldlM_dstep_fixed (sn : Func → String) (fm : FlowModifiers)
    (ds : List (Value × Dict)) (fl : Dict)
    (h : ∀ nm ∈ ds, ∃ f q2, get_function fm nm.1 = some f ∧
      stateAt fl (sn f) = some (.dict q2) ∧
      apply_modifier sn fm q2 nm.2 = some q2) :
    List.foldlM (dstep sn fm) fl ds = some fl := by
  induction ds with
  | nil => rfl
  | cons nm ds ih =>
      rcases h nm (List.mem_cons_self nm ds) with ⟨f, q2, hf, hsa, ham⟩
      rcases stateAt_some_inv fl (sn f) _ hsa with ⟨states, hS, hq⟩
      have hcons : List.foldlM (dstep sn fm) fl (nm :: ds)
          = Option.bind (dstep sn fm fl nm)
              (fun fl1 => List.foldlM (dstep sn fm) fl1 ds) := rfl
      rw [hcons, dstep_eq sn fm fl nm f states q2 q2 hf hS hq ham,
        setKey_lookup_self states (sn f) _ hq,
        setKey_lookup_self fl "States" _ hS]
      show List.foldlM (dstep sn fm) fl ds = some fl
      exact ih (fun nm2 hm => h nm2 (List.mem_cons_of_mem nm hm))

/-! ## Shared-target directives: the States-dict level -/

theorem tRun_append (w1 w2 : List TOp) (s : Dict) :
    tRun (w1 ++ w2) s
      = match tRun w1 s with | some s2 => tRun w2 s2 | none => none := by
  induction w1 generalizing s with
  | nil => rfl
  | cons o w1 ih =>
      rw [show ((o :: w1) ++ w2) = o :: (w1 ++ w2) from rfl,
        tRun_cons o (w1 ++ w2) s, tRun_cons o w1 s]
      cases hts : tstep s o with
      | none => rfl
      | some s2 =>
          show tRun (w1 ++ w2) s2 = _
          rw [ih s2]

/-- The state-level word of one modifier dict. -/
def wordOf (sn : Func → String) (fm : FlowModifiers) (mods : Dict) : List TOp :=
  mods.map fun p => top_op sn fm p.1 p.2

theorem apply_modifier_eq_word (sn : Func → String) (fm : FlowModifiers)
    (mods : Dict) (hip : ∀ p ∈ mods, p.1 ≠ "InputPath") (s : Dict) :
    apply_modifier sn fm s mods = tRun (wordOf sn fm mods) s :=
  apply_modifier_eq_tRun sn fm mods hip s

/-- One directive acting on the `States` dict (the body of `dstep`
below the `flow['States']` lookup). -/
def sstep (sn : Func → String) (fm : FlowModifiers) (S : Dict)
    (nm : Value × Dict) : Option Dict :=
  match get_function fm nm.1 with
  | some f =>
      match lookupKey S (sn f) with
      | some (.dict st) =>
          match apply_modifier sn fm st nm.2 with
          | some st2 => some (setKey S (sn f) (.dict st2))
          | none => none
      | _ => none
  | none => none

theorem sstep_eq (sn : Func → String) (fm : FlowModifiers) (S : Dict)
    (nm : Value × Dict) (f : Func) (st st2 : Dict)
    (hf : get_function fm nm.1 = some f)
    (hst : lookupKey S (sn f) = some (.dict st))
    (ham : apply_modifier sn fm st nm.2 = some st2) :
    sstep sn fm S nm = some (setKey S (sn f) (.dict st2)) := by
  unfold sstep
  rw [hf]
  show (match lookupKey S (sn f) with
      | some (.dict st) =>
          match apply_modifier sn fm st nm.2 with
          | some st2 => some (setKey S (sn f) (.dict st2))
          | none => none
      | _ => none) = _
  rw [hst]
  show (match apply_modifier sn fm st nm.2 with
      | some st2 => some (setKey S (sn f) (.dict st2))
      | none => none) = _
  rw [ham]

theorem sstep_inv (sn : Func → String) (fm : FlowModifiers) (S S1 : Dict)
    (nm : Value × Dict) (h : sstep sn fm S nm = some S1) :
    ∃ f st st2, get_function fm nm.1 = some f ∧
      lookupKey S (sn f) = some (.dict st) ∧
      apply_modifier sn fm st nm.2 = some st2 ∧
      S1 = setKey S (sn f) (.dict st2) := by
  unfold sstep at h
  cases hf : get_function fm nm.1 with
  | none =>
      rw [hf] at h
      have h2 : (none : Option Dict) = some S1 := h
      simp at h2
  | some f =>
      rw [hf] at h
      have h1 : (match lookupKey S (sn f) with
          | some (.dict st) =>
              match apply_modifier sn fm st nm.2 with
              | some st2 => some (setKey S (sn f) (.dict st2))
              | none => none
          | _ => none) = some S1 := h
      cases hst : lookupKey S (sn f) with
      | none =>
          rw [hst] at h1
          have h2 : (none : Option Dict) = some S1 := h1
          simp at h2
      | some v =>
          rw [hst] at h1
          cases v with
          | dict st =>
              have h2 : (match apply_modifier sn fm st nm.2 with
                  | some st2 => some (setKey S (sn f) (.dict st2))
                  | none => none) = some S1 := h1
              cases ham : apply_modifier sn fm st nm.2 with
              | none =>
                  rw [ham] at h2
                  have h3 : (none : Option Dict) = some S1 := h2
                  simp at h3
              | some st2 =>
                  rw [ham] at h2
                  have h3 : some (setKey S (sn f) (.dict st2)) = some S1 := h2
                  exact ⟨f, st, st2, rfl, hst, ham, by simpa using h3.symm⟩
          | str s0 =>
              have h2 : (none : Option Dict) = some S1 := h1
              simp at h2
          | int n0 =>
              have h2 : (none : Option Dict) = some S1 := h1
              simp at h2
          | func f0 =>
              have h2 : (none : Option Dict) = some S1 := h1
              simp at h2
          | list l0 =>
              have h2 : (none : Option Dict) = some S1 := h1
              simp at h2

theorem dstep_sstep (sn : Func → String) (fm : FlowModifiers) (fl S : Dict)
    (nm : Value × Dict) (hS : lookupKey fl "States" = some (.dict S)) :
    dstep sn fm fl nm
      = (sstep sn fm S nm).map fun S1 => setKey fl "States" (.dict S1) := by
  unfold dstep sstep
  cases hf : get_function fm nm.1 with
  | none => rfl
  | some f =>
      rw [hS]
      show (match lookupKey S (sn f) with
          | some (.dict st) =>
              match apply_modifier sn fm st nm.2 with
              | some st2 =>
                  some (setKey fl "States"
                    (.dict (setKey S (sn f) (.dict st2))))
              | none => none
          | _ => none)
        = (match lookupKey S (sn f) with
          | some (.dict st) =>
              match apply_modifier sn fm st nm.2 with
              | some st2 => some (setKey S (sn f) (.dict st2))
              | none => none
          | _ => none).map fun S1 => setKey fl "States" (.dict S1)
      cases hst : lookupKey S (sn f) with
      | none => rfl
      | some v =>
          cases v with
          | dict st =>
              show (match apply_modifier sn fm st nm.2 with
                  | some st2 =>
                      some (setKey fl "States"
                        (.dict (setKey S (sn f) (.dict st2))))
                  | none => none)
                = (match apply_modifier sn fm st nm.2 with
                  | some st2 => some (setKey S (sn f) (.dict st2))
                  | none => none).map fun S1 => setKey fl "States" (.dict S1)
              cases ham : apply_modifier sn fm st nm.2 with
              | none => rfl
              | some st2 => rfl
          | str s0 => rfl
          | int n0 => rfl
          | func f0 => rfl
          | list l0 => rfl

/-- The flow-level fold is the `States`-level fold written back in
place. -/
theorem foldlM_dstep_states (sn : Func → String) (fm : FlowModifiers)
    (ds : List (Value × Dict)) (fl S : Dict)
    (hS : lookupKey fl "States" = some (.dict S)) :
    List.foldlM (dstep sn fm) fl ds
      = (List.foldlM (sstep sn fm) S ds).map fun S2 => setKey fl "States" (.dict S2) := by
  induction ds generalizing fl S with
  | nil =>
      show some fl = some (setKey fl "States" (.dict S))
      rw [setKey_lookup_self fl "States" _ hS]
  | cons nm ds ih =>
      have hcons1 : List.foldlM (dstep sn fm) fl (nm :: ds)
          = Option.bind (dstep sn fm fl nm)
              (fun fl1 => List.foldlM (dstep sn fm) fl1 ds) := rfl
      have hcons2 : List.foldlM (sstep sn fm) S (nm :: ds)
          = Option.bind (sstep sn fm S nm)
              (fun S1 => List.foldlM (sstep sn fm) S1 ds) := rfl
      rw [hcons1, hcons2, dstep_sstep sn fm fl S nm hS]
      cases hs1 : sstep sn fm S nm with
      | none => rfl
      | some S1 =>
          show List.foldlM (dstep sn fm) (setKey fl "States" (.dict S1)) ds = _
          rw [ih (setKey fl "States" (.dict S1)) S1 (lookupKey_setKey_self _ _ _)]
          show Option.map (fun S2 => setKey (setKey fl "States" (.dict S1))
                "States" (.dict S2)) (List.foldlM (sstep sn fm) S1 ds)
            = Option.map (fun S2 => setKey fl "States" (.dict S2))
                (List.foldlM (sstep sn fm) S1 ds)
          cases List.foldlM (sstep sn fm) S1 ds with
          | none => rfl
          | some S2 =>
              show some (setKey (setKey fl "States" (.dict S1)) "States" (.dict S2))
                = some (setKey fl "States" (.dict S2))
              rw [setKey_setKey_same]

theorem dstep_none_of_no_states (sn : Func → String) (fm : FlowModifiers)
    (fl : Dict) (nm : Value × Dict)
    (hS : ∀ S, lookupKey fl "States" ≠ some (.dict S)) :
    dstep sn fm fl nm = none := by
  unfold dstep
  cases hf : get_function fm nm.1 with
  | none => rfl
  | some f =>
      cases hS2 : lookupKey fl "States" with
      | none => rfl
      | some v =>
          cases v with
          | dict S => exact absurd hS2 (hS S)
          | str s0 => rfl
          | int n0 => rfl
          | func f0 => rfl
          | list l0 => rfl

/-- A directive list targets state name `n`. -/
def tgt (sn : Func → String) (fm : FlowModifiers) (n : String)
    (ds : List (Value × Dict)) : Prop :=
  ∃ nm, nm ∈ ds ∧ ∃ f, get_function fm nm.1 = some f ∧ sn f = n

/-- The concatenated state-level word of all directives of `ds` that
target state name `n`, in order. -/
def catFor (sn : Func → String) (fm : FlowModifiers) (n : String) :
    List (Value × Dict) → List TOp
  | [] => []
  | nm :: ds =>
      match get_function fm nm.1 with
      | some f =>
          if sn f = n then wordOf sn fm nm.2 ++ catFor sn fm n ds
          else catFor sn fm n ds
      | none => catFor sn fm n ds

theorem catFor_cons_some_eq (sn : Func → String) (fm : FlowModifiers)
    (n : String) (nm : Value × Dict) (ds : List (Value × Dict)) (f : Func)
    (hf : get_function fm nm.1 = some f) (hn : sn f = n) :
    catFor sn fm n (nm :: ds) = wordOf sn fm nm.2 ++ catFor sn fm n ds := by
  show (match get_function fm nm.1 with
      | some f =>
          if sn f = n then wordOf sn fm nm.2 ++ catFor sn fm n ds
          else catFor sn fm n ds
      | none => catFor sn fm n ds) = _
  rw [hf]
  show (if sn f = n then wordOf sn fm nm.2 ++ catFor sn fm n ds
      else catFor sn fm n ds) = _
  rw [if_pos hn]

theorem catFor_cons_some_ne (sn : Func → String) (fm : FlowModifiers)
    (n : String) (nm : Value × Dict) (ds : List (Value × Dict)) (f : Func)
    (hf : get_function fm nm.1 = some f) (hn : sn f ≠ n) :
    catFor sn fm n (nm :: ds) = catFor sn fm n ds := by
  show (match get_function fm nm.1 with
      | some f =>
          if sn f = n then wordOf sn fm nm.2 ++ catFor sn fm n ds
          else catFor sn fm n ds
      | none => catFor sn fm n ds) = _
  rw [hf]
  show (if sn f = n then wordOf sn fm nm.2 ++ catFor sn fm n ds
      else catFor sn fm n ds) = _
  rw [if_neg hn]

theorem catFor_cons_none (sn : Func → String) (fm : FlowModifiers)
    (n : String) (nm : Value × Dict) (ds : List (Value × Dict))
    (hf : get_function fm nm.1 = none) :
    catFor sn fm n (nm :: ds) = catFor sn fm n ds := by
  show (match get_function fm nm.1 with
      | some f =>
          if sn f = n then wordOf sn fm nm.2 ++ catFor sn fm n ds
          else catFor sn fm n ds
      | none => catFor sn fm n ds) = _
  rw [hf]

theorem catFor_nil_of_not_tgt (sn : Func → String) (fm : FlowModifiers)
    (n : String) (ds : List (Value × Dict)) (h : ¬ tgt sn fm n ds) :
    catFor sn fm n ds = [] := by
  induction ds with
  | nil => rfl
  | cons nm ds ih =>
      have htail : ¬ tgt sn fm n ds := by
        rintro ⟨nm2, hm2, f2, hf2, hs2⟩
        exact h ⟨nm2, List.mem_cons_of_mem nm hm2, f2, hf2, hs2⟩
      cases hf : get_function fm nm.1 with
      | none => rw [catFor_cons_none sn fm n nm ds hf]; exact ih htail
      | some f =>
          by_cases hn : sn f = n
          · exact absurd ⟨nm, List.mem_cons_self nm ds, f, hf, hn⟩ h
          · rw [catFor_cons_some_ne sn fm n nm ds f hf hn]; exact ih htail

theorem catFor_mem (sn : Func → String) (fm : FlowModifiers)
    (n : String) (ds : List (Value × Dict)) (o : TOp)
    (h : o ∈ catFor sn fm n ds) :
    ∃ nm, nm ∈ ds ∧ ∃ p, p ∈ nm.2 ∧ o = top_op sn fm p.1 p.2 := by
  induction ds with
  | nil => simp [catFor] at h
  | cons nm ds ih =>
      cases hf : get_function fm nm.1 with
      | none =>
          rw [catFor_cons_none sn fm n nm ds hf] at h
          rcases ih h with ⟨nm2, hm2, p, hp, heq⟩
          exact ⟨nm2, List.mem_cons_of_mem nm hm2, p, hp, heq⟩
      | some f =>
          by_cases hn : sn f = n
          · rw [catFor_cons_some_eq sn fm n nm ds f hf hn] at h
            rcases List.mem_append.mp h with h2 | h2
            · rcases List.mem_map.mp h2 with ⟨p, hp, heq⟩
              exact ⟨nm, List.mem_cons_self nm ds, p, hp, heq.symm⟩
            · rcases ih h2 with ⟨nm2, hm2, p, hp, heq⟩
              exact ⟨nm2, List.mem_cons_of_mem nm hm2, p, hp, heq⟩
          · rw [catFor_cons_some_ne sn fm n nm ds f hf hn] at h
            rcases ih h with ⟨nm2, hm2, p, hp, heq⟩
            exact ⟨nm2, List.mem_cons_of_mem nm hm2, p, hp, heq⟩

/-- `UpTo ks T C`: `C` has the same spine as `T` and agrees with it
everywhere except possibly at the first occurrence of each key of
`ks`. -/
def UpTo : List String → Dict → Dict → Prop
  | _, [], [] => True
  | ks, (k, v) :: t, p :: c =>
      p.1 = k ∧ (p.2 = v ∨ k ∈ ks)
        ∧ UpTo (ks.filter fun x => decide (x ≠ k)) t c
  | _, _, _ => False

theorem UpTo_refl (ks : List String) (T : Dict) : UpTo ks T T := by
  induction T generalizing ks with
  | nil => trivial
  | cons p t ih =>
      obtain ⟨k, v⟩ := p
      exact ⟨rfl, .inl rfl, ih _⟩

theorem UpTo_setKey (ks : List String) (T C : Dict) (n : String) (v : Value)
    (h : UpTo ks T C) (hn : n ∈ ks) (hk : hasKey C n = true) :
    UpTo ks T (setKey C n v) := by
  induction T generalizing ks C with
  | nil =>
      cases C with
      | nil => simp [hasKey] at hk
      | cons p c =>
          have h2 : False := h
          exact h2.elim
  | cons q t ih =>
      obtain ⟨k, v0⟩ := q
      cases C with
      | nil =>
          have h2 : False := h
          exact h2.elim
      | cons p c =>
          obtain ⟨h1, h2, h3⟩ := h
          by_cases hp : p.1 = n
          · have hset : setKey (p :: c) n v = (n, v) :: c := by
              simp [setKey, hp]
            rw [hset]
            have hnk : n = k := hp.symm.trans h1
            exact ⟨hnk, .inr (hnk ▸ hn), h3⟩
          · have hset : setKey (p :: c) n v = p :: setKey c n v := by
              simp [setKey, hp]
            rw [hset]
            refine ⟨h1, h2, ?_⟩
            have hnk : ¬ n = k := fun he => hp (h1.trans he.symm)
            have hkc : hasKey c n = true := by
              have hk2 : hasKey (p :: c) n = true := hk
              simpa [hasKey, hp] using hk2
            exact ih _ _ h3 (List.mem_filter.mpr ⟨hn, by simp [hnk]⟩) hkc

theorem UpTo_eq (ks : List String) (T C : Dict) (h : UpTo ks T C)
    (hl : ∀ n ∈ ks, lookupKey C n = lookupKey T n) : C = T := by
  induction T generalizing ks C with
  | nil =>
      cases C with
      | nil => rfl
      | cons p c =>
          have h2 : False := h
          exact h2.elim
  | cons q t ih =>
      obtain ⟨k, v0⟩ := q
      cases C with
      | nil =>
          have h2 : False := h
          exact h2.elim
      | cons p c =>
          obtain ⟨h1, h2, h3⟩ := h
          obtain ⟨pk, pv⟩ := p
          have h1x : pk = k := h1
          subst h1x
          have hv : pv = v0 := by
            rcases h2 with h2 | h2
            · exact h2
            · have h4 := hl pk h2
              simpa [lookupKey] using h4
          subst hv
          have hc : c = t := by
            apply ih
            · exact h3
            · intro n hnf
              have hmem := List.mem_filter.mp hnf
              have hnk : ¬ n = pk := by simpa using hmem.2
              have hkn : ¬ pk = n := fun he => hnk he.symm
              have h4 := hl n hmem.1
              simpa [lookupKey, hkn] using h4
          rw [hc]

/-- Run-1 tracking: a successful `States`-level fold resolves every
directive, and rewrites each targeted state name by the concatenated
word of its directives, leaving other names untouched. -/
theorem sfold_track (sn : Func → String) (fm : FlowModifiers)
    (ds : List (Value × Dict))
    (hmods : ∀ nm ∈ ds, ∀ p ∈ nm.2, p.1 ≠ "InputPath")
    (S S2 : Dict) (h : List.foldlM (sstep sn fm) S ds = some S2) :
    (∀ nm ∈ ds, ∃ f, get_function fm nm.1 = some f) ∧
    (∀ n, tgt sn fm n ds → ∃ st0 fin, lookupKey S n = some (.dict st0) ∧
        tRun (catFor sn fm n ds) st0 = some fin
        ∧ lookupKey S2 n = some (.dict fin)) ∧
    (∀ n, ¬ tgt sn fm n ds → lookupKey S2 n = lookupKey S n) := by
  induction ds generalizing S with
  | nil =>
      have h2 : (some S : Option Dict) = some S2 := h
      have h3 : S2 = S := by simpa using h2.symm
      subst h3
      refine ⟨?_, ?_, ?_⟩
      · intro nm hnm
        exact absurd hnm (by simp)
      · intro n hn
        rcases hn with ⟨nm, hnm, _⟩
        exact absurd hnm (by simp)
      · intro n hn
        rfl
  | cons nm0 ds ih =>
      have hcons : List.foldlM (sstep sn fm) S (nm0 :: ds)
          = Option.bind (sstep sn fm S nm0)
              (fun S1 => List.foldlM (sstep sn fm) S1 ds) := rfl
      rw [hcons] at h
      cases hd : sstep sn fm S nm0 with
      | none =>
          rw [hd] at h
          have h2 : (none : Option Dict) = some S2 := h
          simp at h2
      | some S1 =>
          rw [hd] at h
          have h2 : List.foldlM (sstep sn fm) S1 ds = some S2 := h
          rcases sstep_inv sn fm S S1 nm0 hd with ⟨f, st, st2, hf, hst, ham, hS1⟩
          have hmods' : ∀ nm ∈ ds, ∀ p ∈ nm.2, p.1 ≠ "InputPath" :=
            fun nm hm => hmods nm (List.mem_cons_of_mem nm0 hm)
          obtain ⟨ihres, ihtgt, ihnot⟩ := ih hmods' S1 h2
          have hword : tRun (wordOf sn fm nm0.2) st = some st2 := by
            rw [← apply_modifier_eq_word sn fm nm0.2
              (hmods nm0 (List.mem_cons_self nm0 ds)) st]
            exact ham
          have hlS1self : lookupKey S1 (sn f) = some (.dict st2) := by
            rw [hS1]
            exact lookupKey_setKey_self _ _ _
          refine ⟨?_, ?_, ?_⟩
          · intro nm hnm
            rcases List.mem_cons.mp hnm with heq | hnm2
            · subst heq
              exact ⟨f, hf⟩
            · exact ihres nm hnm2
          · intro n hn
            by_cases hnm : n = sn f
            · subst hnm
              by_cases ht2 : tgt sn fm (sn f) ds
              · rcases ihtgt (sn f) ht2 with ⟨st0', fin, hl1, hr1, hl2⟩
                rw [hlS1self] at hl1
                have h5 : Value.dict st2 = .dict st0' := by simpa using hl1
                have hst0' : st0' = st2 := by
                  have h6 : st2 = st0' := by injection h5
                  exact h6.symm
                subst hst0'
                refine ⟨st, fin, hst, ?_, hl2⟩
                rw [catFor_cons_some_eq sn fm (sn f) nm0 ds f hf rfl,
                  tRun_append, hword]
                exact hr1
              · have hcat : catFor sn fm (sn f) ds = [] :=
                  catFor_nil_of_not_tgt sn fm (sn f) ds ht2
                have hl2 : lookupKey S2 (sn f) = lookupKey S1 (sn f) :=
                  ihnot (sn f) ht2
                refine ⟨st, st2, hst, ?_, ?_⟩
                · rw [catFor_cons_some_eq sn fm (sn f) nm0 ds f hf rfl, hcat,
                    List.append_nil]
                  exact hword
                · rw [hl2, hlS1self]
            · have ht2 : tgt sn fm n ds := by
                rcases hn with ⟨nm', hm', f', hf', hsn⟩
                rcases List.mem_cons.mp hm' with heq | hm2
                · exfalso
                  subst heq
                  have h6 : some f = some f' := hf.symm.trans hf'
                  have h7 : f = f' := by injection h6
                  exact hnm (by rw [← hsn, ← h7])
                · exact ⟨nm', hm2, f', hf', hsn⟩
              rcases ihtgt n ht2 with ⟨st0', fin, hl1, hr1, hl2⟩
              have hlS1 : lookupKey S1 n = lookupKey S n := by
                rw [hS1]
                exact lookupKey_setKey_ne _ _ _ _ hnm
              rw [hlS1] at hl1
              refine ⟨st0', fin, hl1, ?_, hl2⟩
              rw [catFor_cons_some_ne sn fm n nm0 ds f hf (fun he => hnm he.symm)]
              exact hr1
          · intro n hn
            have hne : n ≠ sn f := fun he =>
              hn ⟨nm0, List.mem_cons_self _ _, f, hf, he.symm⟩
            have hnt : ¬ tgt sn fm n ds := by
              rintro ⟨nm', hm', f', hf', hsn⟩
              exact hn ⟨nm', List.mem_cons_of_mem nm0 hm', f', hf', hsn⟩
            rw [ihnot n hnt, hS1, lookupKey_setKey_ne _ _ _ _ hne]

/-- Run 2: a `States` dict whose targeted entries are mapped to their
final values by the remaining concatenated words folds back to the
final dict. -/
theorem sfold_second (sn : Func → String) (fm : FlowModifiers)
    (ds : List (Value × Dict)) (ks : List String) (S2 : Dict) : ∀ C : Dict,
    (∀ nm ∈ ds, ∀ p ∈ nm.2, p.1 ≠ "InputPath") →
    (∀ nm ∈ ds, ∃ f, get_function fm nm.1 = some f) →
    (∀ nm ∈ ds, ∀ f, get_function fm nm.1 = some f → sn f ∈ ks) →
    UpTo ks S2 C →
    (∀ n, tgt sn fm n ds → ∃ st fin, lookupKey C n = some (.dict st) ∧
        lookupKey S2 n = some (.dict fin)
        ∧ tRun (catFor sn fm n ds) st = some fin) →
    (∀ n ∈ ks, ¬ tgt sn fm n ds → lookupKey C n = lookupKey S2 n) →
    List.foldlM (sstep sn fm) C ds = some S2 := by
  induction ds with
  | nil =>
      intro C hmods hres hks hU hfix hdone
      have hCS : C = S2 := by
        apply UpTo_eq ks S2 C hU
        intro n hn
        apply hdone n hn
        rintro ⟨nm, hnm, _⟩
        exact absurd hnm (by simp)
      show some C = some S2
      rw [hCS]
  | cons nm0 ds ih =>
      intro C hmods hres hks hU hfix hdone
      rcases hres nm0 (List.mem_cons_self _ _) with ⟨f, hf⟩
      have htgthead : tgt sn fm (sn f) (nm0 :: ds) :=
        ⟨nm0, List.mem_cons_self _ _, f, hf, rfl⟩
      rcases hfix (sn f) htgthead with ⟨st, fin, hlC, hlS2, hrun⟩
      rw [catFor_cons_some_eq sn fm (sn f) nm0 ds f hf rfl, tRun_append] at hrun
      cases hw : tRun (wordOf sn fm nm0.2) st with
      | none =>
          rw [hw] at hrun
          have h2 : (none : Option Dict) = some fin := hrun
          simp at h2
      | some mid =>
          rw [hw] at hrun
          have hrun2 : tRun (catFor sn fm (sn f) ds) mid = some fin := hrun
          have ham : apply_modifier sn fm st nm0.2 = some mid := by
            rw [apply_modifier_eq_word sn fm nm0.2
              (hmods nm0 (List.mem_cons_self _ _)) st]
            exact hw
          have hstep := sstep_eq sn fm C nm0 f st mid hf hlC ham
          have hcons : List.foldlM (sstep sn fm) C (nm0 :: ds)
              = Option.bind (sstep sn fm C nm0)
                  (fun C1 => List.foldlM (sstep sn fm) C1 ds) := rfl
          rw [hcons, hstep]
          show List.foldlM (sstep sn fm) (setKey C (sn f) (.dict mid)) ds = some S2
          refine ih (setKey C (sn f) (.dict mid))
            (fun nm hm => hmods nm (List.mem_cons_of_mem nm0 hm))
            (fun nm hm => hres nm (List.mem_cons_of_mem nm0 hm))
            (fun nm hm => hks nm (List.mem_cons_of_mem nm0 hm))
            ?_ ?_ ?_
          · exact UpTo_setKey ks S2 C (sn f) (.dict mid) hU
              (hks nm0 (List.mem_cons_self _ _) f hf)
              (hasKey_of_lookupKey_some C (sn f) _ hlC)
          · intro n hn
            by_cases hnm : n = sn f
            · subst hnm
              exact ⟨mid, fin, lookupKey_setKey_self _ _ _, hlS2, hrun2⟩
            · have hn0 : tgt sn fm n (nm0 :: ds) := by
                rcases hn with ⟨nm', hm', f', hf', hsn⟩
                exact ⟨nm', List.mem_cons_of_mem nm0 hm', f', hf', hsn⟩
              rcases hfix n hn0 with ⟨st', fin', hl', hl2', hr'⟩
              rw [catFor_cons_some_ne sn fm n nm0 ds f hf
                (fun he => hnm he.symm)] at hr'
              refine ⟨st', fin', ?_, hl2', hr'⟩
              rw [lookupKey_setKey_ne _ _ _ _ hnm]
              exact hl'
          · intro n hnk hnt
            by_cases hnm : n = sn f
            · subst hnm
              have hcat0 : catFor sn fm (sn f) ds = [] :=
                catFor_nil_of_not_tgt sn fm (sn f) ds hnt
              rw [hcat0] at hrun2
              have h6 : (some mid : Option Dict) = some fin := hrun2
              have hmf : mid = fin := by simpa using h6
              rw [lookupKey_setKey_self C (sn f) (.dict mid), hlS2, hmf]
            · rw [lookupKey_setKey_ne _ _ _ _ hnm]
              apply hdone n hnk
              rintro ⟨nm', hm', f', hf', hsn⟩
              rcases List.mem_cons.mp hm' with heq | hm2
              · subst heq
                have h6 : some f = some f' := hf.symm.trans hf'
                have h7 : f = f' := by injection h6
                exact hnm (by rw [← hsn, ← h7])
              · exact hnt ⟨nm', hm2, f', hf', hsn⟩

/-- Fixpoint of the `States`-level fold: no distinctness of target
states is needed — directives sharing a state compose into one word,
which is idempotent. -/
theorem sfold_fix (sn : Func → String) (fm : FlowModifiers)
    (ds : List (Value × Dict))
    (hipm : ∀ nm ∈ ds, ∀ p ∈ nm.2, p.1 ≠ "InputPath")
    (htm : ∀ nm ∈ ds, ∀ p ∈ nm.2, p.1 = "tasks" → ListOfDicts p.2)
    (S S2 : Dict) (h : List.foldlM (sstep sn fm) S ds = some S2) :
    List.foldlM (sstep sn fm) S2 ds = some S2 := by
  obtain ⟨hres, htgt2, hnot⟩ := sfold_track sn fm ds hipm S S2 h
  refine sfold_second sn fm ds
    (ds.filterMap fun nm => (get_function fm nm.1).map sn) S2 S2
    hipm hres ?_ (UpTo_refl _ _) ?_ ?_
  · intro nm hnm f hf
    refine List.mem_filterMap.mpr ⟨nm, hnm, ?_⟩
    rw [hf]
    rfl
  · intro n hn
    rcases htgt2 n hn with ⟨st0, fin, hl1, hr1, hl2⟩
    refine ⟨fin, fin, hl2, hl2, ?_⟩
    refine tRun_word_fix sn fm (catFor sn fm n ds) ?_ st0 fin hr1
    intro o ho
    rcases catFor_mem sn fm n ds o ho with ⟨nm, hnm, p, hp, heq⟩
    exact ⟨p.1, p.2, heq, hipm nm hnm p hp, htm nm hnm p hp⟩
  · intro n hn hnt
    rfl

/-! ## Claim C4 -/

theorem foldlM_dstep_cons_none (sn : Func → String) (fm : FlowModifiers)
    (flow : Dict) (nm0 : Value × Dict) (es : List (Value × Dict)) (flow2 : Dict)
    (hbad : ∀ S, lookupKey flow "States" ≠ some (.dict S))
    (h : List.foldlM (dstep sn fm) flow (nm0 :: es) = some flow2) : False := by
  have hdn : dstep sn fm flow nm0 = none := dstep_none_of_no_states sn fm flow nm0 hbad
  have hcons : List.foldlM (dstep sn fm) flow (nm0 :: es)
      = Option.bind (dstep sn fm flow nm0)
          (fun fl1 => List.foldlM (dstep sn fm) fl1 es) := rfl
  rw [hcons, hdn] at h
  have h2 : (none : Option Dict) = some flow2 := h
  simp at h2

/-- The configured function of the C4 scenarios. -/
def c4_func : Func := ⟨0, "func_a"⟩

/-- A concrete state-name derivation for the C4 scenarios. -/
def c4_sn : Func → String := fun f => f.name ++ "_state"

/-- A valid modifier set whose single directive sets `InputPath`. -/
def c4_fm_ip : FlowModifiers :=
  ⟨[c4_func], [(.str "func_a", [("InputPath", .str "$.x")])]⟩

/-- A flow with one state that has a `Parameters` block. -/
def c4_flow_ip : Dict :=
  [("States", .dict [("func_a_state", .dict [("Parameters", .dict [])])])]

/-- The flow after one application of the `InputPath` directive. -/
def c4_flow_ip1 : Dict :=
  [("States", .dict [("func_a_state", .dict [("InputPath", .str "$.x")])])]

/-- The flow after a second application: the key has changed its name
to `InputPath.$`. -/
def c4_flow_ip2 : Dict :=
  [("States", .dict [("func_a_state", .dict [("InputPath.$", .str "$.x")])])]

/-- A valid modifier set whose single directive sets `endpoint` and
then `tasks` to a path string. -/
def c4_fm_ts : FlowModifiers :=
  ⟨[c4_func], [(.str "func_a",
    [("endpoint", .str "ep"), ("tasks", .str "$.y")])]⟩

/-- A flow whose state has a `Parameters` block with one call task. -/
def c4_flow_ts : Dict :=
  [("States", .dict [("func_a_state", .dict
    [("Parameters", .dict [("tasks", .list [.dict []])])])])]

/-- After one application the `tasks` entry has been renamed to
`tasks.$` (a path reference), so the task list is gone. -/
def c4_flow_ts1 : Dict :=
  [("States", .dict [("func_a_state", .dict
    [("Parameters", .dict [("tasks.$", .str "$.y")])])])]

/-- **C4, counterexample.**  Two valid modifier sets (`check_modifiers`
accepts both) on which applying twice differs from applying once.
First, `InputPath`: the first application of `apply_modifiers` stores
the plain key `InputPath`, the second renames it to `InputPath.$` —
`generic_set_modifier` (line 102) suffixes the key again, but the
rename of line 79 only runs while `Parameters` is still present, so
the second pass keeps the suffixed key and the output differs.
Second, a `tasks` modifier with a path-string value: the first pass
succeeds but renames `Parameters.tasks` to `tasks.$`, so the second
pass raises KeyError at `flow_state['Parameters']['tasks']` (line 73)
when the `endpoint` modifier of the same directive is re-applied —
modelled by `apply_modifiers` returning `none`. -/
theorem c4_counterexample :
    (check_modifiers c4_fm_ip = true ∧
      apply_modifiers c4_sn c4_fm_ip c4_flow_ip = some c4_flow_ip1 ∧
      apply_modifiers c4_sn c4_fm_ip c4_flow_ip1 = some c4_flow_ip2 ∧
      some c4_flow_ip2 ≠ some c4_flow_ip1) ∧
    (check_modifiers c4_fm_ts = true ∧
      apply_modifiers c4_sn c4_fm_ts c4_flow_ts = some c4_flow_ts1 ∧
      apply_modifiers c4_sn c4_fm_ts c4_flow_ts1 = none ∧
      (none : Option Dict) ≠ some c4_flow_ts1) := by
  refine ⟨⟨rfl, rfl, rfl, ?_⟩, ⟨rfl, rfl, rfl, ?_⟩⟩
  · intro h
    simp [c4_flow_ip1, c4_flow_ip2] at h
  · intro h
    simp at h

/-- **C4 (amended).**  Idempotence of `apply_modifiers`, corrected:
for every modifier set whose directives contain no `InputPath`
modifier and whose `tasks` modifier values are lists of task dicts, a
successful application is a fixed point — applying the modifier set to
its own output succeeds and returns that output unchanged, so no keys
accumulate and no key changes name on the second application.  This
covers directives that share a target state: their words compose into
one idempotent rewrite sequence.  The unamended claim fails exactly on
the two excluded shapes (see the counterexample): an `InputPath`
modifier renames its key on the second application, and a `tasks`
modifier whose value is a path string makes the second application
raise KeyError. -/
theorem c4_apply_modifiers_idempotent (sn : Func → String) (fm : FlowModifiers)
    (hip : ∀ nm ∈ fm.modifiers, ∀ p ∈ nm.2, p.1 ≠ "InputPath")
    (htasks : ∀ nm ∈ fm.modifiers, ∀ p ∈ nm.2, p.1 = "tasks" → ListOfDicts p.2)
    (flow flow2 : Dict) (h : apply_modifiers sn fm flow = some flow2) :
    apply_modifiers sn fm flow2 = some flow2 := by
  rw [apply_modifiers_eq_foldlM] at h
  rw [apply_modifiers_eq_foldlM]
  cases hds : fm.modifiers with
  | nil => rfl
  | cons nm0 es =>
      rw [hds] at h hip htasks
      cases hS : lookupKey flow "States" with
      | none =>
          exact absurd h (fun hcon => foldlM_dstep_cons_none sn fm flow nm0 es flow2
            (fun S hc => by rw [hS] at hc; simp at hc) hcon)
      | some v =>
          cases v with
          | dict S =>
              rw [foldlM_dstep_states sn fm (nm0 :: es) flow S hS] at h
              cases hs2 : List.foldlM (sstep sn fm) S (nm0 :: es) with
              | none =>
                  rw [hs2] at h
                  have h2 : (none : Option Dict) = some flow2 := h
                  simp at h2
              | some S2 =>
                  rw [hs2] at h
                  have hflow2 : flow2 = setKey flow "States" (.dict S2) := by
                    simpa using h.symm
                  have hS2 : lookupKey flow2 "States" = some (.dict S2) := by
                    rw [hflow2]
                    exact lookupKey_setKey_self _ _ _
                  rw [foldlM_dstep_states sn fm (nm0 :: es) flow2 S2 hS2,
                    sfold_fix sn fm (nm0 :: es) hip htasks S S2 hs2]
                  show some (setKey flow2 "States" (.dict S2)) = some flow2
                  rw [setKey_lookup_self flow2 "States" _ hS2]
          | str s0 =>
              exact absurd h (fun hcon => foldlM_dstep_cons_none sn fm flow nm0 es flow2
                (fun S hc => by rw [hS] at hc; simp at hc) hcon)
          | int n0 =>
              exact absurd h (fun hcon => foldlM_dstep_cons_none sn fm flow nm0 es flow2
                (fun S hc => by rw [hS] at hc; simp at hc) hcon)
          | func f0 =>
              exact absurd h (fun hcon => foldlM_dstep_cons_none sn fm flow nm0 es flow2
                (fun S hc => by rw [hS] at hc; simp at hc) hcon)
          | list l0 =>
              exact absurd h (fun hcon => foldlM_dstep_cons_none sn fm flow nm0 es flow2
                (fun S hc => by rw [hS] at hc; simp at hc) hcon)

/-- A valid modifier set with two directives sharing the same target
state: one sets `ResultPath`, the other `WaitTime`. -/
def c4_fm_rp : FlowModifiers :=
  ⟨[c4_func], [(.str "func_a", [("ResultPath", .str "$.out")]),
               (.str "func_a", [("WaitTime", .int 5)])]⟩

/-- A flow with one empty state. -/
def c4_flow_rp : Dict :=
  [("States", .dict [("func_a_state", .dict [])])]

/-- The flow after one application of both directives. -/
def c4_flow_rp1 : Dict :=
  [("States", .dict [("func_a_state", .dict
    [("ResultPath.$", .str "$.out"), ("WaitTime", .int 5)])])]

/-- Witness for C4 at a concrete input: two directives targeting the
same state, applied once and then again to the output. -/
theorem c4_witness :
    (∀ nm ∈ c4_fm_rp.modifiers, ∀ p ∈ nm.2, p.1 ≠ "InputPath") ∧
    (∀ nm ∈ c4_fm_rp.modifiers, ∀ p ∈ nm.2, p.1 = "tasks" → ListOfDicts p.2) ∧
    apply_modifiers c4_sn c4_fm_rp c4_flow_rp = some c4_flow_rp1 ∧
    apply_modifiers c4_sn c4_fm_rp c4_flow_rp1 = some c4_flow_rp1 :=
  ⟨by simp [c4_fm_rp],
   by simp [c4_fm_rp],
   rfl,
   c4_apply_modifiers_idempotent c4_sn c4_fm_rp
     (by simp [c4_fm_rp]) (by simp [c4_fm_rp])
     c4_flow_rp c4_flow_rp1 rfl⟩

end Gladier
